import Mathlib

/-!
Bifurcation-diagram renderer (`main.cpp`): a shallow embedding of the renderer and the
properties established for it.

* Floating-point values are rationals; every arithmetic operation computes the exact result and
  rounds it to nearest, ties to even, onto the grid of its format (binary32 for `float`, binary64
  for `double`, a format parameter for `long double`), with gradual underflow.  A result that is
  not finite (an overflow, a division by zero, a NaN) is `none`.
* Every operation is rounded once, to the format of its C++ type (no excess precision, no fused
  multiply-add).
* Conversions to integer types truncate toward zero and are `none` when the value does not fit
  (undefined behaviour in C++).
* The library functions `pow` are parameters of the definitions that call them.
* The pixel buffer is the map from byte offsets to bytes; the loops run in program order.
-/

namespace LogisticMap

/-- Binary-logarithm loop: the number of halvings that bring `n` below 2, with `fuel` bounding
the iteration count. -/
def log2Aux : ℕ → ℕ → ℕ
  | 0, _ => 0
  | fuel + 1, n => if n < 2 then 0 else log2Aux fuel (n / 2) + 1

/-- Floor of the binary logarithm of a natural number (0 at 0). -/
def natLog2 (n : ℕ) : ℕ := log2Aux n n

/-- The power of two `2 ^ e` for an integer exponent, computed on natural numbers. -/
def pow2 (e : ℤ) : ℚ :=
  if 0 ≤ e then ((2 ^ e.toNat : ℕ) : ℚ) else 1 / ((2 ^ (-e).toNat : ℕ) : ℚ)

/-- Floor of the binary logarithm of `|q|` for a nonzero rational `q`. -/
def ilog2 (q : ℚ) : ℤ :=
  let e : ℤ := (natLog2 q.num.natAbs : ℤ) - (natLog2 q.den : ℤ)
  if |q| < pow2 e then e - 1 else e

/-- Nearest integer, ties to the even one. -/
def rne (s : ℚ) : ℤ :=
  let f := ⌊s⌋
  let r := s - f
  if r < 1 / 2 then f else if 1 / 2 < r then f + 1 else if f % 2 = 0 then f else f + 1

/-- A binary floating-point format: `prec` significand bits, `emin` the exponent of the least
positive (subnormal) value `2 ^ emin`, and `emax` the exponent with every finite value below
`2 ^ emax` in magnitude.  The side conditions hold of every IEEE-754 interchange format. -/
structure Fmt where
  prec : ℕ
  emin : ℤ
  emax : ℤ
  prec_pos : 0 < prec
  emin_le : emin ≤ 0
  prec_le : (prec : ℤ) ≤ emax

/-- IEEE-754 binary32, the C++ `float`. -/
def binary32 : Fmt := ⟨24, -149, 128, by decide, by decide, by decide⟩

/-- IEEE-754 binary64, the C++ `double`. -/
def binary64 : Fmt := ⟨53, -1074, 1024, by decide, by decide, by decide⟩

/-- The x87 80-bit extended format, the `long double` of x86 targets. -/
def x87ext : Fmt := ⟨64, -16445, 16384, by decide, by decide, by decide⟩

/-- IEEE-754 binary128, the `long double` of several 64-bit targets. -/
def binary128 : Fmt := ⟨113, -16494, 16384, by decide, by decide, by decide⟩

/-- Exponent of the unit in the last place of the format at `q`. -/
def Fmt.ulpExp (f : Fmt) (q : ℚ) : ℤ := max (ilog2 q - ((f.prec : ℤ) - 1)) f.emin

/-- Round to nearest, ties to even, onto the grid of the format (gradual underflow, overflow not
yet checked). -/
def Fmt.round (f : Fmt) (q : ℚ) : ℚ :=
  if q = 0 then 0 else (rne (q / pow2 (f.ulpExp q)) : ℚ) * pow2 (f.ulpExp q)

/-- The result of an arithmetic operation whose exact value is `q`: the rounded value, or `none`
when it overflows to an infinity. -/
def Fmt.fin (f : Fmt) (q : ℚ) : Option ℚ :=
  if |f.round q| < pow2 f.emax then some (f.round q) else none

/-- Values representable in the format: an integer significand below `2 ^ prec` in magnitude
times a power of two not under the subnormal exponent. -/
def Fmt.Rep (f : Fmt) (q : ℚ) : Prop :=
  ∃ m e : ℤ, q = (m : ℚ) * (2 : ℚ) ^ e ∧ |m| < 2 ^ f.prec ∧ f.emin ≤ e

/-- Format `g` extends format `f`: at least its precision and its exponent range, as `long double`
extends `double`. -/
def Fmt.Extends (g f : Fmt) : Prop :=
  f.prec ≤ g.prec ∧ g.emin ≤ f.emin ∧ f.emax ≤ g.emax

/-- Division: `none` on a zero divisor (the quotient is an infinity or a NaN). -/
def Fmt.div (f : Fmt) (a b : ℚ) : Option ℚ :=
  if b = 0 then none else f.fin (a / b)

/-- Bitwise integer square root loop: `r` is the root found so far, `k` the bits left to try. -/
def sqrtAux (n : ℕ) : ℕ → ℕ → ℕ
  | 0, r => r
  | k + 1, r => sqrtAux n k (if (r + 2 ^ k) * (r + 2 ^ k) ≤ n then r + 2 ^ k else r)

/-- Floor of the square root of a natural number. -/
def natSqrt (n : ℕ) : ℕ := sqrtAux n (natLog2 n / 2 + 1) 0

/-- Correctly rounded square root (nearest, ties to even); `none` for a negative argument
(the result is a NaN). -/
def Fmt.sqrt (f : Fmt) (q : ℚ) : Option ℚ :=
  if q < 0 then none
  else if q = 0 then some 0
  else
    let e : ℤ := max (ilog2 q / 2 - ((f.prec : ℤ) - 1)) f.emin
    let s : ℚ := q / pow2 (2 * e)
    let n : ℕ := natSqrt ⌊s⌋.toNat
    let mid : ℚ := ((n : ℚ) + 1 / 2) * ((n : ℚ) + 1 / 2)
    let m : ℕ := if s < mid then n else if mid < s then n + 1 else if n % 2 = 0 then n else n + 1
    some ((m : ℚ) * pow2 e)

/-- Truncation toward zero, the rounding of every floating-to-integer conversion. -/
def truncZ (q : ℚ) : ℤ := if 0 ≤ q then ⌊q⌋ else ⌈q⌉

/-- Conversion `static_cast<int>`: defined only when the truncated value fits in 32 bits. -/
def toInt (q : ℚ) : Option ℤ :=
  if -(2 : ℤ) ^ 31 ≤ truncZ q ∧ truncZ q < (2 : ℤ) ^ 31 then some (truncZ q) else none

/-- Conversion `static_cast<uint8_t>`: defined only when the truncated value fits in 8 bits. -/
def toU8 (q : ℚ) : Option (Fin 256) :=
  if h : 0 ≤ truncZ q ∧ truncZ q < 256 then some ⟨(truncZ q).toNat, by omega⟩ else none

/-! ## The pixel buffer and `blend_pixel` -/

/-- Pixel memory `uint8_t*`: the byte stored at each offset from the start of the buffer. -/
abbrev Buffer := ℕ → Fin 256

/-- The `double` value `color` of `blend_pixel`, for the stored channel `d` and the intensity `i`:
`(double(d) / 255.f) * (double(i) / 255.f) * 255.f`, each operation rounded to binary64
(all values lie in `[0, 255]`, so none overflows). -/
def blendColor (d i : Fin 256) : ℚ :=
  binary64.round
    (binary64.round (binary64.round ((d.val : ℚ) / 255) * binary64.round ((i.val : ℚ) / 255)) * 255)

/-- The byte `static_cast<uint8_t>(color)` that `blend_pixel` stores. -/
def blendByte (d i : Fin 256) : Fin 256 := Fin.ofNat (truncZ (blendColor d i)).toNat

/-- The function `blend_pixel(dest, intensity)` with `dest = buffer + off`: the three bytes
at `dest`, `dest + 1`, `dest + 2` receive the blend of `*dest` with `intensity`. -/
def blend_pixel (buffer : Buffer) (off : ℕ) (intensity : Fin 256) : Buffer :=
  let c := blendByte (buffer off) intensity
  Function.update (Function.update (Function.update buffer off c) (off + 1) c) (off + 2) c

/-! ## `draw_aa_point` -/

/-- The integers `a, a + 1, ..., b` visited by `for (int p = a; p <= b; p++)`. -/
def intRange (a b : ℤ) : List ℤ :=
  (List.range (b + 1 - a).toNat).map (fun k => a + (k : ℤ))

/-- Body of the two nested loops of `draw_aa_point` for the pixel `(px, py)` (lines 30-48):
the squared distance in `float`, the disk test, the falloff `alpha`, the 8-bit intensity and the
blend at the byte index `(py * width + px) * 3`. -/
def splatPixel (buffer : Buffer) (width : ℤ) (x y : ℚ) (color : Fin 256) (radius r_squared : ℚ)
    (px py : ℤ) : Option Buffer := do
  let dx ← binary32.fin (binary32.round (px : ℚ) - x)
  let dy ← binary32.fin (binary32.round (py : ℚ) - y)
  let dxx ← binary32.fin (dx * dx)
  let dyy ← binary32.fin (dy * dy)
  let dist_squared ← binary32.fin (dxx + dyy)
  if r_squared < dist_squared then some buffer
  else do
    let root ← binary32.sqrt dist_squared
    let quot ← binary32.div root radius
    let alpha0 ← binary32.fin (1 - quot)
    let alpha ← binary32.fin (alpha0 * alpha0)
    let prod ← binary32.fin ((color.val : ℚ) * alpha)
    let shade ← binary32.fin (255 - prod)
    let intensity ← toU8 shade
    let idx : ℤ := (py * width + px) * 3
    if idx < 0 ∨ (2 : ℤ) ^ 31 ≤ idx then none
    else some (blend_pixel buffer idx.toNat intensity)

/-- One row of the splat: the inner loop over `px`. -/
def splatRow (width : ℤ) (x y : ℚ) (color : Fin 256) (radius r_squared : ℚ) (x0 x1 : ℤ)
    (buffer : Buffer) (py : ℤ) : Option Buffer :=
  (intRange x0 x1).foldlM
    (fun buf px => splatPixel buf width x y color radius r_squared px py) buffer

/-- The function `draw_aa_point(buffer, width, height, x, y, color, radius)`: the box bounds
of lines 19-22, `r_squared`, then the two nested loops.  The result is `none` when the call has
undefined behaviour: a box bound outside the range of `int`, a non-finite value converted to an
integer, or an index overflowing `int`. -/
def draw_aa_point (buffer : Buffer) (width height : ℤ) (x y : ℚ) (color : Fin 256)
    (radius : ℚ) : Option Buffer := do
  let bx0 ← binary32.fin (x - radius)
  let ix0 ← toInt (⌊bx0⌋ : ℚ)
  let by0 ← binary32.fin (y - radius)
  let iy0 ← toInt (⌊by0⌋ : ℚ)
  let bx1 ← binary32.fin (x + radius)
  let ix1 ← toInt (⌈bx1⌉ : ℚ)
  let by1 ← binary32.fin (y + radius)
  let iy1 ← toInt (⌈by1⌉ : ℚ)
  let x0 : ℤ := max 0 ix0
  let y0 : ℤ := max 0 iy0
  let x1 : ℤ := min (width - 1) ix1
  let y1 : ℤ := min (height - 1) iy1
  let r_squared ← binary32.fin (radius * radius)
  (intRange y0 y1).foldlM (splatRow width x y color radius r_squared x0 x1) buffer

/-- The splat loop of one sweep index (lines 125-128 of `main`): every collected point is drawn
in turn into the shared buffer. -/
def drawPoints (buffer : Buffer) (width height : ℤ) (color : Fin 256) (radius : ℚ)
    (points : List (ℚ × ℚ)) : Option Buffer :=
  points.foldlM (fun buf p => draw_aa_point buf width height p.1 p.2 color radius) buffer

/-- Every pixel has three equal channels. -/
def Monochrome (buffer : Buffer) : Prop :=
  ∀ p : ℕ, buffer (3 * p) = buffer (3 * p + 1) ∧ buffer (3 * p + 1) = buffer (3 * p + 2)

/-! ## The parameter warp of the sweep loop -/

/-- The control parameter `r` of sweep index `i` (lines 90-96 of `main`), for the `long double`
format `ld` and the library function `powl`:
`t = (long double) i / (r_steps - 1)`, `scaled_t = pow(t, power)`,
`r = start + interval * scaled_t` with `interval = end - start` computed in `double`. -/
def sample (ld : Fmt) (powl : ℚ → ℚ → Option ℚ) (r_steps i : ℕ) (start stop power : ℚ) :
    Option ℚ := do
  let interval ← binary64.fin (stop - start)
  let t ← ld.div (ld.round (i : ℚ)) (ld.round ((r_steps - 1 : ℕ) : ℚ))
  let scaled_t ← powl t power
  let prod ← ld.fin (interval * scaled_t)
  ld.fin (start + prod)

/-! ## The orbit loop -/

/-- One iteration `x = r * x * (1.0 - x)` in `long double`; `none` is a non-finite value. -/
def orbitStep (ld : Fmt) (r : ℚ) (x : Option ℚ) : Option ℚ := do
  let xv ← x
  let rx ← ld.fin (r * xv)
  let om ← ld.fin (1 - xv)
  ld.fin (rx * om)

/-- The row `py = static_cast<float>((1 - x) * (height/1.0f - 1))` of an iterate. -/
def rowOf (ld : Fmt) (height : ℕ) (x : Option ℚ) : Option ℚ := do
  let xv ← x
  let hf ← binary32.div (binary32.round (height : ℚ)) 1
  let h1 ← binary32.fin (hf - 1)
  let om ← ld.fin (1 - xv)
  let prod ← ld.fin (om * h1)
  binary32.fin prod

/-- The recording loop `for (int n = skip_iter; n < max_iter; ++n)`, with `count` iterations left
and `x` the current iterate: the points stored, in order. -/
def recordLoop (ld : Fmt) (r : ℚ) (height i : ℕ) : ℕ → Option ℚ → List (ℚ × ℚ)
  | 0, _ => []
  | count + 1, x =>
    let x1 := orbitStep ld r x
    match rowOf ld height x1 with
    | some py =>
      if 0 ≤ py ∧ py < binary32.round (height : ℚ) then
        (binary32.round (i : ℚ), py) :: recordLoop ld r height i count x1
      else recordLoop ld r height i count x1
    | none => recordLoop ld r height i count x1

/-- The orbit loop of one sweep index (lines 101-122 of `main`): `skip_iter` transient
iterations from the seed `x0`, then the recording loop up to `max_iter`. -/
def orbit (ld : Fmt) (r x0 : ℚ) (skip_iter max_iter height i : ℕ) : List (ℚ × ℚ) :=
  recordLoop ld r height i (max_iter - skip_iter) ((orbitStep ld r)^[skip_iter] (some x0))

/-! ## The tone-mapping pass -/

/-- The byte written by the tone-mapping pass for the first channel `c` of a pixel, with the
library function `powf`: `value = (255.0f - c) / 255.0f`, `value = pow(value, 0.7f)`,
`static_cast<uint8_t>(value * 200.0f)`. -/
def toneByte (powf : ℚ → ℚ → Option ℚ) (c : Fin 256) : Option (Fin 256) := do
  let diff ← binary32.fin (255 - (c.val : ℚ))
  let value ← binary32.div diff 255
  let value2 ← powf value (binary32.round (7 / 10))
  let scaled ← binary32.fin (value2 * 200)
  toU8 scaled

/-- Body of the tone-mapping loops for the pixel at byte offset `off`. -/
def tonePixel (powf : ℚ → ℚ → Option ℚ) (buffer : Buffer) (off : ℕ) : Option Buffer := do
  let c ← toneByte powf (buffer off)
  some (Function.update (Function.update (Function.update buffer off c) (off + 1) c) (off + 2) c)

/-- The tone-mapping pass (lines 141-149 of `main`) over a `width` by `height` image. -/
def toneMap (powf : ℚ → ℚ → Option ℚ) (width height : ℕ) (buffer : Buffer) : Option Buffer :=
  (List.range height).foldlM
    (fun buf y => (List.range width).foldlM
      (fun b x => tonePixel powf b ((y * width + x) * 3)) buf) buffer

/-! ## The parts of `draw_aa_point` -/

/-- The clamped integer box `(x0, y0, x1, y1)` of `draw_aa_point` (lines 19-22); `none` when a
bound does not fit in an `int`. -/
def boxBounds (width height : ℤ) (x y radius : ℚ) : Option (ℤ × ℤ × ℤ × ℤ) := do
  let bx0 ← binary32.fin (x - radius)
  let ix0 ← toInt (⌊bx0⌋ : ℚ)
  let by0 ← binary32.fin (y - radius)
  let iy0 ← toInt (⌊by0⌋ : ℚ)
  let bx1 ← binary32.fin (x + radius)
  let ix1 ← toInt (⌈bx1⌉ : ℚ)
  let by1 ← binary32.fin (y + radius)
  let iy1 ← toInt (⌈by1⌉ : ℚ)
  some (max 0 ix0, max 0 iy0, min (width - 1) ix1, min (height - 1) iy1)

/-- The pixels `(px, py)` visited by the two nested loops of `draw_aa_point`, in order. -/
def boxPixels (x0 y0 x1 y1 : ℤ) : List (ℤ × ℤ) :=
  (intRange y0 y1).flatMap (fun py => (intRange x0 x1).map (fun px => (px, py)))

/-- The value `dist_squared` of the pixel `(px, py)` (lines 30-32). -/
def distSquared (x y : ℚ) (px py : ℤ) : Option ℚ := do
  let dx ← binary32.fin (binary32.round (px : ℚ) - x)
  let dy ← binary32.fin (binary32.round (py : ℚ) - y)
  let dxx ← binary32.fin (dx * dx)
  let dyy ← binary32.fin (dy * dy)
  binary32.fin (dxx + dyy)

/-- The falloff `alpha` of a pixel with the given `dist_squared` (lines 40-41). -/
def alphaAt (radius dist_squared : ℚ) : Option ℚ := do
  let root ← binary32.sqrt dist_squared
  let quot ← binary32.div root radius
  let alpha0 ← binary32.fin (1 - quot)
  binary32.fin (alpha0 * alpha0)

/-- The 8-bit intensity `static_cast<uint8_t>(255 - color*alpha)` (line 44). -/
def intensityAt (color : Fin 256) (alpha : ℚ) : Option (Fin 256) := do
  let prod ← binary32.fin ((color.val : ℚ) * alpha)
  let shade ← binary32.fin (255 - prod)
  toU8 shade

/-- What the loop body does at the pixel `(px, py)`: `some none` when the pixel is skipped by
the disk test, `some (some i)` when it is blended with the intensity `i`, and `none` when a
value is not finite or does not fit in 8 bits. -/
def pixelOutcome (x y : ℚ) (color : Fin 256) (radius r_squared : ℚ) (px py : ℤ) :
    Option (Option (Fin 256)) := do
  let dist_squared ← distSquared x y px py
  if r_squared < dist_squared then some none
  else do
    let alpha ← alphaAt radius dist_squared
    let intensity ← intensityAt color alpha
    some (some intensity)

theorem pow2_eq (e : ℤ) : pow2 e = (2 : ℚ) ^ e := by
  unfold pow2
  split_ifs with h
  · obtain ⟨n, rfl⟩ := Int.eq_ofNat_of_zero_le h
    simp
  · obtain ⟨n, hn⟩ : ∃ n : ℕ, -e = n := ⟨(-e).toNat, by omega⟩
    have : e = -(n : ℤ) := by omega
    rw [hn, this]
    simp

theorem log2Aux_spec : ∀ (fuel n : ℕ), n ≤ fuel → 0 < n →
    2 ^ log2Aux fuel n ≤ n ∧ n < 2 ^ (log2Aux fuel n + 1)
  | 0, n, h, hn => by omega
  | fuel + 1, n, h, hn => by
    unfold log2Aux
    split_ifs with h2
    · constructor <;> simp <;> omega
    · have ih := log2Aux_spec fuel (n / 2) (by omega) (by omega)
      obtain ⟨h1, h3⟩ := ih
      constructor
      · rw [pow_succ]; omega
      · rw [pow_succ]; omega

theorem natLog2_spec (n : ℕ) (hn : 0 < n) : 2 ^ natLog2 n ≤ n ∧ n < 2 ^ (natLog2 n + 1) :=
  log2Aux_spec n n le_rfl hn

theorem ilog2_spec (q : ℚ) (hq : q ≠ 0) :
    (2 : ℚ) ^ ilog2 q ≤ |q| ∧ |q| < (2 : ℚ) ^ (ilog2 q + 1) := by
  have hnum : 0 < q.num.natAbs := Int.natAbs_pos.mpr (Rat.num_ne_zero.mpr hq)
  have hden : 0 < q.den := q.den_pos
  obtain ⟨a1, a2⟩ := natLog2_spec _ hnum
  obtain ⟨b1, b2⟩ := natLog2_spec _ hden
  have habs : |q| = (q.num.natAbs : ℚ) / (q.den : ℚ) := by
    conv_lhs => rw [← Rat.num_div_den q]
    rw [abs_div, Nat.cast_natAbs, Int.cast_abs, Nat.abs_cast]
  have hdq : (0 : ℚ) < q.den := by exact_mod_cast hden
  have A1 : (2 : ℚ) ^ natLog2 q.num.natAbs ≤ (q.num.natAbs : ℚ) := by exact_mod_cast a1
  have A2 : (q.num.natAbs : ℚ) < (2 : ℚ) ^ (natLog2 q.num.natAbs + 1) := by exact_mod_cast a2
  have B1 : (2 : ℚ) ^ natLog2 q.den ≤ (q.den : ℚ) := by exact_mod_cast b1
  have B2 : (q.den : ℚ) < (2 : ℚ) ^ (natLog2 q.den + 1) := by exact_mod_cast b2
  set la := natLog2 q.num.natAbs
  set lb := natLog2 q.den
  have two_pos : ∀ k : ℤ, (0 : ℚ) < (2 : ℚ) ^ k := fun k => zpow_pos (by norm_num) k
  -- bounds of |q|
  have lo : (2 : ℚ) ^ ((la : ℤ) - lb - 1) < |q| := by
    rw [habs, lt_div_iff₀ hdq]
    calc (2 : ℚ) ^ ((la : ℤ) - lb - 1) * q.den
        < (2 : ℚ) ^ ((la : ℤ) - lb - 1) * (2 : ℚ) ^ (lb + 1) :=
          mul_lt_mul_of_pos_left B2 (two_pos _)
      _ = (2 : ℚ) ^ la := by
          rw [← zpow_natCast 2 (lb + 1), ← zpow_add₀ (by norm_num : (2 : ℚ) ≠ 0)]
          rw [← zpow_natCast]; congr 1; push_cast; ring
      _ ≤ _ := A1
  have hi : |q| < (2 : ℚ) ^ ((la : ℤ) - lb + 1) := by
    rw [habs, div_lt_iff₀ hdq]
    calc (q.num.natAbs : ℚ) < (2 : ℚ) ^ (la + 1) := A2
      _ = (2 : ℚ) ^ ((la : ℤ) - lb + 1) * (2 : ℚ) ^ lb := by
          rw [← zpow_natCast 2 lb, ← zpow_add₀ (by norm_num : (2 : ℚ) ≠ 0)]
          rw [← zpow_natCast]; congr 1; push_cast; ring
      _ ≤ (2 : ℚ) ^ ((la : ℤ) - lb + 1) * q.den :=
          mul_le_mul_of_nonneg_left B1 (two_pos _).le
  unfold ilog2
  simp only [pow2_eq]
  split_ifs with h
  · exact ⟨lo.le, by simpa using h⟩
  · exact ⟨not_lt.mp h, hi⟩

theorem two_zpow_pos (k : ℤ) : (0 : ℚ) < (2 : ℚ) ^ k := zpow_pos (by norm_num) k

theorem two_zpow_le {a b : ℤ} (h : a ≤ b) : (2 : ℚ) ^ a ≤ (2 : ℚ) ^ b :=
  zpow_le_zpow_right₀ (by norm_num) h

theorem two_zpow_lt_iff {a b : ℤ} : (2 : ℚ) ^ a < (2 : ℚ) ^ b ↔ a < b :=
  zpow_lt_zpow_iff_right₀ (by norm_num)

/-- The exponent found by `ilog2` is the unique one bracketing `|q|`. -/
theorem ilog2_eq (q : ℚ) (k : ℤ) (h1 : (2 : ℚ) ^ k ≤ |q|) (h2 : |q| < (2 : ℚ) ^ (k + 1)) :
    ilog2 q = k := by
  have hq : q ≠ 0 := by
    intro h; rw [h, abs_zero] at h1; exact absurd h1 (not_le.mpr (two_zpow_pos k))
  obtain ⟨s1, s2⟩ := ilog2_spec q hq
  have c1 : ilog2 q < k + 1 := two_zpow_lt_iff.mp (lt_of_le_of_lt s1 h2)
  have c2 : k < ilog2 q + 1 := two_zpow_lt_iff.mp (lt_of_le_of_lt h1 s2)
  omega

theorem ilog2_mono {x y : ℚ} (hx : x ≠ 0) (h : |x| ≤ |y|) : ilog2 x ≤ ilog2 y := by
  have hy : y ≠ 0 := by
    intro h0; rw [h0, abs_zero] at h; exact hx (abs_eq_zero.mp (le_antisymm h (abs_nonneg _)))
  obtain ⟨s1, _⟩ := ilog2_spec x hx
  obtain ⟨_, t2⟩ := ilog2_spec y hy
  have : ilog2 x < ilog2 y + 1 := two_zpow_lt_iff.mp (lt_of_le_of_lt (s1.trans h) t2)
  omega

theorem ilog2_neg (q : ℚ) : ilog2 (-q) = ilog2 q := by
  unfold ilog2; simp

theorem rne_intCast (k : ℤ) : rne (k : ℚ) = k := by
  unfold rne
  simp

theorem rne_floor_le (s : ℚ) : ⌊s⌋ ≤ rne s := by
  unfold rne
  simp only
  split_ifs <;> omega

theorem rne_le_floor_succ (s : ℚ) : rne s ≤ ⌊s⌋ + 1 := by
  unfold rne
  simp only
  split_ifs <;> omega

theorem rne_mono {s t : ℚ} (h : s ≤ t) : rne s ≤ rne t := by
  have hfl : ⌊s⌋ ≤ ⌊t⌋ := Int.floor_mono h
  rcases hfl.lt_or_eq with hlt | heq
  · calc rne s ≤ ⌊s⌋ + 1 := rne_le_floor_succ s
      _ ≤ ⌊t⌋ := hlt
      _ ≤ rne t := rne_floor_le t
  · have hr : s - ⌊s⌋ ≤ t - ⌊t⌋ := by rw [heq]; linarith
    unfold rne
    simp only
    rw [← heq]
    rw [← heq] at hr
    split_ifs <;> first | omega | (exfalso; linarith)

theorem rne_sub_le (s : ℚ) : |(rne s : ℚ) - s| ≤ 1 / 2 := by
  have h1 := Int.floor_le s
  have h2 := Int.lt_floor_add_one s
  unfold rne
  simp only
  rw [abs_le]
  split_ifs with a b c <;> push_cast <;> constructor <;> linarith

theorem rne_neg (s : ℚ) : rne (-s) = -rne s := by
  by_cases hs : (⌊s⌋ : ℚ) = s
  · rw [← hs, ← Int.cast_neg, rne_intCast, rne_intCast]
  · have h1 := Int.floor_le s
    have h2 := Int.lt_floor_add_one s
    have hlt : (⌊s⌋ : ℚ) < s := lt_of_le_of_ne h1 hs
    have hfl : ⌊-s⌋ = -⌊s⌋ - 1 := by
      rw [Int.floor_eq_iff]; push_cast; constructor <;> linarith
    unfold rne
    simp only
    rw [hfl]
    push_cast
    split_ifs <;> first | omega | (exfalso; linarith)

theorem rne_le_of_le {s : ℚ} {k : ℤ} (h : s ≤ k) : rne s ≤ k := by
  have := rne_mono h; rwa [rne_intCast] at this

theorem rne_ge_of_ge {s : ℚ} {k : ℤ} (h : (k : ℚ) ≤ s) : k ≤ rne s := by
  have := rne_mono h; rwa [rne_intCast] at this

theorem Fmt.round_zero (f : Fmt) : f.round 0 = 0 := by
  simp [Fmt.round]

theorem Fmt.ulpExp_neg (f : Fmt) (q : ℚ) : f.ulpExp (-q) = f.ulpExp q := by
  simp [Fmt.ulpExp, ilog2_neg]

theorem Fmt.round_neg (f : Fmt) (q : ℚ) : f.round (-q) = -f.round q := by
  by_cases hq : q = 0
  · simp [hq, Fmt.round]
  · have hq2 : -q ≠ 0 := neg_ne_zero.mpr hq
    simp only [Fmt.round, hq, hq2, if_false, Fmt.ulpExp_neg, neg_div, rne_neg, pow2_eq]
    push_cast; ring

theorem Fmt.emin_le_ulpExp (f : Fmt) (q : ℚ) : f.emin ≤ f.ulpExp q := le_max_right _ _

/-- A multiple of the unit in the last place is left unchanged. -/
theorem Fmt.round_eq_of_grid (f : Fmt) (q : ℚ) (m e : ℤ) (hq : q = (m : ℚ) * (2 : ℚ) ^ e)
    (he : f.ulpExp q ≤ e) : f.round q = q := by
  by_cases h0 : q = 0
  · rw [h0, Fmt.round_zero]
  · simp only [Fmt.round, h0, if_false, pow2_eq]
    have h2 : (2 : ℚ) ≠ 0 := by norm_num
    obtain ⟨k, hk⟩ : ∃ k : ℕ, e - f.ulpExp q = k := ⟨(e - f.ulpExp q).toNat, by omega⟩
    have hdiv : q / (2 : ℚ) ^ f.ulpExp q = ((m * 2 ^ k : ℤ) : ℚ) := by
      rw [div_eq_iff (zpow_ne_zero _ h2)]
      push_cast
      rw [mul_assoc, ← zpow_natCast, ← zpow_add₀ h2, ← hk]
      conv_lhs => rw [hq]
      congr 2; ring
    rw [hdiv, rne_intCast, ← hdiv, div_mul_cancel₀ _ (zpow_ne_zero _ h2)]

theorem Fmt.round_rep (f : Fmt) {q : ℚ} (h : f.Rep q) : f.round q = q := by
  obtain ⟨m, e, hq, hm, he⟩ := h
  by_cases h0 : q = 0
  · rw [h0, Fmt.round_zero]
  apply f.round_eq_of_grid q m e hq
  apply max_le _ he
  -- |q| < 2 ^ (prec + e)
  have hm' : |(m : ℚ)| < (2 : ℚ) ^ (f.prec : ℤ) := by
    rw [← Int.cast_abs, zpow_natCast]; exact_mod_cast hm
  have hlt : |q| < (2 : ℚ) ^ ((f.prec : ℤ) + e) := by
    rw [hq, abs_mul, abs_of_pos (two_zpow_pos e), zpow_add₀ (by norm_num : (2 : ℚ) ≠ 0)]
    exact mul_lt_mul_of_pos_right hm' (two_zpow_pos e)
  have := two_zpow_lt_iff.mp (lt_of_le_of_lt (ilog2_spec q h0).1 hlt)
  omega

theorem Fmt.round_nonneg (f : Fmt) {q : ℚ} (h : 0 ≤ q) : 0 ≤ f.round q := by
  unfold Fmt.round
  simp only [pow2_eq]
  split_ifs
  · exact le_rfl
  · apply mul_nonneg _ (two_zpow_pos _).le
    have : (0 : ℤ) ≤ rne (q / (2 : ℚ) ^ f.ulpExp q) :=
      rne_ge_of_ge (by push_cast; exact div_nonneg h (two_zpow_pos _).le)
    exact_mod_cast this

theorem Fmt.round_nonpos (f : Fmt) {q : ℚ} (h : q ≤ 0) : f.round q ≤ 0 := by
  have := f.round_nonneg (neg_nonneg.mpr h)
  rw [f.round_neg] at this
  linarith

/-- Rounding a positive value stays on the side of a power of two of its own grid. -/
theorem Fmt.round_le_two_zpow (f : Fmt) {q : ℚ} (k : ℤ) (hq : 0 < q) (hk : f.ulpExp q ≤ k)
    (h : q ≤ (2 : ℚ) ^ k) : f.round q ≤ (2 : ℚ) ^ k := by
  have h2 : (2 : ℚ) ≠ 0 := by norm_num
  simp only [Fmt.round, hq.ne', if_false, pow2_eq]
  obtain ⟨n, hn⟩ : ∃ n : ℕ, k - f.ulpExp q = n := ⟨(k - f.ulpExp q).toNat, by omega⟩
  have hB : (2 : ℚ) ^ k = ((2 ^ n : ℤ) : ℚ) * (2 : ℚ) ^ f.ulpExp q := by
    push_cast
    rw [← zpow_natCast, ← zpow_add₀ h2, ← hn]; congr 1; ring
  have hle : q / (2 : ℚ) ^ f.ulpExp q ≤ ((2 ^ n : ℤ) : ℚ) := by
    rw [div_le_iff₀ (two_zpow_pos _), ← hB]; exact h
  have := rne_le_of_le hle
  rw [hB]
  exact mul_le_mul_of_nonneg_right (by exact_mod_cast this) (two_zpow_pos _).le

theorem Fmt.two_zpow_le_round (f : Fmt) {q : ℚ} (k : ℤ) (hq : 0 < q) (hk : f.ulpExp q ≤ k)
    (h : (2 : ℚ) ^ k ≤ q) : (2 : ℚ) ^ k ≤ f.round q := by
  have h2 : (2 : ℚ) ≠ 0 := by norm_num
  simp only [Fmt.round, hq.ne', if_false, pow2_eq]
  obtain ⟨n, hn⟩ : ∃ n : ℕ, k - f.ulpExp q = n := ⟨(k - f.ulpExp q).toNat, by omega⟩
  have hB : (2 : ℚ) ^ k = ((2 ^ n : ℤ) : ℚ) * (2 : ℚ) ^ f.ulpExp q := by
    push_cast
    rw [← zpow_natCast, ← zpow_add₀ h2, ← hn]; congr 1; ring
  have hle : ((2 ^ n : ℤ) : ℚ) ≤ q / (2 : ℚ) ^ f.ulpExp q := by
    rw [le_div_iff₀ (two_zpow_pos _), ← hB]; exact h
  have := rne_ge_of_ge hle
  rw [hB]
  exact mul_le_mul_of_nonneg_right (by exact_mod_cast this) (two_zpow_pos _).le

theorem Fmt.round_mono_pos (f : Fmt) {x y : ℚ} (hx : 0 < x) (h : x ≤ y) :
    f.round x ≤ f.round y := by
  have hy : 0 < y := lt_of_lt_of_le hx h
  have hlog : ilog2 x ≤ ilog2 y := ilog2_mono hx.ne' (by rwa [abs_of_pos hx, abs_of_pos hy])
  have hexy : f.ulpExp x ≤ f.ulpExp y := max_le_max (by omega) le_rfl
  rcases hexy.lt_or_eq with hlt | heq
  · -- different binades: a power of two separates the two roundings
    have hey : f.ulpExp y = ilog2 y - ((f.prec : ℤ) - 1) := by
      have h1 := f.emin_le_ulpExp x
      unfold Fmt.ulpExp at hlt ⊢
      rcases max_cases (ilog2 y - ((f.prec : ℤ) - 1)) f.emin with ⟨a, _⟩ | ⟨a, _⟩
      · exact a
      · rw [a] at hlt; unfold Fmt.ulpExp at h1; omega
    have hlog' : ilog2 x < ilog2 y := by
      by_contra hc
      have : ilog2 x = ilog2 y := by omega
      unfold Fmt.ulpExp at hlt; rw [this] at hlt; exact lt_irrefl _ hlt
    have hp := f.prec_pos
    have hxB : x ≤ (2 : ℚ) ^ ilog2 y := by
      have := (ilog2_spec x hx.ne').2
      rw [abs_of_pos hx] at this
      exact this.le.trans (two_zpow_le (by omega))
    have hBy : (2 : ℚ) ^ ilog2 y ≤ y := by
      have := (ilog2_spec y hy.ne').1
      rwa [abs_of_pos hy] at this
    exact (f.round_le_two_zpow (ilog2 y) hx (by omega) hxB).trans
      (f.two_zpow_le_round (ilog2 y) hy (by omega) hBy)
  · simp only [Fmt.round, hx.ne', hy.ne', if_false, heq, pow2_eq]
    apply mul_le_mul_of_nonneg_right _ (two_zpow_pos _).le
    have : rne (x / (2 : ℚ) ^ f.ulpExp y) ≤ rne (y / (2 : ℚ) ^ f.ulpExp y) :=
      rne_mono (div_le_div_of_nonneg_right h (two_zpow_pos _).le)
    exact_mod_cast this

/-- Rounding to nearest is monotone. -/
theorem Fmt.round_mono (f : Fmt) {x y : ℚ} (h : x ≤ y) : f.round x ≤ f.round y := by
  rcases lt_trichotomy 0 x with hx | hx | hx
  · exact f.round_mono_pos hx h
  · rw [← hx, f.round_zero]; exact f.round_nonneg (hx ▸ h)
  · rcases le_or_lt 0 y with hy | hy
    · exact (f.round_nonpos hx.le).trans (f.round_nonneg hy)
    · have := f.round_mono_pos (neg_pos.mpr hy) (neg_le_neg h)
      rw [f.round_neg, f.round_neg] at this
      linarith

theorem Fmt.rep_zero (f : Fmt) : f.Rep 0 :=
  ⟨0, 0, by simp, by simp, f.emin_le⟩

theorem Fmt.rep_intCast (f : Fmt) (n : ℤ) (h : |n| < 2 ^ f.prec) : f.Rep (n : ℚ) :=
  ⟨n, 0, by simp, h, f.emin_le⟩

theorem Fmt.rep_natCast (f : Fmt) (n : ℕ) (h : n < 2 ^ f.prec) : f.Rep (n : ℚ) := by
  have := f.rep_intCast (n : ℤ) (by rw [Nat.abs_cast]; exact_mod_cast h)
  simpa using this

theorem Fmt.rep_neg (f : Fmt) {q : ℚ} (h : f.Rep q) : f.Rep (-q) := by
  obtain ⟨m, e, hq, hm, he⟩ := h
  exact ⟨-m, e, by rw [hq]; push_cast; ring, by rwa [abs_neg], he⟩

/-- The scaled significand of a nonzero value is below `2 ^ prec` in magnitude. -/
theorem Fmt.abs_scaled_lt (f : Fmt) {q : ℚ} (hq : q ≠ 0) :
    |q / (2 : ℚ) ^ f.ulpExp q| < (2 : ℚ) ^ (f.prec : ℤ) := by
  rw [abs_div, abs_of_pos (two_zpow_pos _), div_lt_iff₀ (two_zpow_pos _),
    ← zpow_add₀ (by norm_num : (2 : ℚ) ≠ 0)]
  refine lt_of_lt_of_le (ilog2_spec q hq).2 (two_zpow_le ?_)
  have : ilog2 q - ((f.prec : ℤ) - 1) ≤ f.ulpExp q := le_max_left _ _
  omega

/-- The rounded value is representable. -/
theorem Fmt.rep_round (f : Fmt) (q : ℚ) : f.Rep (f.round q) := by
  by_cases hq : q = 0
  · rw [hq, f.round_zero]; exact f.rep_zero
  simp only [Fmt.round, hq, if_false, pow2_eq]
  set u := f.ulpExp q with hu
  set s := q / (2 : ℚ) ^ u with hs
  have hlt := f.abs_scaled_lt hq
  rw [← hu, ← hs, abs_lt] at hlt
  have hP : ((2 ^ f.prec : ℤ) : ℚ) = (2 : ℚ) ^ (f.prec : ℤ) := by push_cast; rw [zpow_natCast]
  have hup : rne s ≤ 2 ^ f.prec := rne_le_of_le (by rw [hP]; exact hlt.2.le)
  have hlo : -(2 ^ f.prec : ℤ) ≤ rne s := rne_ge_of_ge (by push_cast; rw [← zpow_natCast]; exact hlt.1.le)
  have hemin : f.emin ≤ u := f.emin_le_ulpExp q
  have hp := f.prec_pos
  obtain ⟨p', hp'⟩ : ∃ p', f.prec = p' + 1 := ⟨f.prec - 1, by omega⟩
  have h2p : (2 : ℤ) ^ f.prec = 2 * 2 ^ p' := by rw [hp', pow_succ]; ring
  have hpos : (0 : ℤ) < 2 ^ p' := by positivity
  rcases hup.lt_or_eq with h1 | h1
  · rcases hlo.lt_or_eq with h3 | h3
    · exact ⟨rne s, u, rfl, abs_lt.mpr ⟨h3, h1⟩, hemin⟩
    · refine ⟨-(2 ^ p'), u + 1, ?_, ?_, by omega⟩
      · rw [← h3, h2p, zpow_add₀ (by norm_num : (2 : ℚ) ≠ 0)]; push_cast; ring
      · rw [abs_neg, abs_of_pos hpos, h2p]; omega
  · refine ⟨2 ^ p', u + 1, ?_, ?_, by omega⟩
    · rw [h1, h2p, zpow_add₀ (by norm_num : (2 : ℚ) ≠ 0)]; push_cast; ring
    · rw [abs_of_pos hpos, h2p]; omega

theorem Fmt.round_idem (f : Fmt) (q : ℚ) : f.round (f.round q) = f.round q :=
  f.round_rep (f.rep_round q)

/-- A value not above a representable bound rounds to a value not above it. -/
theorem Fmt.round_le_of_le_rep (f : Fmt) {q b : ℚ} (hb : f.Rep b) (h : q ≤ b) : f.round q ≤ b := by
  have := f.round_mono h; rwa [f.round_rep hb] at this

theorem Fmt.le_round_of_rep_le (f : Fmt) {q b : ℚ} (hb : f.Rep b) (h : b ≤ q) : b ≤ f.round q := by
  have := f.round_mono h; rwa [f.round_rep hb] at this

/-- A representable value strictly below the rounding of `q` is strictly below `q`. -/
theorem Fmt.lt_of_rep_lt_round (f : Fmt) {a q : ℚ} (ha : f.Rep a) (h : a < f.round q) : a < q := by
  by_contra hc
  exact absurd (f.round_le_of_le_rep ha (not_lt.mp hc)) (not_le.mpr h)

theorem Fmt.lt_of_round_lt_rep (f : Fmt) {a q : ℚ} (ha : f.Rep a) (h : f.round q < a) : q < a := by
  by_contra hc
  exact absurd (f.le_round_of_rep_le ha (not_lt.mp hc)) (not_le.mpr h)

/-- Rounding error: at most half a unit in the last place. -/
theorem Fmt.abs_round_sub_le (f : Fmt) (q : ℚ) :
    |f.round q - q| ≤ (2 : ℚ) ^ f.ulpExp q / 2 := by
  by_cases hq : q = 0
  · rw [hq, f.round_zero, sub_zero, abs_zero]; exact div_nonneg (two_zpow_pos _).le (by norm_num)
  simp only [Fmt.round, hq, if_false, pow2_eq]
  have h2 : (2 : ℚ) ^ f.ulpExp q ≠ 0 := (two_zpow_pos _).ne'
  have key := rne_sub_le (q / (2 : ℚ) ^ f.ulpExp q)
  have e : (rne (q / (2 : ℚ) ^ f.ulpExp q) : ℚ) * (2 : ℚ) ^ f.ulpExp q - q
      = ((rne (q / (2 : ℚ) ^ f.ulpExp q) : ℚ) - q / (2 : ℚ) ^ f.ulpExp q) * (2 : ℚ) ^ f.ulpExp q := by
    field_simp
  rw [e, abs_mul, abs_of_pos (two_zpow_pos _)]
  calc _ ≤ 1 / 2 * (2 : ℚ) ^ f.ulpExp q := mul_le_mul_of_nonneg_right key (two_zpow_pos _).le
    _ = _ := by ring

/-- Relative rounding error in the normal range: at most `2 ^ (-prec)`. -/
theorem Fmt.abs_round_sub_le_rel (f : Fmt) (q : ℚ)
    (hn : (2 : ℚ) ^ (f.emin + (f.prec : ℤ) - 1) ≤ |q|) :
    |f.round q - q| ≤ |q| * (2 : ℚ) ^ (-(f.prec : ℤ)) := by
  have hq : q ≠ 0 := by
    intro h; rw [h, abs_zero] at hn; exact absurd hn (not_le.mpr (two_zpow_pos _))
  have hlog : f.emin + (f.prec : ℤ) - 1 ≤ ilog2 q := by
    have := two_zpow_lt_iff.mp (lt_of_le_of_lt hn (ilog2_spec q hq).2)
    omega
  have hu : f.ulpExp q = ilog2 q - ((f.prec : ℤ) - 1) := max_eq_left (by omega)
  refine (f.abs_round_sub_le q).trans ?_
  rw [hu]
  have e : (2 : ℚ) ^ (ilog2 q - ((f.prec : ℤ) - 1)) / 2
      = (2 : ℚ) ^ ilog2 q * (2 : ℚ) ^ (-(f.prec : ℤ)) := by
    rw [← zpow_add₀ (by norm_num : (2 : ℚ) ≠ 0), div_eq_iff (by norm_num : (2 : ℚ) ≠ 0)]
    nth_rewrite 3 [← zpow_one (2 : ℚ)]
    rw [← zpow_add₀ (by norm_num : (2 : ℚ) ≠ 0)]
    congr 1; ring
  rw [e]
  exact mul_le_mul_of_nonneg_right (ilog2_spec q hq).1 (two_zpow_pos _).le

/-- Absolute rounding error below a power of two. -/
theorem Fmt.abs_round_sub_le_of_le (f : Fmt) (q : ℚ) (k : ℤ) (hq : |q| ≤ (2 : ℚ) ^ k)
    (hk : f.emin ≤ k - f.prec) : |f.round q - q| ≤ (2 : ℚ) ^ (k - f.prec) := by
  by_cases h0 : q = 0
  · rw [h0, f.round_zero, sub_zero, abs_zero]; exact (two_zpow_pos _).le
  rcases hq.lt_or_eq with hlt | heq
  · refine (f.abs_round_sub_le q).trans ?_
    have hlog : ilog2 q < k := two_zpow_lt_iff.mp (lt_of_le_of_lt (ilog2_spec q h0).1 hlt)
    have hu : f.ulpExp q ≤ k - f.prec := max_le (by omega) hk
    calc (2 : ℚ) ^ f.ulpExp q / 2 ≤ (2 : ℚ) ^ f.ulpExp q := by
          have := two_zpow_pos (f.ulpExp q); linarith
      _ ≤ _ := two_zpow_le hu
  · -- a power of two is representable
    have hp := f.prec_pos
    have hrep : f.Rep q := by
      rcases abs_cases q with ⟨ha, _⟩ | ⟨ha, _⟩
      · refine ⟨1, k, by rw [← ha, heq]; simp, ?_, by omega⟩
        rw [abs_one]; exact one_lt_two.trans_le (le_self_pow₀ (by norm_num) (by omega))
      · refine ⟨-1, k, by push_cast; linarith, ?_, by omega⟩
        rw [abs_neg, abs_one]; exact one_lt_two.trans_le (le_self_pow₀ (by norm_num) (by omega))
    rw [f.round_rep hrep, sub_self, abs_zero]; exact (two_zpow_pos _).le

theorem Fmt.rep_one (f : Fmt) : f.Rep 1 := by
  have := f.rep_natCast 1 (Nat.one_lt_two_pow (by have := f.prec_pos; omega))
  simpa using this

theorem truncZ_mono {a b : ℚ} (h : a ≤ b) : truncZ a ≤ truncZ b := by
  unfold truncZ
  split_ifs with ha hb hb
  · exact Int.floor_mono h
  · exact absurd (ha.trans h) hb
  · have : ⌈a⌉ ≤ 0 := Int.ceil_le.mpr (by push_cast; linarith)
    exact this.trans (Int.floor_nonneg.mpr hb)
  · exact Int.ceil_mono h

theorem truncZ_intCast (k : ℤ) : truncZ (k : ℚ) = k := by
  unfold truncZ; split_ifs <;> simp

theorem truncZ_of_nonneg {a : ℚ} (h : 0 ≤ a) : truncZ a = ⌊a⌋ := by
  unfold truncZ; rw [if_pos h]

theorem binary64_round_unit {q : ℚ} (h0 : 0 ≤ q) (h1 : q ≤ 1) :
    0 ≤ binary64.round q ∧ binary64.round q ≤ 1 ∧ |binary64.round q - q| ≤ (2 : ℚ) ^ (-53 : ℤ) := by
  refine ⟨binary64.round_nonneg h0, binary64.round_le_of_le_rep binary64.rep_one h1, ?_⟩
  have := binary64.abs_round_sub_le_of_le q 0 (by rw [abs_of_nonneg h0]; simpa using h1)
    (by decide)
  simpa [binary64] using this

theorem blendColor_err_arith (A B a b c P : ℚ) (hA0 : 0 ≤ A) (hA1 : A ≤ 1)
    (b0 : 0 ≤ b) (b1 : b ≤ 1)
    (ae : |a - A| ≤ 1 / 9007199254740992) (be : |b - B| ≤ 1 / 9007199254740992)
    (ce : |c - a * b| ≤ 1 / 9007199254740992) (hPe : |P - c * 255| ≤ 1 / 35184372088832) :
    |P - 255 * (A * B)| ≤ 1 / 4398046511104 := by
  rw [abs_le] at ae be ce hPe ⊢
  have hab : a * b - A * B = (a - A) * b + A * (b - B) := by ring
  have h1 : -(2 / 9007199254740992 : ℚ) ≤ a * b - A * B ∧ a * b - A * B ≤ 2 / 9007199254740992 := by
    rw [hab]
    constructor <;> nlinarith [ae.1, ae.2, be.1, be.2]
  constructor <;> linarith [h1.1, h1.2, ce.1, ce.2, hPe.1, hPe.2]

/-- The `double` product of `blend_pixel` is within `2 ^ (-42)` of the exact `d * i / 255`. -/
theorem blendColor_err (d i : Fin 256) :
    0 ≤ blendColor d i ∧ |blendColor d i - (d.val : ℚ) * (i.val : ℚ) / 255| ≤ (2 : ℚ) ^ (-42 : ℤ) := by
  have hd : (d.val : ℚ) ≤ 255 := by exact_mod_cast Nat.lt_succ_iff.mp d.isLt
  have hi : (i.val : ℚ) ≤ 255 := by exact_mod_cast Nat.lt_succ_iff.mp i.isLt
  have hd0 : (0 : ℚ) ≤ d.val := Nat.cast_nonneg _
  have hi0 : (0 : ℚ) ≤ i.val := Nat.cast_nonneg _
  have hA0 : (0 : ℚ) ≤ (d.val : ℚ) / 255 := div_nonneg hd0 (by norm_num)
  have hB0 : (0 : ℚ) ≤ (i.val : ℚ) / 255 := div_nonneg hi0 (by norm_num)
  have hA1 : (d.val : ℚ) / 255 ≤ 1 := by rw [div_le_one (by norm_num)]; exact hd
  have hB1 : (i.val : ℚ) / 255 ≤ 1 := by rw [div_le_one (by norm_num)]; exact hi
  obtain ⟨a0, a1, ae⟩ := binary64_round_unit hA0 hA1
  obtain ⟨b0, b1, be⟩ := binary64_round_unit hB0 hB1
  have hblend : blendColor d i = binary64.round (binary64.round
      (binary64.round ((d.val : ℚ) / 255) * binary64.round ((i.val : ℚ) / 255)) * 255) := rfl
  rw [hblend]
  generalize binary64.round ((d.val : ℚ) / 255) = a at *
  generalize binary64.round ((i.val : ℚ) / 255) = b at *
  obtain ⟨c0, c1, ce⟩ := binary64_round_unit (q := a * b) (mul_nonneg a0 b0) (by nlinarith)
  generalize binary64.round (a * b) = c at *
  have hc255 : 0 ≤ c * 255 := by nlinarith
  have hP0 : 0 ≤ binary64.round (c * 255) := binary64.round_nonneg hc255
  have hPe : |binary64.round (c * 255) - c * 255| ≤ (2 : ℚ) ^ (-45 : ℤ) := by
    have := binary64.abs_round_sub_le_of_le (c * 255) 8
      (by rw [abs_of_nonneg hc255]; norm_num; nlinarith) (by decide)
    simpa [binary64] using this
  generalize binary64.round (c * 255) = P at *
  have e53 : (2 : ℚ) ^ (-53 : ℤ) = 1 / 9007199254740992 := by norm_num [zpow_neg]
  have e45 : (2 : ℚ) ^ (-45 : ℤ) = 1 / 35184372088832 := by norm_num [zpow_neg]
  have e42 : (2 : ℚ) ^ (-42 : ℤ) = 1 / 4398046511104 := by norm_num [zpow_neg]
  rw [e53] at ae be ce
  rw [e45] at hPe
  rw [e42]
  have hX : (d.val : ℚ) * (i.val : ℚ) / 255 = 255 * ((d.val : ℚ) / 255 * ((i.val : ℚ) / 255)) := by
    field_simp; ring
  rw [hX]
  exact ⟨hP0, blendColor_err_arith _ _ a b c P hA0 hA1 b0 b1 ae be ce hPe⟩

/-- The byte stored by `blend_pixel` is the truncated `double` product, and it is the floor of
the exact `d * i / 255` or one less. -/
theorem blendByte_bounds (d i : Fin 256) :
    ((blendByte d i).val : ℤ) = ⌊blendColor d i⌋ ∧
      ⌊(d.val : ℚ) * (i.val : ℚ) / 255⌋ - 1 ≤ ((blendByte d i).val : ℤ) ∧
      ((blendByte d i).val : ℤ) ≤ ⌊(d.val : ℚ) * (i.val : ℚ) / 255⌋ := by
  obtain ⟨h0, he⟩ := blendColor_err d i
  have e42 : (2 : ℚ) ^ (-42 : ℤ) = 1 / 4398046511104 := by norm_num [zpow_neg]
  rw [e42, abs_le] at he
  set P := blendColor d i with hP
  set N : ℕ := d.val * i.val with hN
  have hXN : (d.val : ℚ) * (i.val : ℚ) / 255 = (N : ℚ) / 255 := by rw [hN]; push_cast; ring
  have hfloorX : ⌊(N : ℚ) / 255⌋ = ((N / 255 : ℕ) : ℤ) := by
    rw [Int.floor_eq_iff]
    have h1 := Nat.div_add_mod N 255
    have h2 := Nat.mod_lt N (by norm_num : 255 > 0)
    have h3 : (N : ℚ) = 255 * ((N / 255 : ℕ) : ℚ) + ((N % 255 : ℕ) : ℚ) := by
      exact_mod_cast h1.symm
    have h4 : ((N % 255 : ℕ) : ℚ) < 255 := by exact_mod_cast h2
    have h5 : (0 : ℚ) ≤ ((N % 255 : ℕ) : ℚ) := Nat.cast_nonneg _
    rw [Int.cast_natCast]
    generalize ((N / 255 : ℕ) : ℚ) = n at h3 ⊢
    generalize ((N % 255 : ℕ) : ℚ) = k at h3 h4 h5
    constructor
    · rw [le_div_iff₀ (by norm_num)]; linarith
    · rw [div_lt_iff₀ (by norm_num)]; linarith
  rw [hXN] at he ⊢
  rw [hfloorX]
  have hdiv := Nat.div_add_mod N 255
  have hmod := Nat.mod_lt N (by norm_num : 255 > 0)
  obtain ⟨n, hn⟩ : ∃ n, n = N / 255 := ⟨_, rfl⟩
  obtain ⟨k, hk'⟩ : ∃ k, k = N % 255 := ⟨_, rfl⟩
  rw [← hn, ← hk'] at hdiv
  rw [← hk'] at hmod
  rw [← hn]
  have hNq : (N : ℚ) = 255 * (n : ℚ) + (k : ℚ) := by exact_mod_cast hdiv.symm
  have hk : (k : ℚ) ≤ 254 := by exact_mod_cast Nat.lt_succ_iff.mp hmod
  have hk0 : (0 : ℚ) ≤ (k : ℚ) := Nat.cast_nonneg _
  rw [hNq] at he
  have hup : ⌊P⌋ ≤ (n : ℤ) := by
    rw [← Int.lt_add_one_iff, Int.floor_lt]; push_cast
    linarith [he.2]
  have hlo : (n : ℤ) - 1 ≤ ⌊P⌋ := by
    rw [Int.le_floor]; push_cast
    linarith [he.1]
  have hfl0 : 0 ≤ ⌊P⌋ := Int.floor_nonneg.mpr h0
  have hn255 : n ≤ 255 := by
    have h1 : d.val ≤ 255 := Nat.lt_succ_iff.mp d.isLt
    have h2 : i.val ≤ 255 := Nat.lt_succ_iff.mp i.isLt
    have : N ≤ 255 * 255 := Nat.mul_le_mul h1 h2
    omega
  have hval : ((blendByte d i).val : ℤ) = ⌊P⌋ := by
    unfold blendByte
    rw [← hP, truncZ_of_nonneg h0]
    have : ⌊P⌋.toNat < 256 := by omega
    simp only [Fin.ofNat, Fin.val_mk]
    rw [Nat.mod_eq_of_lt this]
    omega
  exact ⟨hval, by rw [hval]; exact hlo, by rw [hval]; exact hup⟩

/-- Blending never brightens a channel. -/
theorem blendByte_le (d i : Fin 256) : blendByte d i ≤ d := by
  obtain ⟨_, _, h⟩ := blendByte_bounds d i
  have hi : (i.val : ℚ) ≤ 255 := by exact_mod_cast Nat.lt_succ_iff.mp i.isLt
  have hd0 : (0 : ℚ) ≤ d.val := Nat.cast_nonneg _
  have : ⌊(d.val : ℚ) * (i.val : ℚ) / 255⌋ ≤ (d.val : ℤ) := by
    rw [← Int.lt_add_one_iff, Int.floor_lt]; push_cast
    rw [div_lt_iff₀ (by norm_num)]; nlinarith
  rw [Fin.le_def]
  omega

/-- An invariant of the loop body is an invariant of the loop. -/
theorem foldlM_invariant {α β : Type} (P : β → Prop) (f : β → α → Option β)
    (hf : ∀ b a b', P b → f b a = some b' → P b') :
    ∀ (l : List α) (b out : β), P b → l.foldlM f b = some out → P out
  | [], b, out, hb, h => by
    simp only [List.foldlM, Option.pure_def, Option.some.injEq] at h
    exact h ▸ hb
  | a :: l, b, out, hb, h => by
    simp only [List.foldlM, Option.bind_eq_bind, Option.bind_eq_some] at h
    obtain ⟨b', h1, h2⟩ := h
    exact foldlM_invariant P f hf l b' out (hf b a b' hb h1) h2

theorem blend_pixel_apply (buffer : Buffer) (off : ℕ) (i : Fin 256) (k : ℕ) :
    blend_pixel buffer off i k =
      if k = off ∨ k = off + 1 ∨ k = off + 2 then blendByte (buffer off) i else buffer k := by
  unfold blend_pixel
  simp only [Function.update_apply]
  by_cases h2 : k = off + 2
  · simp [h2]
  by_cases h1 : k = off + 1
  · simp [h1]
  by_cases h0 : k = off
  · simp [h0]
  · simp [h0, h1, h2]

theorem update3_apply (buffer : Buffer) (off : ℕ) (c : Fin 256) (k : ℕ) :
    Function.update (Function.update (Function.update buffer off c) (off + 1) c) (off + 2) c k =
      if k = off ∨ k = off + 1 ∨ k = off + 2 then c else buffer k := by
  simp only [Function.update_apply]
  by_cases h2 : k = off + 2
  · simp [h2]
  by_cases h1 : k = off + 1
  · simp [h1]
  by_cases h0 : k = off
  · simp [h0]
  · simp [h0, h1, h2]

/-- Writing one byte into the three channels of a pixel keeps the channels of every pixel
equal. -/
theorem monochrome_update3 (buffer : Buffer) (p : ℕ) (c : Fin 256) (h : Monochrome buffer) :
    Monochrome
      (Function.update (Function.update (Function.update buffer (3 * p) c) (3 * p + 1) c)
        (3 * p + 2) c) := by
  intro q
  simp only [update3_apply]
  by_cases hq : q = p
  · subst hq; simp
  · have e1 : ¬ (3 * q = 3 * p ∨ 3 * q = 3 * p + 1 ∨ 3 * q = 3 * p + 2) := by omega
    have e2 : ¬ (3 * q + 1 = 3 * p ∨ 3 * q + 1 = 3 * p + 1 ∨ 3 * q + 1 = 3 * p + 2) := by omega
    have e3 : ¬ (3 * q + 2 = 3 * p ∨ 3 * q + 2 = 3 * p + 1 ∨ 3 * q + 2 = 3 * p + 2) := by omega
    rw [if_neg e1, if_neg e2, if_neg e3]
    exact h q

theorem monochrome_blend_pixel (buffer : Buffer) (p : ℕ) (i : Fin 256) (h : Monochrome buffer) :
    Monochrome (blend_pixel buffer (3 * p) i) :=
  monochrome_update3 buffer p _ h

/-- On a buffer with equal channels, blending a pixel raises no byte. -/
theorem blend_pixel_le (buffer : Buffer) (p : ℕ) (i : Fin 256) (h : Monochrome buffer) (k : ℕ) :
    blend_pixel buffer (3 * p) i k ≤ buffer k := by
  rw [blend_pixel_apply]
  split_ifs with hk
  · have hb := blendByte_le (buffer (3 * p)) i
    rcases hk with rfl | rfl | rfl
    · exact hb
    · rw [← (h p).1]; exact hb
    · rw [← (h p).2, ← (h p).1]; exact hb
  · exact le_rfl

/-- The loop body of `draw_aa_point` either skips the pixel or blends one pixel-aligned
offset. -/
theorem splatPixel_cases (buffer out : Buffer) (width : ℤ) (x y : ℚ) (color : Fin 256)
    (radius r_squared : ℚ) (px py : ℤ)
    (h : splatPixel buffer width x y color radius r_squared px py = some out) :
    out = buffer ∨ ∃ (p : ℕ) (i : Fin 256), out = blend_pixel buffer (3 * p) i := by
  unfold splatPixel at h
  simp only [Option.bind_eq_bind, Option.bind_eq_some] at h
  obtain ⟨dx, -, dy, -, dxx, -, dyy, -, d2, -, h⟩ := h
  split_ifs at h with hskip hidx
  · left; exact (Option.some.inj h).symm
  · simp only [Option.bind_eq_some] at h
    obtain ⟨root, -, q, -, a0, -, al, -, pr, -, sh, -, i, -, h⟩ := h
    exact absurd h (by simp)
  · simp only [Option.bind_eq_some] at h
    obtain ⟨root, -, q, -, a0, -, al, -, pr, -, sh, -, i, -, h⟩ := h
    right
    refine ⟨(py * width + px).toNat, i, ?_⟩
    have : ((py * width + px) * 3).toNat = 3 * (py * width + px).toNat := by omega
    rw [← this]
    exact (Option.some.inj h).symm

/-- Any property of buffers kept by skipping and by blending a pixel is kept by
`draw_aa_point`. -/
theorem draw_aa_point_invariant (P : Buffer → Prop)
    (hP : ∀ (b : Buffer) (p : ℕ) (i : Fin 256), P b → P (blend_pixel b (3 * p) i))
    (buffer out : Buffer) (width height : ℤ) (x y : ℚ) (color : Fin 256) (radius : ℚ)
    (hb : P buffer) (h : draw_aa_point buffer width height x y color radius = some out) :
    P out := by
  unfold draw_aa_point at h
  simp only [Option.bind_eq_bind, Option.bind_eq_some] at h
  obtain ⟨bx0, -, ix0, -, by0, -, iy0, -, bx1, -, ix1, -, by1, -, iy1, -, rs, -, h⟩ := h
  refine foldlM_invariant P _ ?_ _ buffer out hb h
  intro b py b' hb hrow
  unfold splatRow at hrow
  refine foldlM_invariant P _ ?_ _ b b' hb hrow
  intro c px c' hc hpix
  rcases splatPixel_cases _ _ _ _ _ _ _ _ _ _ hpix with rfl | ⟨p, i, rfl⟩
  · exact hc
  · exact hP c p i hc

theorem monochrome_tonePixel (powf : ℚ → ℚ → Option ℚ) (b b' : Buffer) (p : ℕ)
    (hb : Monochrome b) (h : tonePixel powf b (3 * p) = some b') : Monochrome b' := by
  unfold tonePixel at h
  simp only [Option.bind_eq_bind, Option.bind_eq_some, Option.some.injEq] at h
  obtain ⟨c, -, rfl⟩ := h
  exact monochrome_update3 b p c hb

theorem monochrome_toneMap (powf : ℚ → ℚ → Option ℚ) (width height : ℕ) (buffer out : Buffer)
    (hb : Monochrome buffer) (h : toneMap powf width height buffer = some out) :
    Monochrome out := by
  unfold toneMap at h
  refine foldlM_invariant Monochrome _ ?_ _ buffer out hb h
  intro b y b' hb hrow
  refine foldlM_invariant Monochrome _ ?_ _ b b' hb hrow
  intro c x c' hc hpix
  rw [Nat.mul_comm] at hpix
  exact monochrome_tonePixel powf c c' _ hc hpix

theorem monochrome_draw_aa_point (buffer out : Buffer) (width height : ℤ) (x y : ℚ)
    (color : Fin 256) (radius : ℚ) (hb : Monochrome buffer)
    (h : draw_aa_point buffer width height x y color radius = some out) : Monochrome out :=
  draw_aa_point_invariant Monochrome (fun b p i hb => monochrome_blend_pixel b p i hb)
    buffer out width height x y color radius hb h

theorem draw_aa_point_le (buffer out : Buffer) (width height : ℤ) (x y : ℚ)
    (color : Fin 256) (radius : ℚ) (hb : Monochrome buffer)
    (h : draw_aa_point buffer width height x y color radius = some out) :
    Monochrome out ∧ ∀ k, out k ≤ buffer k := by
  refine draw_aa_point_invariant (fun b => Monochrome b ∧ ∀ k, b k ≤ buffer k) ?_
    buffer out width height x y color radius ⟨hb, fun k => le_rfl⟩ h
  intro b p i ⟨hm, hle⟩
  exact ⟨monochrome_blend_pixel b p i hm, fun k => (blend_pixel_le b p i hm k).trans (hle k)⟩

/-- C4: if every pixel of the buffer has three equal channels, then so has every pixel after a
call of `blend_pixel` on a pixel (`dest` is always the first byte of a pixel), after a call of
`draw_aa_point`, and after the tone-mapping pass. -/
theorem monochrome_preserved (buffer : Buffer) (hb : Monochrome buffer) :
    (∀ (p : ℕ) (i : Fin 256), Monochrome (blend_pixel buffer (3 * p) i)) ∧
    (∀ (width height : ℤ) (x y : ℚ) (color : Fin 256) (radius : ℚ) (out : Buffer),
      draw_aa_point buffer width height x y color radius = some out → Monochrome out) ∧
    (∀ (powf : ℚ → ℚ → Option ℚ) (width height : ℕ) (out : Buffer),
      toneMap powf width height buffer = some out → Monochrome out) :=
  ⟨fun p i => monochrome_blend_pixel buffer p i hb,
   fun width height x y color radius out h =>
     monochrome_draw_aa_point buffer out width height x y color radius hb h,
   fun powf width height out h => monochrome_toneMap powf width height buffer out hb h⟩

theorem monochrome_const (c : Fin 256) : Monochrome (fun _ => c) := fun _ => ⟨rfl, rfl⟩

/-- Witness of C4 on the white buffer of `main`: a blend, a splat at `(1, 1)` of a 4 by 4 image
and the tone map (with the identity for `powf`) all run and keep the channels equal. -/
theorem monochrome_preserved_witness :
    Monochrome (fun _ => 255) ∧
    Monochrome (blend_pixel (fun _ => 255) (3 * 5) 254) ∧
    (∃ out, draw_aa_point (fun _ => 255) 4 4 1 1 1 1 = some out ∧ Monochrome out) ∧
    (∃ out, toneMap (fun v _ => some v) 4 4 (fun _ => 255) = some out ∧ Monochrome out) := by
  have hw : Monochrome (fun _ => 255) := monochrome_const 255
  have h := monochrome_preserved (fun _ => 255) hw
  obtain ⟨o1, ho1⟩ := Option.isSome_iff_exists.mp
    (show (draw_aa_point (fun _ => 255) 4 4 1 1 1 1).isSome = true by decide!)
  obtain ⟨o2, ho2⟩ := Option.isSome_iff_exists.mp
    (show (toneMap (fun v _ => some v) 4 4 (fun _ => 255)).isSome = true by decide!)
  exact ⟨hw, h.1 5 254, ⟨o1, ho1, h.2.1 _ _ _ _ _ _ o1 ho1⟩, ⟨o2, ho2, h.2.2 _ _ _ o2 ho2⟩⟩

/-- C5 fails for a buffer whose channels differ: on the pixel `(200, 10, 10)` a splat at its
center writes 199 into the second channel, above its previous value 10. -/
theorem draw_aa_point_brightens :
    (draw_aa_point (fun k => if k = 0 then 200 else 10) 1 1 0 0 1 1).map (fun b => b 1) = some 199 ∧
    (fun k : ℕ => if k = 0 then (200 : Fin 256) else 10) 1 = 10 := by
  constructor
  · decide!
  · decide

/-- C5, amended: on a buffer whose pixels have three equal channels, `blend_pixel(d, i) ≤ d`
for all bytes, every byte after `draw_aa_point` is at most its value before the call, for
every point, radius and color strength, and so is every byte after any sequence of splats. -/
theorem splat_never_brightens (buffer : Buffer) (hb : Monochrome buffer) :
    (∀ d i : Fin 256, blendByte d i ≤ d) ∧
    (∀ (width height : ℤ) (x y : ℚ) (color : Fin 256) (radius : ℚ) (out : Buffer),
      draw_aa_point buffer width height x y color radius = some out → ∀ k, out k ≤ buffer k) ∧
    (∀ (width height : ℤ) (color : Fin 256) (radius : ℚ) (points : List (ℚ × ℚ)) (out : Buffer),
      drawPoints buffer width height color radius points = some out → ∀ k, out k ≤ buffer k) := by
  refine ⟨blendByte_le, ?_, ?_⟩
  · intro width height x y color radius out h
    exact (draw_aa_point_le buffer out width height x y color radius hb h).2
  · intro width height color radius points out h
    unfold drawPoints at h
    have := foldlM_invariant (fun b => Monochrome b ∧ ∀ k, b k ≤ buffer k) _ ?_ points buffer out
      ⟨hb, fun k => le_rfl⟩ h
    · exact this.2
    · intro b p b' ⟨hm, hle⟩ hstep
      obtain ⟨hm', hle'⟩ := draw_aa_point_le b b' width height p.1 p.2 color radius hm hstep
      exact ⟨hm', fun k => (hle' k).trans (hle k)⟩

/-- Witness of the amended C5 on the white buffer: a splat and a sequence of two splats run,
and leave no byte above 255. -/
theorem splat_never_brightens_witness :
    Monochrome (fun _ => 255) ∧
    (∃ out, draw_aa_point (fun _ => 255) 4 4 1 1 1 1 = some out ∧
      ∀ k, out k ≤ (fun _ => (255 : Fin 256)) k) ∧
    (∃ out, drawPoints (fun _ => 255) 4 4 1 1 [(1, 1), (1, 3 / 2)] = some out ∧
      ∀ k, out k ≤ (fun _ => (255 : Fin 256)) k) := by
  have hw : Monochrome (fun _ => 255) := monochrome_const 255
  have h := splat_never_brightens (fun _ => 255) hw
  obtain ⟨o1, ho1⟩ := Option.isSome_iff_exists.mp
    (show (draw_aa_point (fun _ => 255) 4 4 1 1 1 1).isSome = true by decide!)
  obtain ⟨o2, ho2⟩ := Option.isSome_iff_exists.mp
    (show (drawPoints (fun _ => 255) 4 4 1 1 [(1, 1), (1, 3 / 2)]).isSome = true by decide!)
  exact ⟨hw, ⟨o1, ho1, h.2.1 _ _ _ _ _ _ o1 ho1⟩, ⟨o2, ho2, h.2.2 _ _ _ _ _ o2 ho2⟩⟩

/-- C8 fails: for the stored byte 1 and the intensity 128 `blend_pixel` writes 0, the truncation
of 0.50196..., where rounding gives 1. -/
theorem blend_pixel_not_rounded :
    blend_pixel (fun _ => 1) 0 128 0 = 0 ∧
    round ((1 : ℚ) / 255 * ((128 : ℚ) / 255) * 255) = 1 := by
  constructor
  · decide!
  · rw [round_eq, Int.floor_eq_iff]; norm_num

/-- C8, amended: `blend_pixel` writes into all three channels the truncation toward zero of the
`double` product `((d / 255) * (i / 255)) * 255`; this byte is the floor of the exact
`d * i / 255` or one less, never its rounding upward. -/
theorem blend_pixel_truncates (buffer : Buffer) (off : ℕ) (i : Fin 256) :
    blend_pixel buffer off i off = blend_pixel buffer off i (off + 1) ∧
    blend_pixel buffer off i (off + 1) = blend_pixel buffer off i (off + 2) ∧
    ((blend_pixel buffer off i off).val : ℤ) = ⌊blendColor (buffer off) i⌋ ∧
    ⌊((buffer off).val : ℚ) * (i.val : ℚ) / 255⌋ - 1 ≤ ((blend_pixel buffer off i off).val : ℤ) ∧
    ((blend_pixel buffer off i off).val : ℤ) ≤ ⌊((buffer off).val : ℚ) * (i.val : ℚ) / 255⌋ := by
  have e0 : blend_pixel buffer off i off = blendByte (buffer off) i := by
    rw [blend_pixel_apply]; simp
  have e1 : blend_pixel buffer off i (off + 1) = blendByte (buffer off) i := by
    rw [blend_pixel_apply]; simp
  have e2 : blend_pixel buffer off i (off + 2) = blendByte (buffer off) i := by
    rw [blend_pixel_apply]; simp
  rw [e0, e1, e2]
  exact ⟨rfl, rfl, blendByte_bounds (buffer off) i⟩

theorem Fmt.fin_eq_some (f : Fmt) {q v : ℚ} (h : f.fin q = some v) :
    v = f.round q ∧ |v| < (2 : ℚ) ^ f.emax := by
  unfold Fmt.fin at h
  rw [pow2_eq] at h
  split_ifs at h with hlt
  have := Option.some.inj h
  exact ⟨this.symm, this ▸ hlt⟩

theorem Fmt.rep_of_fin (f : Fmt) {q v : ℚ} (h : f.fin q = some v) : f.Rep v := by
  rw [(f.fin_eq_some h).1]; exact f.rep_round q

theorem Fmt.fin_of_rep (f : Fmt) {q : ℚ} (h : f.Rep q) (hlt : |q| < (2 : ℚ) ^ f.emax) :
    f.fin q = some q := by
  unfold Fmt.fin
  rw [pow2_eq, f.round_rep h, if_pos hlt]

/-- The row of a stored sample is a `float`. -/
theorem rowOf_rep (ld : Fmt) (height : ℕ) (x : Option ℚ) (py : ℚ)
    (h : rowOf ld height x = some py) : binary32.Rep py := by
  unfold rowOf at h
  simp only [Option.bind_eq_bind, Option.bind_eq_some] at h
  obtain ⟨xv, -, hf, -, h1, -, om, -, prod, -, h⟩ := h
  exact binary32.rep_of_fin h

theorem recordLoop_spec (ld : Fmt) (r : ℚ) (height i : ℕ) :
    ∀ (count : ℕ) (x : Option ℚ),
      (recordLoop ld r height i count x).length ≤ count ∧
      ∀ p ∈ recordLoop ld r height i count x,
        0 ≤ p.2 ∧ p.2 < (height : ℚ) ∧
          ∃ k, 1 ≤ k ∧ k ≤ count ∧ rowOf ld height ((orbitStep ld r)^[k] x) = some p.2
  | 0, x => by simp [recordLoop]
  | count + 1, x => by
    obtain ⟨ihl, ihp⟩ := recordLoop_spec ld r height i count (orbitStep ld r x)
    have ih' : ∀ p ∈ recordLoop ld r height i count (orbitStep ld r x),
        0 ≤ p.2 ∧ p.2 < (height : ℚ) ∧
          ∃ k, 1 ≤ k ∧ k ≤ count + 1 ∧ rowOf ld height ((orbitStep ld r)^[k] x) = some p.2 := by
      intro p hp
      obtain ⟨a, b, k, k1, k2, hk⟩ := ihp p hp
      exact ⟨a, b, k + 1, by omega, by omega, by rw [Function.iterate_succ_apply]; exact hk⟩
    unfold recordLoop
    simp only
    cases hrow : rowOf ld height (orbitStep ld r x) with
    | none => exact ⟨by simp only []; omega, ih'⟩
    | some py =>
      simp only
      split_ifs with hc
      · refine ⟨by simp only [List.length_cons]; omega, ?_⟩
        intro p hp
        rcases List.mem_cons.mp hp with rfl | hp
        · refine ⟨hc.1, ?_, 1, le_rfl, by omega, by simpa using hrow⟩
          exact binary32.lt_of_rep_lt_round (rowOf_rep ld height _ py hrow) hc.2
        · exact ih' p hp
      · exact ⟨by omega, ih'⟩

/-- C1: for every parameter `r`, seed `x0`, height and iteration counts (and every `long double`
format), the orbit loop of one sweep index collects at most `max_iter - skip_iter` points, and
the row of every collected point satisfies `0 ≤ py < height`; the row is the unmodified row of
an iterate after the transient (a sample out of range is dropped, not clamped). -/
theorem orbit_bounded (ld : Fmt) (r x0 : ℚ) (skip_iter max_iter height i : ℕ) :
    (orbit ld r x0 skip_iter max_iter height i).length ≤ max_iter - skip_iter ∧
    ∀ p ∈ orbit ld r x0 skip_iter max_iter height i,
      0 ≤ p.2 ∧ p.2 < (height : ℚ) ∧
        ∃ n, skip_iter < n ∧ n ≤ max_iter ∧
          rowOf ld height ((orbitStep ld r)^[n] (some x0)) = some p.2 := by
  unfold orbit
  obtain ⟨hl, hp⟩ := recordLoop_spec ld r height i (max_iter - skip_iter)
    ((orbitStep ld r)^[skip_iter] (some x0))
  refine ⟨hl, ?_⟩
  intro p hmem
  obtain ⟨a, b, k, k1, k2, hk⟩ := hp p hmem
  refine ⟨a, b, k + skip_iter, by omega, by omega, ?_⟩
  rw [Function.iterate_add_apply]; exact hk

theorem Fmt.rep_of_extends {g f : Fmt} (h : g.Extends f) {q : ℚ} (hq : f.Rep q) : g.Rep q := by
  obtain ⟨m, e, hq, hm, he⟩ := hq
  obtain ⟨hp, hmin, _⟩ := h
  exact ⟨m, e, hq, hm.trans_le (pow_le_pow_right₀ (by norm_num) hp), hmin.trans he⟩

/-- A natural number up to `2 ^ prec` is representable. -/
theorem Fmt.rep_natCast_le (f : Fmt) (n : ℕ) (h : n ≤ 2 ^ f.prec) : f.Rep (n : ℚ) := by
  rcases h.lt_or_eq with hlt | heq
  · exact f.rep_natCast n hlt
  · have hp := f.prec_pos
    refine ⟨1, f.prec, ?_, ?_, f.emin_le.trans (by omega)⟩
    · rw [heq]; push_cast; rw [zpow_natCast]; ring
    · rw [abs_one]; exact one_lt_two.trans_le (le_self_pow₀ (by norm_num) (by omega))

/-- Half of a natural number below `2 ^ prec` is representable. -/
theorem Fmt.rep_half_natCast (f : Fmt) (n : ℕ) (h : n < 2 ^ f.prec) (he : f.emin ≤ -1) :
    f.Rep ((n : ℚ) / 2) := by
  refine ⟨n, -1, ?_, by rw [Nat.abs_cast]; exact_mod_cast h, he⟩
  rw [zpow_neg_one]; push_cast; ring

theorem Fmt.two_pow_prec_le (f : Fmt) : (2 : ℚ) ^ f.prec ≤ (2 : ℚ) ^ f.emax := by
  rw [← zpow_natCast]; exact two_zpow_le f.prec_le

theorem Fmt.fin_one (f : Fmt) : f.fin 1 = some 1 := by
  apply f.fin_of_rep f.rep_one
  rw [abs_one]
  have hp := f.prec_pos
  have : (2 : ℚ) ^ (1 : ℤ) ≤ (2 : ℚ) ^ f.emax := two_zpow_le (by have := f.prec_le; omega)
  rw [zpow_one] at this
  linarith

theorem Fmt.fin_half (f : Fmt) (he : f.emin ≤ -1) : f.fin (1 / 2) = some (1 / 2) := by
  have hr : f.Rep (1 / 2) := by
    have := f.rep_half_natCast 1 (Nat.one_lt_two_pow (by have := f.prec_pos; omega)) he
    simpa using this
  apply f.fin_of_rep hr
  have hp := f.prec_pos
  have : (2 : ℚ) ^ (1 : ℤ) ≤ (2 : ℚ) ^ f.emax := two_zpow_le (by have := f.prec_le; omega)
  rw [zpow_one] at this
  rw [abs_of_pos (by norm_num)]
  linarith

/-- With `r = 2` the seed `0.5` is a fixed point of the iteration, exactly. -/
theorem orbitStep_half (ld : Fmt) (he : ld.emin ≤ -1) :
    orbitStep ld 2 (some (1 / 2)) = some (1 / 2) := by
  have e1 : ld.fin (2 * (1 / 2)) = some 1 := by
    rw [show (2 : ℚ) * (1 / 2) = 1 by norm_num]; exact ld.fin_one
  have e2 : ld.fin (1 - 1 / 2) = some (1 / 2) := by
    rw [show (1 : ℚ) - 1 / 2 = 1 / 2 by norm_num]; exact ld.fin_half he
  have e3 : ld.fin (1 * (1 / 2)) = some (1 / 2) := by
    rw [one_mul]; exact ld.fin_half he
  simp only [orbitStep, Option.bind_eq_bind, Option.some_bind, e1, e2, e3]

theorem rowOf_half (ld : Fmt) (hld : ld.Extends binary64) (height : ℕ) (h1 : 1 ≤ height)
    (h2 : height ≤ 2 ^ 24) :
    rowOf ld height (some (1 / 2)) = some (((height : ℚ) - 1) / 2) := by
  obtain ⟨hp, hmin, hmax⟩ := hld
  have hp' : 53 ≤ ld.prec := hp
  have hmin' : ld.emin ≤ -1074 := hmin
  have hmax' : (1024 : ℤ) ≤ ld.emax := hmax
  obtain ⟨n, rfl⟩ : ∃ n, height = n + 1 := ⟨height - 1, by omega⟩
  have hn : n < 2 ^ 24 := by omega
  have hnq : (n : ℚ) < 2 ^ 24 := by exact_mod_cast hn
  have hn0 : (0 : ℚ) ≤ n := Nat.cast_nonneg _
  have hcast : ((n + 1 : ℕ) : ℚ) - 1 = n := by push_cast; ring
  -- the height and the height minus one are floats
  have r1 : binary32.round ((n + 1 : ℕ) : ℚ) = ((n + 1 : ℕ) : ℚ) :=
    binary32.round_rep (binary32.rep_natCast_le _ (by simpa [binary32] using h2))
  have big32 : (2 : ℚ) ^ 25 < (2 : ℚ) ^ binary32.emax := by
    rw [← zpow_natCast]; exact two_zpow_lt_iff.mpr (by decide)
  have bigld : (2 : ℚ) ^ 25 < (2 : ℚ) ^ ld.emax := by
    rw [← zpow_natCast]; exact two_zpow_lt_iff.mpr (by push_cast; omega)
  have f1 : binary32.div (binary32.round ((n + 1 : ℕ) : ℚ)) 1 = some (((n + 1 : ℕ) : ℚ)) := by
    unfold Fmt.div
    rw [if_neg one_ne_zero, div_one, r1]
    apply binary32.fin_of_rep (binary32.rep_natCast_le _ (by simpa [binary32] using h2))
    rw [abs_of_nonneg (Nat.cast_nonneg _)]
    push_cast
    linarith
  have f2 : binary32.fin (n : ℚ) = some (n : ℚ) := by
    apply binary32.fin_of_rep (binary32.rep_natCast n (by simpa [binary32] using hn))
    rw [abs_of_nonneg hn0]; linarith
  have f3 : ld.fin (1 - 1 / 2) = some (1 / 2) := by
    rw [show (1 : ℚ) - 1 / 2 = 1 / 2 by norm_num]; exact ld.fin_half (by omega)
  have hnld : n < 2 ^ ld.prec :=
    hn.trans_le (pow_le_pow_right₀ (by norm_num) (by omega))
  have f4 : ld.fin (1 / 2 * (n : ℚ)) = some ((n : ℚ) / 2) := by
    rw [show (1 : ℚ) / 2 * (n : ℚ) = (n : ℚ) / 2 by ring]
    apply ld.fin_of_rep (ld.rep_half_natCast n hnld (by omega))
    rw [abs_of_nonneg (by positivity)]; linarith
  have f5 : binary32.fin ((n : ℚ) / 2) = some ((n : ℚ) / 2) := by
    apply binary32.fin_of_rep
      (binary32.rep_half_natCast n (by simpa [binary32] using hn) (by decide))
    rw [abs_of_nonneg (by positivity)]; linarith
  simp only [rowOf, Option.bind_eq_bind, Option.some_bind, f1, f2, f3, f4, f5, hcast]

/-- C10 fails for a height above `2 ^ 24`: with `height = 16777218` the `float` subtraction
`height/1.0f - 1` rounds 16777217 to 16777216, and the emitted row is 8388608, not
`(1 - 0.5) * (height - 1) = 8388608.5`, whichever format `long double` has. -/
theorem orbit_row_rounded :
    (∀ ld ∈ [binary64, x87ext, binary128],
      orbit ld 2 (1 / 2) 4 5 16777218 0 = [(0, 8388608)]) ∧
    (8388608 : ℚ) ≠ (1 - 1 / 2) * (16777218 - 1) := by
  constructor
  · decide!
  · norm_num

/-- C10, amended: with `max_iter = 5`, `skip_iter = 4`, `x0 = 0.5`, `r = 2` and a height from 1
to `2 ^ 24 = 16777216`, the orbit loop emits exactly one point, in the column of the sweep
index, and its row equals `(1 - 0.5) * (height - 1)`. -/
theorem orbit_scenario_b (ld : Fmt) (hld : ld.Extends binary64) (height i : ℕ)
    (h1 : 1 ≤ height) (h2 : height ≤ 2 ^ 24) :
    orbit ld 2 (1 / 2) 4 5 height i =
      [(binary32.round (i : ℚ), (1 - 1 / 2) * ((height : ℚ) - 1))] := by
  have he : ld.emin ≤ -1 := by
    have : ld.emin ≤ -1074 := hld.2.1
    omega
  have hs := orbitStep_half ld he
  have hrow := rowOf_half ld hld height h1 h2
  have r1 : binary32.round (height : ℚ) = (height : ℚ) :=
    binary32.round_rep (binary32.rep_natCast_le _ (by simpa [binary32] using h2))
  have hh : (1 : ℚ) ≤ height := by exact_mod_cast h1
  have hc : 0 ≤ ((height : ℚ) - 1) / 2 ∧ ((height : ℚ) - 1) / 2 < binary32.round (height : ℚ) := by
    rw [r1]; constructor
    · linarith
    · linarith
  have e : (1 - 1 / 2 : ℚ) * ((height : ℚ) - 1) = ((height : ℚ) - 1) / 2 := by ring
  rw [e]
  simp only [orbit, Function.iterate_succ, Function.iterate_zero, Function.comp_apply, id_eq, hs,
    show 5 - 4 = 1 from rfl, recordLoop, hrow, if_pos hc]

theorem x87ext_extends_binary64 : x87ext.Extends binary64 := by
  refine ⟨?_, ?_, ?_⟩ <;> decide

/-- Witness of the amended C10: the height 8640 of `main` and the sweep index 7. -/
theorem orbit_scenario_b_witness :
    x87ext.Extends binary64 ∧ 1 ≤ 8640 ∧ 8640 ≤ 2 ^ 24 ∧
    orbit x87ext 2 (1 / 2) 4 5 8640 7 =
      [(binary32.round ((7 : ℕ) : ℚ), (1 - 1 / 2) * (((8640 : ℕ) : ℚ) - 1))] :=
  ⟨x87ext_extends_binary64, by decide, by decide,
    orbit_scenario_b x87ext x87ext_extends_binary64 8640 7 (by decide) (by decide)⟩

theorem Fmt.fin_of_extends {g f : Fmt} (h : g.Extends f) {q : ℚ} (hq : f.fin q = some q) :
    g.fin q = some q := by
  have hr := f.rep_of_fin hq
  have hlt := (f.fin_eq_some hq).2
  exact g.fin_of_rep (Fmt.rep_of_extends h hr) (hlt.trans_le (two_zpow_le h.2.2))

theorem Fmt.fin_zero (f : Fmt) : f.fin 0 = some 0 :=
  f.fin_of_rep f.rep_zero (by rw [abs_zero]; exact two_zpow_pos _)

/-- The rounded divisor `r_steps - 1` is at least one when `r_steps ≥ 2`. -/
theorem Fmt.one_le_round_natCast (f : Fmt) (n : ℕ) (h : 1 ≤ n) : 1 ≤ f.round (n : ℚ) :=
  f.le_round_of_rep_le f.rep_one (by exact_mod_cast h)

/-- C2 fails when the `double` subtraction `end - start` is inexact: with `start = -1` and
`end = 2 ^ (-60)` the interval rounds to 1 and the last parameter is 0, not `end` (two sweep
steps, exponent 1, for which `pow(t, 1) = t`), whichever format `long double` has. -/
theorem sample_last_ne_stop :
    (∀ ld ∈ [binary64, x87ext, binary128],
      sample ld (fun t _ => some t) 2 1 (-1) (1 / 2 ^ 60) 1 = some 0) ∧
    (0 : ℚ) ≠ 1 / 2 ^ 60 := by
  constructor
  · decide!
  · norm_num

/-- C2, amended: for `r_steps ≥ 2`, `double` bounds `start` and `end` whose difference
`end - start` is exact in `double` (as for 1 and 4), and an exponent at which `pow(0, p) = 0`
and `pow(1, p) = 1` (every `p > 0`), the parameter of sweep index 0 equals `start` and the
parameter of sweep index `r_steps - 1` equals `end`. -/
theorem sample_boundary (ld : Fmt) (hld : ld.Extends binary64) (powl : ℚ → ℚ → Option ℚ)
    (r_steps : ℕ) (start stop power : ℚ) (hr : 2 ≤ r_steps)
    (hs : binary64.fin start = some start) (he : binary64.fin stop = some stop)
    (hd : binary64.fin (stop - start) = some (stop - start))
    (h0 : powl 0 power = some 0) (h1 : powl 1 power = some 1) :
    sample ld powl r_steps 0 start stop power = some start ∧
    sample ld powl r_steps (r_steps - 1) start stop power = some stop := by
  have hD : 1 ≤ ld.round ((r_steps - 1 : ℕ) : ℚ) := ld.one_le_round_natCast _ (by omega)
  have hD0 : ld.round ((r_steps - 1 : ℕ) : ℚ) ≠ 0 := by linarith
  have t0 : ld.div (ld.round ((0 : ℕ) : ℚ)) (ld.round ((r_steps - 1 : ℕ) : ℚ)) = some 0 := by
    unfold Fmt.div
    rw [if_neg hD0, Nat.cast_zero, ld.round_zero, zero_div]; exact ld.fin_zero
  have t1 : ld.div (ld.round ((r_steps - 1 : ℕ) : ℚ)) (ld.round ((r_steps - 1 : ℕ) : ℚ))
      = some 1 := by
    unfold Fmt.div
    rw [if_neg hD0, div_self hD0]; exact ld.fin_one
  have p0 : ld.fin ((stop - start) * 0) = some 0 := by rw [mul_zero]; exact ld.fin_zero
  have p1 : ld.fin ((stop - start) * 1) = some (stop - start) := by
    rw [mul_one]; exact Fmt.fin_of_extends hld hd
  have s0 : ld.fin (start + 0) = some start := by
    rw [add_zero]; exact Fmt.fin_of_extends hld hs
  have s1 : ld.fin (start + (stop - start)) = some stop := by
    rw [show start + (stop - start) = stop by ring]; exact Fmt.fin_of_extends hld he
  constructor
  · simp only [sample, Option.bind_eq_bind, Option.some_bind, hd, t0, h0, p0, s0]
  · simp only [sample, Option.bind_eq_bind, Option.some_bind, hd, t1, h1, p1, s1]

/-- Witness of the amended C2: the 15360 steps from 1 to 4 of `main`, with exponent 1 and the
identity for `pow(·, 1)`. -/
theorem sample_boundary_witness :
    sample x87ext (fun t _ => some t) 15360 0 1 4 1 = some 1 ∧
    sample x87ext (fun t _ => some t) 15360 (15360 - 1) 1 4 1 = some 4 :=
  sample_boundary x87ext x87ext_extends_binary64 (fun t _ => some t) 15360 1 4 1
    (by decide) (by decide!) (by decide!) (by decide!) rfl rfl

/-- The parameter does not depend on `pow` beyond its values at the given exponent. -/
theorem sample_congr (ld : Fmt) (powl powl' : ℚ → ℚ → Option ℚ) (r_steps i : ℕ)
    (start stop power : ℚ) (h : ∀ t, powl t power = powl' t power) :
    sample ld powl r_steps i start stop power = sample ld powl' r_steps i start stop power := by
  simp only [sample, h]

/-- C9 fails at sweep index 2: the parameter is `1 + 3 * (2 / 3) = 3`, not `8 / 3`, whichever
format `long double` has. -/
theorem sample_scenario_a_index_two :
    (∀ ld ∈ [binary64, x87ext, binary128],
      sample ld (fun t _ => some t) 4 2 1 4 1 = some 3) ∧
    (3 : ℚ) ≠ 8 / 3 := by
  constructor
  · decide!
  · norm_num

/-- C9, amended: with `r_steps = 4`, `start = 1`, `end = 4` and `power = 1` (for which
`pow(t, 1) = t`), the parameters computed for the sweep indices 0, 1, 2, 3 are exactly
1, 2, 3, 4, whether `long double` is binary64, the x87 extended format or binary128. -/
theorem sample_scenario_a (powl : ℚ → ℚ → Option ℚ) (hpow : ∀ t, powl t 1 = some t)
    (ld : Fmt) (hld : ld = binary64 ∨ ld = x87ext ∨ ld = binary128) :
    (List.range 4).map (fun i => sample ld powl 4 i 1 4 1) = [some 1, some 2, some 3, some 4] := by
  have e : ∀ i, sample ld powl 4 i 1 4 1 = sample ld (fun t _ => some t) 4 i 1 4 1 :=
    fun i => sample_congr ld powl _ 4 i 1 4 1 hpow
  simp only [e]
  rcases hld with rfl | rfl | rfl <;> decide!

/-- Witness of the amended C9: the identity for `pow(·, 1)` and the x87 extended format. -/
theorem sample_scenario_a_witness :
    (List.range 4).map (fun i => sample x87ext (fun t _ => some t) 4 i 1 4 1)
      = [some 1, some 2, some 3, some 4] :=
  sample_scenario_a (fun t _ => some t) (fun _ => rfl) x87ext (Or.inr (Or.inl rfl))

theorem Fmt.fin_eq_round (f : Fmt) {q : ℚ} (h : |f.round q| < (2 : ℚ) ^ f.emax) :
    f.fin q = some (f.round q) := by
  unfold Fmt.fin
  rw [pow2_eq, if_pos h]

/-- A value between two representable bounds rounds between them, to a finite value. -/
theorem Fmt.fin_of_bounds (f : Fmt) {q lo hi : ℚ} (hlo : f.Rep lo) (hhi : f.Rep hi)
    (h1 : lo ≤ q) (h2 : q ≤ hi) (hfl : -(2 : ℚ) ^ f.emax < lo) (hfh : hi < (2 : ℚ) ^ f.emax) :
    f.fin q = some (f.round q) ∧ lo ≤ f.round q ∧ f.round q ≤ hi := by
  have a := f.le_round_of_rep_le hlo h1
  have b := f.round_le_of_le_rep hhi h2
  exact ⟨f.fin_eq_round (abs_lt.mpr ⟨by linarith, by linarith⟩), a, b⟩

theorem toU8_of_bounds {q : ℚ} (h0 : 0 ≤ q) (h1 : q ≤ 255) :
    ∃ b : Fin 256, toU8 q = some b ∧ (b.val : ℤ) = ⌊q⌋ := by
  have ht : truncZ q = ⌊q⌋ := truncZ_of_nonneg h0
  have hf0 : 0 ≤ ⌊q⌋ := Int.floor_nonneg.mpr h0
  have hf1 : ⌊q⌋ < 256 := by
    rw [Int.floor_lt]; push_cast; linarith
  unfold toU8
  rw [dif_pos ⟨by rw [ht]; exact hf0, by rw [ht]; exact hf1⟩]
  refine ⟨_, rfl, ?_⟩
  simp only [ht]
  omega

theorem binary32_big (k : ℕ) (hk : k ≤ 127) : (2 : ℚ) ^ k < (2 : ℚ) ^ binary32.emax := by
  rw [← zpow_natCast]
  exact two_zpow_lt_iff.mpr (by simp only [binary32]; omega)

/-- The byte computed by the tone map for a channel, given a `pow` with values in `[0, 1]` on
`[0, 1]`. -/
theorem toneByte_spec (powf : ℚ → ℚ → Option ℚ)
    (hpow : ∀ v : ℚ, 0 ≤ v → v ≤ 1 →
      ∃ w, powf v (binary32.round (7 / 10)) = some w ∧ 0 ≤ w ∧ w ≤ 1)
    (c : Fin 256) : ∃ b : Fin 256, toneByte powf c = some b ∧ b.val ≤ 200 := by
  have hc : c.val ≤ 255 := Nat.lt_succ_iff.mp c.isLt
  have hcast : (255 : ℚ) - (c.val : ℚ) = ((255 - c.val : ℕ) : ℚ) := by
    rw [Nat.cast_sub hc]; norm_num
  have hd0 : (0 : ℚ) ≤ ((255 - c.val : ℕ) : ℚ) := Nat.cast_nonneg _
  have hd1 : ((255 - c.val : ℕ) : ℚ) ≤ 255 := by exact_mod_cast Nat.sub_le 255 c.val
  have hbig := binary32_big 8 (by norm_num)
  have f1 : binary32.fin (255 - (c.val : ℚ)) = some ((255 - c.val : ℕ) : ℚ) := by
    rw [hcast]
    apply binary32.fin_of_rep (binary32.rep_natCast _ (by simp only [binary32]; omega))
    rw [abs_of_nonneg hd0]; linarith
  have r0 : binary32.Rep 0 := binary32.rep_zero
  have r1 : binary32.Rep 1 := binary32.rep_one
  have r200 : binary32.Rep 200 := by
    have := binary32.rep_natCast 200 (by simp only [binary32]; norm_num)
    simpa using this
  obtain ⟨f2, v0, v1⟩ := binary32.fin_of_bounds (q := ((255 - c.val : ℕ) : ℚ) / 255) r0 r1
    (div_nonneg hd0 (by norm_num)) ((div_le_one (by norm_num)).mpr hd1)
    (by linarith [two_zpow_pos binary32.emax]) (by linarith)
  obtain ⟨w, hw, w0, w1⟩ := hpow _ v0 v1
  obtain ⟨f3, s0, s1⟩ := binary32.fin_of_bounds (q := w * 200) r0 r200
    (by positivity) (by linarith)
    (by linarith [two_zpow_pos binary32.emax]) (by linarith)
  obtain ⟨b, hb, hbv⟩ := toU8_of_bounds s0 (by linarith)
  refine ⟨b, ?_, ?_⟩
  · have hdiv : binary32.div ((255 - c.val : ℕ) : ℚ) 255
        = some (binary32.round (((255 - c.val : ℕ) : ℚ) / 255)) := by
      unfold Fmt.div; rw [if_neg (by norm_num)]; exact f2
    simp only [toneByte, Option.bind_eq_bind, Option.some_bind, f1, hdiv, hw, f3, hb]
  · have : ⌊binary32.round (w * 200)⌋ ≤ 200 := by
      rw [← Int.lt_add_one_iff, Int.floor_lt]; push_cast; linarith
    omega

/-- C7: for every input channel value, the byte written by the tone-mapping pass into the three
channels of the pixel lies in `[0, 200]`, given that the library `pow(·, 0.7f)` maps `[0, 1]`
into `[0, 1]`. -/
theorem toneMap_range (powf : ℚ → ℚ → Option ℚ)
    (hpow : ∀ v : ℚ, 0 ≤ v → v ≤ 1 →
      ∃ w, powf v (binary32.round (7 / 10)) = some w ∧ 0 ≤ w ∧ w ≤ 1)
    (buffer : Buffer) (off : ℕ) :
    ∃ (b : Fin 256) (out : Buffer), toneByte powf (buffer off) = some b ∧ b.val ≤ 200 ∧
      tonePixel powf buffer off = some out ∧
      out off = b ∧ out (off + 1) = b ∧ out (off + 2) = b := by
  obtain ⟨b, hb, hle⟩ := toneByte_spec powf hpow (buffer off)
  refine ⟨b, Function.update (Function.update (Function.update buffer off b) (off + 1) b)
    (off + 2) b, hb, hle, ?_, ?_, ?_, ?_⟩
  · simp only [tonePixel, Option.bind_eq_bind, Option.some_bind, hb]
  · rw [update3_apply]; simp
  · rw [update3_apply]; simp
  · rw [update3_apply]; simp

/-- Witness of C7: the identity in place of `pow(·, 0.7f)`, on the white buffer. -/
theorem toneMap_range_witness :
    ∃ (b : Fin 256) (out : Buffer),
      toneByte (fun v _ => some v) ((fun _ => 255 : Buffer) 0) = some b ∧ b.val ≤ 200 ∧
      tonePixel (fun v _ => some v) (fun _ => 255) 0 = some out ∧
      out 0 = b ∧ out (0 + 1) = b ∧ out (0 + 2) = b :=
  toneMap_range (fun v _ => some v) (fun v h0 h1 => ⟨v, rfl, h0, h1⟩) (fun _ => 255) 0

theorem toInt_intCast (k : ℤ) (h1 : -(2 : ℤ) ^ 31 ≤ k) (h2 : k < (2 : ℤ) ^ 31) :
    toInt (k : ℚ) = some k := by
  unfold toInt
  rw [truncZ_intCast, if_pos ⟨h1, h2⟩]

theorem intRange_empty (a b : ℤ) (h : b < a) : intRange a b = [] := by
  unfold intRange
  have : (b + 1 - a).toNat = 0 := by omega
  rw [this]; rfl

theorem binary32_rep_int (k : ℤ) (h : |k| ≤ 2 ^ 23) : binary32.Rep (k : ℚ) :=
  binary32.rep_intCast k (lt_of_le_of_lt h (by simp only [binary32]; norm_num))

/-- The rounded sum of two `float` values of magnitude at most `2 ^ 22` is finite, and its floor
and ceiling fit in an `int`. -/
theorem binary32_fin_small (q : ℚ) (h : |q| ≤ 2 ^ 23) :
    binary32.fin q = some (binary32.round q) ∧
      toInt (⌊binary32.round q⌋ : ℚ) = some ⌊binary32.round q⌋ ∧
      toInt (⌈binary32.round q⌉ : ℚ) = some ⌈binary32.round q⌉ := by
  have hr : binary32.Rep ((2 : ℚ) ^ 23) := by
    have := binary32_rep_int (2 ^ 23) (by norm_num)
    simpa using this
  have hrn : binary32.Rep (-(2 : ℚ) ^ 23) := binary32.rep_neg hr
  have hbig := binary32_big 23 (by norm_num)
  rw [abs_le] at h
  obtain ⟨f, lo, hi⟩ := binary32.fin_of_bounds hrn hr h.1 h.2 (by linarith) hbig
  refine ⟨f, ?_, ?_⟩
  · apply toInt_intCast
    · have : (-(2 : ℤ) ^ 23 : ℤ) ≤ ⌊binary32.round q⌋ := Int.le_floor.mpr (by push_cast; exact lo)
      omega
    · have : ⌊binary32.round q⌋ < (2 : ℤ) ^ 23 + 1 := Int.floor_lt.mpr (by push_cast; linarith)
      omega
  · apply toInt_intCast
    · have : (-(2 : ℤ) ^ 23 - 1 : ℤ) < ⌈binary32.round q⌉ :=
        Int.lt_ceil.mpr (by push_cast; linarith)
      omega
    · have : ⌈binary32.round q⌉ ≤ (2 : ℤ) ^ 23 := Int.ceil_le.mpr (by push_cast; exact hi)
      omega

/-- With a radius at most `-1` the lower box bound exceeds the upper one. -/
theorem box_empty (y radius : ℚ) (hr : radius ≤ -1) (hy : |y| ≤ 2 ^ 22) :
    ⌈binary32.round (y + radius)⌉ < ⌊binary32.round (y - radius)⌋ := by
  rw [abs_le] at hy
  have hfl : |⌊y⌋ + 1| ≤ (2 : ℤ) ^ 23 := by
    have h1 : (-(2 : ℤ) ^ 22 : ℤ) ≤ ⌊y⌋ := Int.le_floor.mpr (by push_cast; exact hy.1)
    have h2 : ⌊y⌋ ≤ (2 : ℤ) ^ 22 := Int.floor_le_floor (a := y) (b := ((2 ^ 22 : ℤ) : ℚ))
      (by push_cast; exact hy.2) |>.trans (by rw [Int.floor_intCast])
    rw [abs_le]; constructor <;> omega
  have hcl : |⌈y⌉ - 1| ≤ (2 : ℤ) ^ 23 := by
    have h1 : (-(2 : ℤ) ^ 22 : ℤ) ≤ ⌈y⌉ := by
      have := Int.ceil_le_ceil (a := ((-(2 : ℤ) ^ 22 : ℤ) : ℚ)) (b := y) (by push_cast; exact hy.1)
      rwa [Int.ceil_intCast] at this
    have h2 : ⌈y⌉ ≤ (2 : ℤ) ^ 22 := Int.ceil_le.mpr (by push_cast; exact hy.2)
    rw [abs_le]; constructor <;> omega
  have lo : ((⌊y⌋ + 1 : ℤ) : ℚ) ≤ binary32.round (y - radius) :=
    binary32.le_round_of_rep_le (binary32_rep_int _ hfl)
      (by push_cast; linarith [Int.floor_le y])
  have hi : binary32.round (y + radius) ≤ ((⌈y⌉ - 1 : ℤ) : ℚ) :=
    binary32.round_le_of_le_rep (binary32_rep_int _ hcl)
      (by push_cast; linarith [Int.le_ceil y])
  have a : ⌊y⌋ + 1 ≤ ⌊binary32.round (y - radius)⌋ := Int.le_floor.mpr lo
  have b : ⌈binary32.round (y + radius)⌉ ≤ ⌈y⌉ - 1 := Int.ceil_le.mpr hi
  have c : ⌈y⌉ ≤ ⌊y⌋ + 1 := Int.ceil_le_floor_add_one y
  omega

/-- C6 fails for a radius in `(-1, 0]`: with `radius = -0.25` the pixel centered at the point
passes the box and disk tests and is blended (255 becomes 254); with `radius = 0` the same
pixel divides 0 by 0 and converts the NaN to 8 bits. -/
theorem draw_aa_point_negative_radius :
    (draw_aa_point (fun _ => 255) 1 1 0 0 1 (-1 / 4)).map (fun b => b 0) = some 254 ∧
    (fun _ => 255 : Buffer) 0 = 255 ∧
    (draw_aa_point (fun _ => 255) 1 1 0 0 1 0).isSome = false := by
  refine ⟨?_, rfl, ?_⟩ <;> decide!

/-- Blending with the intensity 255 leaves a byte unchanged. -/
theorem blendByte_white (d : Fin 256) : blendByte d 255 = d := by
  revert d
  decide!

/-- The blended byte is at most the exact product and at least the exact product minus one. -/
theorem blendByte_real_bounds (d i : Fin 256) :
    (d.val : ℚ) * (i.val : ℚ) / 255 - 1 ≤ ((blendByte d i).val : ℚ) ∧
    ((blendByte d i).val : ℚ) ≤ (d.val : ℚ) * (i.val : ℚ) / 255 := by
  obtain ⟨hval, -, hup⟩ := blendByte_bounds d i
  obtain ⟨h0, he⟩ := blendColor_err d i
  have e42 : (2 : ℚ) ^ (-42 : ℤ) = 1 / 4398046511104 := by norm_num [zpow_neg]
  rw [e42, abs_le] at he
  constructor
  · -- integrality: 255 * byte and d * i are integers
    have h1 : blendColor d i < ((blendByte d i).val : ℚ) + 1 := by
      have := Int.lt_floor_add_one (blendColor d i)
      rw [← hval] at this
      exact_mod_cast this
    have h2 : ((d.val * i.val : ℕ) : ℚ) < 255 * ((blendByte d i).val : ℚ) + 256 := by
      push_cast; linarith [he.1]
    have h3 : d.val * i.val < 255 * (blendByte d i).val + 256 := by exact_mod_cast h2
    have h4 : d.val * i.val ≤ 255 * (blendByte d i).val + 255 := by omega
    have h5 : ((d.val * i.val : ℕ) : ℚ) ≤ 255 * ((blendByte d i).val : ℚ) + 255 := by
      exact_mod_cast h4
    push_cast at h5
    linarith
  · have := Int.floor_le ((d.val : ℚ) * (i.val : ℚ) / 255)
    have h6 : (((blendByte d i).val : ℤ) : ℚ) ≤ ((⌊(d.val : ℚ) * (i.val : ℚ) / 255⌋ : ℤ) : ℚ) := by
      exact_mod_cast hup
    push_cast at h6
    linarith

/-- One direction of the order tolerance of two blends. -/
theorem blendByte_swap_le (d a b : Fin 256) :
    ((blendByte (blendByte d a) b).val : ℤ) ≤ ((blendByte (blendByte d b) a).val : ℤ) + 1 := by
  by_cases ha : a = 255
  · subst ha
    rw [blendByte_white, blendByte_white]
    omega
  · have ha' : a.val ≤ 254 := by
      have h1 := a.isLt
      have h2 : a.val ≠ 255 := fun h => ha (Fin.ext h)
      omega
    have haq : (a.val : ℚ) ≤ 254 := by exact_mod_cast ha'
    have ha0 : (0 : ℚ) ≤ a.val := Nat.cast_nonneg _
    have hb0 : (0 : ℚ) ≤ b.val := Nat.cast_nonneg _
    have hd0 : (0 : ℚ) ≤ d.val := Nat.cast_nonneg _
    obtain ⟨-, u2⟩ := blendByte_real_bounds d a
    obtain ⟨v1, -⟩ := blendByte_real_bounds d b
    obtain ⟨-, p2⟩ := blendByte_real_bounds (blendByte d a) b
    obtain ⟨q1, -⟩ := blendByte_real_bounds (blendByte d b) a
    have hP : ((blendByte (blendByte d a) b).val : ℚ) ≤ (d.val : ℚ) * a.val * b.val / 255 / 255 := by
      have : ((blendByte d a).val : ℚ) * (b.val : ℚ) / 255
          ≤ (d.val : ℚ) * a.val / 255 * b.val / 255 :=
        div_le_div_of_nonneg_right (mul_le_mul_of_nonneg_right u2 hb0) (by norm_num)
      calc _ ≤ _ := p2
        _ ≤ _ := this
        _ = _ := by ring
    have hQ : (d.val : ℚ) * a.val * b.val / 255 / 255 - (a.val : ℚ) / 255 - 1
        ≤ ((blendByte (blendByte d b) a).val : ℚ) := by
      have : ((d.val : ℚ) * b.val / 255 - 1) * (a.val : ℚ) / 255
          ≤ ((blendByte d b).val : ℚ) * (a.val : ℚ) / 255 :=
        div_le_div_of_nonneg_right (mul_le_mul_of_nonneg_right v1 ha0) (by norm_num)
      calc _ = ((d.val : ℚ) * b.val / 255 - 1) * (a.val : ℚ) / 255 - 1 := by ring
        _ ≤ _ := by linarith
    have hlt : ((blendByte (blendByte d a) b).val : ℚ)
        < ((blendByte (blendByte d b) a).val : ℚ) + 2 := by
      have : (a.val : ℚ) / 255 < 1 := by rw [div_lt_one (by norm_num)]; linarith
      linarith
    have : (blendByte (blendByte d a) b).val < (blendByte (blendByte d b) a).val + 2 := by
      exact_mod_cast hlt
    omega

/-- C13: for every channel value `d` and all intensities `a`, `b`, blending `a` and then `b`
onto `d`, and blending `b` and then `a`, give bytes that differ by at most 1; and so do the two
orders of `blend_pixel` on a pixel of the buffer, in each of its three channels. -/
theorem blend_order_tolerance (d a b : Fin 256) (buffer : Buffer) (off : ℕ) :
    |((blendByte (blendByte d a) b).val : ℤ) - ((blendByte (blendByte d b) a).val : ℤ)| ≤ 1 ∧
    ∀ k, k = off ∨ k = off + 1 ∨ k = off + 2 →
      |((blend_pixel (blend_pixel buffer off a) off b k).val : ℤ) -
        ((blend_pixel (blend_pixel buffer off b) off a k).val : ℤ)| ≤ 1 := by
  have key : ∀ d a b : Fin 256,
      |((blendByte (blendByte d a) b).val : ℤ) - ((blendByte (blendByte d b) a).val : ℤ)| ≤ 1 := by
    intro d a b
    have h1 := blendByte_swap_le d a b
    have h2 := blendByte_swap_le d b a
    rw [abs_le]; constructor <;> omega
  refine ⟨key d a b, ?_⟩
  intro k hk
  have e : ∀ (i j : Fin 256), blend_pixel (blend_pixel buffer off i) off j k
      = blendByte (blendByte (buffer off) i) j := by
    intro i j
    rw [blend_pixel_apply, if_pos hk, blend_pixel_apply]
    simp
  rw [e, e]
  exact key (buffer off) a b

/-- Rounding error of a value strictly below a power of two: half the bound of the closed
case. -/
theorem Fmt.abs_round_sub_le_of_lt (f : Fmt) (q : ℚ) (k : ℤ) (hq : |q| < (2 : ℚ) ^ k)
    (hk : f.emin ≤ k - f.prec) : |f.round q - q| ≤ (2 : ℚ) ^ (k - f.prec) / 2 := by
  by_cases h0 : q = 0
  · rw [h0, f.round_zero, sub_zero, abs_zero]
    exact div_nonneg (two_zpow_pos _).le (by norm_num)
  refine (f.abs_round_sub_le q).trans ?_
  have hlog : ilog2 q < k := two_zpow_lt_iff.mp (lt_of_le_of_lt (ilog2_spec q h0).1 hq)
  have hu : f.ulpExp q ≤ k - f.prec := max_le (by omega) hk
  exact div_le_div_of_nonneg_right (two_zpow_le hu) (by norm_num)

/-- A representable value is an integer multiple of its unit in the last place. -/
theorem Fmt.rep_multiple (f : Fmt) {q : ℚ} (h : f.Rep q) :
    ∃ z : ℤ, q = (z : ℚ) * (2 : ℚ) ^ f.ulpExp q := by
  by_cases h0 : q = 0
  · exact ⟨0, by simp [h0]⟩
  have hr := f.round_rep h
  simp only [Fmt.round, h0, if_false, pow2_eq] at hr
  exact ⟨_, hr.symm⟩

/-- A representable value is an integer multiple of every power of two not above its unit in
the last place. -/
theorem Fmt.rep_multiple_of_le (f : Fmt) {q : ℚ} (h : f.Rep q) (e : ℤ) (he : e ≤ f.ulpExp q) :
    ∃ z : ℤ, q = (z : ℚ) * (2 : ℚ) ^ e := by
  obtain ⟨z, hz⟩ := f.rep_multiple h
  obtain ⟨n, hn⟩ : ∃ n : ℕ, f.ulpExp q - e = n := ⟨(f.ulpExp q - e).toNat, by omega⟩
  refine ⟨z * 2 ^ n, ?_⟩
  have : f.ulpExp q = e + n := by omega
  rw [hz, this, ← this, this, zpow_add₀ (by norm_num : (2 : ℚ) ≠ 0), zpow_natCast]
  push_cast; ring

/-- Scaling by a power of two keeps a value representable. -/
theorem Fmt.rep_mul_two_zpow (f : Fmt) {q : ℚ} (h : f.Rep q) (k : ℕ) :
    f.Rep (q * (2 : ℚ) ^ k) := by
  obtain ⟨m, e, hq, hm, he⟩ := h
  refine ⟨m, e + k, ?_, hm, by omega⟩
  rw [hq, zpow_add₀ (by norm_num : (2 : ℚ) ≠ 0), zpow_natCast]; ring

/-- An integer multiple of `2 ^ e` of magnitude at most `2 ^ (e + prec)` is representable. -/
theorem Fmt.rep_of_multiple (f : Fmt) (z e : ℤ) (he : f.emin ≤ e)
    (hz : |(z : ℚ) * (2 : ℚ) ^ e| ≤ (2 : ℚ) ^ (e + f.prec)) : f.Rep ((z : ℚ) * (2 : ℚ) ^ e) := by
  have hz' : |(z : ℚ)| ≤ (2 : ℚ) ^ (f.prec : ℤ) := by
    rw [abs_mul, abs_of_pos (two_zpow_pos e), zpow_add₀ (by norm_num : (2 : ℚ) ≠ 0),
      mul_comm ((2 : ℚ) ^ e)] at hz
    exact le_of_mul_le_mul_right hz (two_zpow_pos e)
  have hzi : |z| ≤ 2 ^ f.prec := by
    rw [zpow_natCast, ← Int.cast_abs] at hz'
    exact_mod_cast hz'
  rcases hzi.lt_or_eq with hlt | heq
  · exact ⟨z, e, rfl, hlt, he⟩
  · have hp := f.prec_pos
    obtain ⟨p', hp'⟩ : ∃ p', f.prec = p' + 1 := ⟨f.prec - 1, by omega⟩
    have h2p : (2 : ℤ) ^ f.prec = 2 * 2 ^ p' := by rw [hp', pow_succ]; ring
    have hpos : (0 : ℤ) < 2 ^ p' := by positivity
    rcases abs_cases z with ⟨hz1, _⟩ | ⟨hz1, _⟩
    · refine ⟨2 ^ p', e + 1, ?_, ?_, by omega⟩
      · have : z = 2 * 2 ^ p' := by rw [← hz1, heq, h2p]
        rw [this, zpow_add₀ (by norm_num : (2 : ℚ) ≠ 0)]; push_cast; ring
      · rw [abs_of_pos hpos, h2p]; omega
    · refine ⟨-(2 ^ p'), e + 1, ?_, ?_, by omega⟩
      · have : z = -(2 * 2 ^ p') := by rw [← h2p, ← heq, hz1]; ring
        rw [this, zpow_add₀ (by norm_num : (2 : ℚ) ≠ 0)]; push_cast; ring
      · rw [abs_neg, abs_of_pos hpos, h2p]; omega

theorem rne_add_half_even (k : ℤ) (hk : k % 2 = 0) : rne ((k : ℚ) + 1 / 2) = k := by
  have hfl : ⌊(k : ℚ) + 1 / 2⌋ = k := by
    rw [Int.floor_eq_iff]; constructor <;> linarith
  unfold rne
  simp only [hfl]
  have h1 : ¬ ((k : ℚ) + 1 / 2 - (k : ℚ) < 1 / 2) := by
    rw [add_sub_cancel_left]; exact lt_irrefl _
  have h2 : ¬ ((1 : ℚ) / 2 < (k : ℚ) + 1 / 2 - (k : ℚ)) := by
    rw [add_sub_cancel_left]; exact lt_irrefl _
  rw [if_neg h1, if_neg h2, if_pos hk]

/-- The midpoint between 1 and the next value rounds to 1 (ties to even). -/
theorem Fmt.round_one_add_half_ulp (f : Fmt) (hp : 2 ≤ f.prec) (he : f.emin + f.prec ≤ 1) :
    f.round (1 + (2 : ℚ) ^ (-(f.prec : ℤ))) = 1 := by
  have h2 : (2 : ℚ) ≠ 0 := by norm_num
  have hpos := two_zpow_pos (-(f.prec : ℤ))
  have hsmall : (2 : ℚ) ^ (-(f.prec : ℤ)) < 1 := by
    have := two_zpow_lt_iff.mpr (show -(f.prec : ℤ) < 0 by omega)
    simpa using this
  have hq0 : (1 + (2 : ℚ) ^ (-(f.prec : ℤ))) ≠ 0 := by linarith
  have hlog : ilog2 (1 + (2 : ℚ) ^ (-(f.prec : ℤ))) = 0 := by
    apply ilog2_eq
    · rw [abs_of_pos (by linarith), zpow_zero]; linarith
    · rw [abs_of_pos (by linarith), zero_add, zpow_one]; linarith
  have hu : f.ulpExp (1 + (2 : ℚ) ^ (-(f.prec : ℤ))) = 1 - (f.prec : ℤ) := by
    unfold Fmt.ulpExp; rw [hlog]; rw [max_eq_left (by omega)]; ring
  obtain ⟨p', hp'⟩ : ∃ p', f.prec = p' + 2 := ⟨f.prec - 2, by omega⟩
  have hdiv : (1 + (2 : ℚ) ^ (-(f.prec : ℤ))) / (2 : ℚ) ^ (1 - (f.prec : ℤ))
      = (((2 * 2 ^ p' : ℤ)) : ℚ) + 1 / 2 := by
    rw [div_eq_iff (zpow_ne_zero _ h2), hp']
    push_cast
    have e1 : (2 : ℚ) ^ (1 - ((p' : ℤ) + 2)) = ((2 : ℚ) ^ p')⁻¹ / 2 := by
      rw [show (1 : ℤ) - ((p' : ℤ) + 2) = -(p' : ℤ) - 1 by ring, zpow_sub₀ h2, zpow_neg,
        zpow_natCast, zpow_one]
    have e2 : (2 : ℚ) ^ (-((p' : ℤ) + 2)) = ((2 : ℚ) ^ p')⁻¹ / 4 := by
      rw [show -((p' : ℤ) + 2) = -(p' : ℤ) - 2 by ring, zpow_sub₀ h2, zpow_neg, zpow_natCast]
      norm_num
    rw [e1, e2]
    have hne : (2 : ℚ) ^ p' ≠ 0 := pow_ne_zero _ h2
    field_simp; ring
  simp only [Fmt.round, hq0, if_false, pow2_eq, hu, hdiv]
  rw [rne_add_half_even _ (by omega), hp']
  push_cast
  rw [show (1 : ℤ) - ((p' : ℤ) + 2) = -(p' : ℤ) - 1 by ring, zpow_sub₀ h2, zpow_neg,
    zpow_natCast, zpow_one]
  have hne : (2 : ℚ) ^ p' ≠ 0 := pow_ne_zero _ h2
  field_simp
  ring

/-- The difference `1 - x` is exact for a representable `x` in `[1/2, 1]`. -/
theorem Fmt.rep_one_sub (f : Fmt) (he : f.emin + f.prec ≤ 0) {x : ℚ} (hx : f.Rep x)
    (h1 : 1 / 2 ≤ x) (h2 : x ≤ 1) : f.Rep (1 - x) := by
  have hx0 : x ≠ 0 := by linarith
  have hlog : -1 ≤ ilog2 x := by
    have := (ilog2_spec x hx0).2
    rw [abs_of_pos (by linarith)] at this
    have h3 : (2 : ℚ) ^ (-1 : ℤ) < (2 : ℚ) ^ (ilog2 x + 1) := by
      rw [zpow_neg_one]; linarith
    have := two_zpow_lt_iff.mp h3
    omega
  have hu : -(f.prec : ℤ) ≤ f.ulpExp x := le_max_of_le_left (by omega)
  obtain ⟨z, hz⟩ := f.rep_multiple_of_le hx _ hu
  have hone : (1 : ℚ) = ((2 ^ f.prec : ℤ) : ℚ) * (2 : ℚ) ^ (-(f.prec : ℤ)) := by
    push_cast; rw [zpow_neg, ← zpow_natCast]; field_simp
  have e : 1 - x = ((2 ^ f.prec - z : ℤ) : ℚ) * (2 : ℚ) ^ (-(f.prec : ℤ)) := by
    rw [Int.cast_sub, sub_mul, ← hone, ← hz]
  rw [e]
  apply f.rep_of_multiple _ _ (by omega)
  rw [← e, neg_add_cancel, zpow_zero, abs_of_nonneg (by linarith)]
  linarith

theorem Fmt.emax_big (f : Fmt) (hld : f.Extends binary64) (k : ℕ) (hk : k ≤ 1023) :
    (2 : ℚ) ^ k < (2 : ℚ) ^ f.emax := by
  rw [← zpow_natCast]
  apply two_zpow_lt_iff.mpr
  have : (1024 : ℤ) ≤ f.emax := hld.2.2
  omega

/-- One iteration of the logistic map keeps a `long double` value of `[0, 1]` in `[0, 1]`, for
every parameter in `[0, 4]`. -/
theorem orbitStep_unit (ld : Fmt) (hld : ld.Extends binary64) (hsub : ld.emin + ld.prec ≤ 0)
    (r x : ℚ) (hr0 : 0 ≤ r) (hr4 : r ≤ 4) (hx : ld.Rep x) (hx0 : 0 ≤ x) (hx1 : x ≤ 1) :
    ∃ x', orbitStep ld r (some x) = some x' ∧ ld.Rep x' ∧ 0 ≤ x' ∧ x' ≤ 1 := by
  have hp : 53 ≤ ld.prec := hld.1
  have hbig := ld.emax_big hld 3 (by norm_num)
  have hneg : -(2 : ℚ) ^ ld.emax < 0 := by linarith [two_zpow_pos ld.emax]
  have r4x : ld.Rep (4 * x) := by
    have := ld.rep_mul_two_zpow hx 2
    rwa [show x * (2 : ℚ) ^ 2 = 4 * x by ring] at this
  obtain ⟨fa, a0, a4⟩ := ld.fin_of_bounds (q := r * x) ld.rep_zero r4x (mul_nonneg hr0 hx0)
    (mul_le_mul_of_nonneg_right hr4 hx0) hneg (by linarith)
  obtain ⟨fw, w0, w1⟩ := ld.fin_of_bounds (q := 1 - x) ld.rep_zero ld.rep_one (by linarith)
    (by linarith) hneg (by linarith)
  have hpw := two_zpow_pos (-(ld.prec : ℤ))
  have hprod : ld.round (r * x) * ld.round (1 - x) ≤ 1 + (2 : ℚ) ^ (-(ld.prec : ℤ)) := by
    rcases le_or_lt (1 / 2) x with hhalf | hhalf
    · have hw : ld.round (1 - x) = 1 - x := ld.round_rep (ld.rep_one_sub hsub hx hhalf hx1)
      rw [hw]
      have : ld.round (r * x) * (1 - x) ≤ 4 * x * (1 - x) :=
        mul_le_mul_of_nonneg_right a4 (by linarith)
      nlinarith [sq_nonneg (2 * x - 1)]
    · rcases hx0.eq_or_lt with hzero | hpos
      · have h4x : 4 * x = 0 := by rw [← hzero]; ring
        have : ld.round (r * x) = 0 := le_antisymm (by linarith) a0
        rw [this, zero_mul]; linarith
      · have herr := ld.abs_round_sub_le_of_lt (1 - x) 0
          (by rw [abs_of_pos (by linarith), zpow_zero]; linarith) (by omega)
        rw [zero_sub, abs_le] at herr
        have hw : ld.round (1 - x) ≤ 1 - x + (2 : ℚ) ^ (-(ld.prec : ℤ)) / 2 := by linarith [herr.2]
        have h1 : ld.round (r * x) * ld.round (1 - x)
            ≤ 4 * x * (1 - x + (2 : ℚ) ^ (-(ld.prec : ℤ)) / 2) :=
          mul_le_mul a4 hw w0 (by linarith)
        nlinarith [sq_nonneg (2 * x - 1)]
  have hx'1 : ld.round (ld.round (r * x) * ld.round (1 - x)) ≤ 1 := by
    have := ld.round_mono hprod
    rwa [ld.round_one_add_half_ulp (by omega) (by omega)] at this
  have hx'0 : 0 ≤ ld.round (ld.round (r * x) * ld.round (1 - x)) :=
    ld.round_nonneg (mul_nonneg a0 w0)
  have fx : ld.fin (ld.round (r * x) * ld.round (1 - x))
      = some (ld.round (ld.round (r * x) * ld.round (1 - x))) :=
    ld.fin_eq_round (abs_lt.mpr ⟨by linarith, by linarith⟩)
  refine ⟨_, ?_, ld.rep_round _, hx'0, hx'1⟩
  simp only [orbitStep, Option.bind_eq_bind, Option.some_bind, fa, fw, fx]

/-- Every iterate from the seed `0.5` is a value of `[0, 1]`. -/
theorem orbit_iterate_unit (ld : Fmt) (hld : ld.Extends binary64) (hsub : ld.emin + ld.prec ≤ 0)
    (r : ℚ) (hr0 : 0 ≤ r) (hr4 : r ≤ 4) :
    ∀ n : ℕ, ∃ x, (orbitStep ld r)^[n] (some (1 / 2)) = some x ∧ ld.Rep x ∧ 0 ≤ x ∧ x ≤ 1
  | 0 => by
    refine ⟨1 / 2, rfl, ?_, by norm_num, by norm_num⟩
    have he : ld.emin ≤ -1 := by have : ld.emin ≤ -1074 := hld.2.1; omega
    have := ld.rep_half_natCast 1 (Nat.one_lt_two_pow (by have := ld.prec_pos; omega)) he
    simpa using this
  | n + 1 => by
    obtain ⟨x, hx, hrep, h0, h1⟩ := orbit_iterate_unit ld hld hsub r hr0 hr4 n
    obtain ⟨x', hx', hrep', h0', h1'⟩ := orbitStep_unit ld hld hsub r x hr0 hr4 hrep h0 h1
    exact ⟨x', by rw [Function.iterate_succ_apply', hx, hx'], hrep', h0', h1'⟩

/-- The row of an iterate of `[0, 1]` lies in `[0, height - 1]`, for a height up to `2 ^ 24`. -/
theorem rowOf_unit (ld : Fmt) (hld : ld.Extends binary64) (height : ℕ) (h1 : 1 ≤ height)
    (h2 : height ≤ 2 ^ 24) (x : ℚ) (hx0 : 0 ≤ x) (hx1 : x ≤ 1) :
    ∃ py, rowOf ld height (some x) = some py ∧ 0 ≤ py ∧ py ≤ (height : ℚ) - 1 := by
  obtain ⟨hp, hmin, hmax⟩ := hld
  have hp' : 53 ≤ ld.prec := hp
  have hmin' : ld.emin ≤ -1074 := hmin
  have hmax' : (1024 : ℤ) ≤ ld.emax := hmax
  obtain ⟨n, rfl⟩ : ∃ n, height = n + 1 := ⟨height - 1, by omega⟩
  have hn : n < 2 ^ 24 := by omega
  have hnq : (n : ℚ) < 2 ^ 24 := by exact_mod_cast hn
  have hn0 : (0 : ℚ) ≤ n := Nat.cast_nonneg _
  have hcast : ((n + 1 : ℕ) : ℚ) - 1 = n := by push_cast; ring
  have r1 : binary32.round ((n + 1 : ℕ) : ℚ) = ((n + 1 : ℕ) : ℚ) :=
    binary32.round_rep (binary32.rep_natCast_le _ (by simpa [binary32] using h2))
  have big32 : (2 : ℚ) ^ 25 < (2 : ℚ) ^ binary32.emax := by
    rw [← zpow_natCast]; exact two_zpow_lt_iff.mpr (by decide)
  have bigld : (2 : ℚ) ^ 25 < (2 : ℚ) ^ ld.emax := by
    rw [← zpow_natCast]; exact two_zpow_lt_iff.mpr (by push_cast; omega)
  have f1 : binary32.div (binary32.round ((n + 1 : ℕ) : ℚ)) 1 = some (((n + 1 : ℕ) : ℚ)) := by
    unfold Fmt.div
    rw [if_neg one_ne_zero, div_one, r1]
    apply binary32.fin_of_rep (binary32.rep_natCast_le _ (by simpa [binary32] using h2))
    rw [abs_of_nonneg (Nat.cast_nonneg _)]
    push_cast
    linarith
  have rn32 : binary32.Rep (n : ℚ) := binary32.rep_natCast n (by simpa [binary32] using hn)
  have rnld : ld.Rep (n : ℚ) :=
    ld.rep_natCast n (hn.trans_le (pow_le_pow_right₀ (by norm_num) (by omega)))
  have f2 : binary32.fin (n : ℚ) = some (n : ℚ) := by
    apply binary32.fin_of_rep rn32
    rw [abs_of_nonneg hn0]; linarith
  have hnegld : -(2 : ℚ) ^ ld.emax < 0 := by linarith [two_zpow_pos ld.emax]
  have hneg32 : -(2 : ℚ) ^ binary32.emax < 0 := by linarith [two_zpow_pos binary32.emax]
  obtain ⟨fw, w0, w1⟩ := ld.fin_of_bounds (q := 1 - x) ld.rep_zero ld.rep_one (by linarith)
    (by linarith) hnegld (by linarith)
  obtain ⟨fp, p0, p1⟩ := ld.fin_of_bounds (q := ld.round (1 - x) * (n : ℚ)) ld.rep_zero rnld
    (mul_nonneg w0 hn0) (by nlinarith) hnegld (by linarith)
  obtain ⟨fy, y0, y1⟩ := binary32.fin_of_bounds (q := ld.round (ld.round (1 - x) * (n : ℚ)))
    binary32.rep_zero rn32 p0 p1 hneg32 (by linarith)
  refine ⟨_, ?_, y0, by rw [hcast]; exact y1⟩
  simp only [rowOf, Option.bind_eq_bind, Option.some_bind, f1, f2, fw, fp, fy, hcast]

theorem recordLoop_full (ld : Fmt) (hld : ld.Extends binary64) (hsub : ld.emin + ld.prec ≤ 0)
    (r : ℚ) (hr0 : 0 ≤ r) (hr4 : r ≤ 4) (height i : ℕ) (h1 : 1 ≤ height)
    (h2 : height ≤ 2 ^ 24) :
    ∀ (count : ℕ) (x : ℚ), ld.Rep x → 0 ≤ x → x ≤ 1 →
      (recordLoop ld r height i count (some x)).length = count ∧
      ∀ p ∈ recordLoop ld r height i count (some x), 0 ≤ p.2 ∧ p.2 ≤ (height : ℚ) - 1
  | 0, x, _, _, _ => by simp [recordLoop]
  | count + 1, x, hrep, hx0, hx1 => by
    obtain ⟨x', hx', hrep', h0', h1'⟩ := orbitStep_unit ld hld hsub r x hr0 hr4 hrep hx0 hx1
    obtain ⟨py, hpy, py0, py1⟩ := rowOf_unit ld hld height h1 h2 x' h0' h1'
    obtain ⟨ihl, ihp⟩ := recordLoop_full ld hld hsub r hr0 hr4 height i h1 h2 count x'
      hrep' h0' h1'
    have rh : binary32.round (height : ℚ) = (height : ℚ) :=
      binary32.round_rep (binary32.rep_natCast_le _ (by simpa [binary32] using h2))
    have hc : 0 ≤ py ∧ py < binary32.round (height : ℚ) := ⟨py0, by rw [rh]; linarith⟩
    unfold recordLoop
    simp only [hx', hpy, if_pos hc, List.length_cons, ihl, List.mem_cons, true_and]
    rintro p (rfl | hp)
    · exact ⟨py0, py1⟩
    · exact ihp p hp

/-- C17 fails for a height above `2 ^ 24`: with `height = 2 ^ 25` the `float` value
`height/1.0f - 1` rounds back to `2 ^ 25`, so for `r = 4` the second iterate `x = 0` has the row
`2 ^ 25`, which is not below the height: the sample is dropped and the loop stores one point
where `max_iter - skip_iter = 2`. -/
theorem orbit_drops_sample :
    (∀ ld ∈ [binary64, x87ext, binary128],
      (orbitStep ld 4)^[2] (some (1 / 2)) = some 0 ∧
      rowOf ld 33554432 (some 0) = some 33554432 ∧
      (orbit ld 4 (1 / 2) 0 2 33554432 0).length = 1) ∧
    2 - 0 ≠ 1 := by
  constructor
  · decide!
  · decide

/-- C17, amended: for every parameter `r` in `[0, 4]`, the seed `0.5` and a height from 1 to
`2 ^ 24`, every iterate of `x <- r * x * (1 - x)` stays in `[0, 1]`, every stored row lies in
`[0, height - 1]`, no sample is dropped, and the orbit loop stores exactly
`max_iter - skip_iter` points for every sweep index. -/
theorem orbit_full (ld : Fmt) (hld : ld.Extends binary64) (hsub : ld.emin + ld.prec ≤ 0)
    (r : ℚ) (hr0 : 0 ≤ r) (hr4 : r ≤ 4) (skip_iter max_iter height i : ℕ) (h1 : 1 ≤ height)
    (h2 : height ≤ 2 ^ 24) :
    (∀ n : ℕ, ∃ x, (orbitStep ld r)^[n] (some (1 / 2)) = some x ∧ 0 ≤ x ∧ x ≤ 1) ∧
    (orbit ld r (1 / 2) skip_iter max_iter height i).length = max_iter - skip_iter ∧
    ∀ p ∈ orbit ld r (1 / 2) skip_iter max_iter height i, 0 ≤ p.2 ∧ p.2 ≤ (height : ℚ) - 1 := by
  refine ⟨fun n => ?_, ?_⟩
  · obtain ⟨x, hx, -, h0, h1⟩ := orbit_iterate_unit ld hld hsub r hr0 hr4 n
    exact ⟨x, hx, h0, h1⟩
  · obtain ⟨x, hx, hrep, hx0, hx1⟩ := orbit_iterate_unit ld hld hsub r hr0 hr4 skip_iter
    unfold orbit
    rw [hx]
    exact recordLoop_full ld hld hsub r hr0 hr4 height i h1 h2 _ x hrep hx0 hx1

/-- Witness of the amended C17: the x87 format, `r = 4`, the height 8640 of `main`, and a short
run of 3 iterations after 2 skipped ones. -/
theorem orbit_full_witness :
    (∀ n : ℕ, ∃ x, (orbitStep x87ext 4)^[n] (some (1 / 2)) = some x ∧ 0 ≤ x ∧ x ≤ 1) ∧
    (orbit x87ext 4 (1 / 2) 2 5 8640 7).length = 5 - 2 ∧
    ∀ p ∈ orbit x87ext 4 (1 / 2) 2 5 8640 7, 0 ≤ p.2 ∧ p.2 ≤ ((8640 : ℕ) : ℚ) - 1 :=
  orbit_full x87ext x87ext_extends_binary64 (by decide) 4 (by norm_num) (by norm_num) 2 5 8640 7
    (by decide) (by decide)

/-- The function `draw_aa_point` is the loop over the pixels of its box. -/
theorem draw_aa_point_eq (buffer : Buffer) (width height : ℤ) (x y : ℚ) (color : Fin 256)
    (radius : ℚ) :
    draw_aa_point buffer width height x y color radius =
      (boxBounds width height x y radius).bind fun b =>
        (binary32.fin (radius * radius)).bind fun r_squared =>
          (intRange b.2.1 b.2.2.2).foldlM
            (splatRow width x y color radius r_squared b.1 b.2.2.1) buffer := by
  unfold draw_aa_point boxBounds
  simp only [Option.bind_eq_bind]
  cases binary32.fin (x - radius) <;> simp only [Option.none_bind, Option.some_bind]
  cases toInt _ <;> simp only [Option.none_bind, Option.some_bind]
  cases binary32.fin (y - radius) <;> simp only [Option.none_bind, Option.some_bind]
  cases toInt _ <;> simp only [Option.none_bind, Option.some_bind]
  cases binary32.fin (x + radius) <;> simp only [Option.none_bind, Option.some_bind]
  cases toInt _ <;> simp only [Option.none_bind, Option.some_bind]
  cases binary32.fin (y + radius) <;> simp only [Option.none_bind, Option.some_bind]
  cases toInt _ <;> simp only [Option.none_bind, Option.some_bind]

/-- The loop body in terms of the outcome at the pixel. -/
theorem splatPixel_eq (buffer : Buffer) (width : ℤ) (x y : ℚ) (color : Fin 256)
    (radius r_squared : ℚ) (px py : ℤ) :
    splatPixel buffer width x y color radius r_squared px py =
      (pixelOutcome x y color radius r_squared px py).bind fun o =>
        match o with
        | none => some buffer
        | some i =>
          if (py * width + px) * 3 < 0 ∨ (2 : ℤ) ^ 31 ≤ (py * width + px) * 3 then none
          else some (blend_pixel buffer ((py * width + px) * 3).toNat i) := by
  unfold splatPixel pixelOutcome distSquared alphaAt intensityAt
  simp only [Option.bind_eq_bind]
  cases binary32.fin (binary32.round (px : ℚ) - x) <;>
    simp only [Option.none_bind, Option.some_bind]
  cases binary32.fin (binary32.round (py : ℚ) - y) <;>
    simp only [Option.none_bind, Option.some_bind]
  rename_i dx dy
  cases binary32.fin (dx * dx) <;> simp only [Option.none_bind, Option.some_bind]
  cases binary32.fin (dy * dy) <;> simp only [Option.none_bind, Option.some_bind]
  rename_i dxx dyy
  cases binary32.fin (dxx + dyy) <;> simp only [Option.none_bind, Option.some_bind]
  rename_i d2
  by_cases h1 : r_squared < d2
  · rw [if_pos h1, if_pos h1]; rfl
  · rw [if_neg h1, if_neg h1]
    cases binary32.sqrt d2 <;> simp only [Option.none_bind, Option.some_bind]
    rename_i root
    cases binary32.div root radius <;> simp only [Option.none_bind, Option.some_bind]
    rename_i q
    cases binary32.fin (1 - q) <;> simp only [Option.none_bind, Option.some_bind]
    rename_i a0
    cases binary32.fin (a0 * a0) <;> simp only [Option.none_bind, Option.some_bind]
    rename_i al
    cases binary32.fin ((color.val : ℚ) * al) <;> simp only [Option.none_bind, Option.some_bind]
    rename_i pr
    cases binary32.fin (255 - pr) <;> simp only [Option.none_bind, Option.some_bind]
    rename_i sh
    cases toU8 sh <;> simp only [Option.none_bind, Option.some_bind]

theorem foldlM_bind_list {α β γ : Type} (f : β → γ → Option β) (g : α → List γ) :
    ∀ (l : List α) (b : β),
      (l.flatMap g).foldlM f b = l.foldlM (fun b a => (g a).foldlM f b) b
  | [], b => rfl
  | a :: l, b => by
    rw [List.flatMap_cons, List.foldlM_append, List.foldlM_cons]
    congr 1
    funext b'
    exact foldlM_bind_list f g l b'

/-- The two nested loops of `draw_aa_point` are one loop over the pixels of the box. -/
theorem splatRows_eq (buffer : Buffer) (width : ℤ) (x y : ℚ) (color : Fin 256)
    (radius r_squared : ℚ) (x0 y0 x1 y1 : ℤ) :
    (intRange y0 y1).foldlM (splatRow width x y color radius r_squared x0 x1) buffer =
      (boxPixels x0 y0 x1 y1).foldlM
        (fun buf p => splatPixel buf width x y color radius r_squared p.1 p.2) buffer := by
  unfold boxPixels
  rw [foldlM_bind_list]
  congr 1
  funext buf py
  unfold splatRow
  rw [List.foldlM_map]

theorem flatMap_singleton_eq_map {α β : Type} (f : α → β) :
    ∀ l : List α, l.flatMap (fun a => [f a]) = l.map f
  | [] => rfl
  | a :: l => by
    rw [List.flatMap_cons, List.map_cons, flatMap_singleton_eq_map f l]; rfl

/-- The loop range as the image of an initial segment of the natural numbers. -/
theorem intRange_eq (a b : ℤ) :
    intRange a b = (List.range (b + 1 - a).toNat).map (fun k : ℕ => a + (k : ℤ)) := by
  unfold intRange
  show List.map (fun k => a + k)
    ((List.range (b + 1 - a).toNat).flatMap fun a => [((a : ℕ) : ℤ)]) = _
  rw [flatMap_singleton_eq_map, List.map_map]; rfl

theorem mem_intRange (a b k : ℤ) : k ∈ intRange a b ↔ a ≤ k ∧ k ≤ b := by
  rw [intRange_eq]
  simp only [List.mem_map, List.mem_range]
  constructor
  · rintro ⟨n, hn, rfl⟩; omega
  · rintro ⟨h1, h2⟩
    exact ⟨(k - a).toNat, by omega, by omega⟩

theorem nodup_intRange (a b : ℤ) : (intRange a b).Nodup := by
  rw [intRange_eq]
  apply List.Nodup.map _ (List.nodup_range _)
  intro m n h
  simpa using h

theorem mem_boxPixels (x0 y0 x1 y1 : ℤ) (p : ℤ × ℤ) :
    p ∈ boxPixels x0 y0 x1 y1 ↔ (x0 ≤ p.1 ∧ p.1 ≤ x1) ∧ (y0 ≤ p.2 ∧ p.2 ≤ y1) := by
  unfold boxPixels
  simp only [List.mem_flatMap, List.mem_map, mem_intRange]
  constructor
  · rintro ⟨py, hy, px, hx, rfl⟩; exact ⟨hx, hy⟩
  · rintro ⟨hx, hy⟩; exact ⟨p.2, hy, p.1, hx, rfl⟩

theorem nodup_boxPixels (x0 y0 x1 y1 : ℤ) : (boxPixels x0 y0 x1 y1).Nodup := by
  unfold boxPixels
  rw [List.nodup_flatMap]
  constructor
  · intro py _
    apply List.Nodup.map _ (nodup_intRange _ _)
    intro m n h
    simpa using h
  · apply List.Pairwise.imp_of_mem _ (nodup_intRange y0 y1)
    intro a b _ _ hab
    simp only [Function.onFun, List.disjoint_left, List.mem_map]
    rintro p ⟨px, _, rfl⟩ ⟨px', _, h⟩
    exact hab (by simpa using (Prod.ext_iff.mp h).2.symm)

/-- A loop whose body skips or blends one pixel per key, with distinct pixels for distinct keys:
a pixel blended by its key holds the blend of its initial first channel, and every byte outside
the blended pixels is unchanged. -/
theorem foldlM_cells {K : Type} (outcome : K → Option (Option (Fin 256))) (cell : K → ℕ)
    (step : Buffer → K → Option Buffer)
    (hstep : ∀ buf k buf', step buf k = some buf' →
      (outcome k = some none ∧ buf' = buf) ∨
      ∃ i, outcome k = some (some i) ∧ buf' = blend_pixel buf (3 * cell k) i) :
    ∀ (keys : List K), keys.Nodup → (∀ a ∈ keys, ∀ b ∈ keys, cell a = cell b → a = b) →
      ∀ (buf out : Buffer), keys.foldlM step buf = some out →
        (∀ k ∈ keys, ∀ i, outcome k = some (some i) → ∀ t, t < 3 →
          out (3 * cell k + t) = blendByte (buf (3 * cell k)) i) ∧
        (∀ j, (∀ k ∈ keys, ∀ i, outcome k = some (some i) → cell k ≠ j / 3) → out j = buf j)
  | [], _, _, buf, out, h => by
    simp only [List.foldlM, Option.pure_def, Option.some.injEq] at h
    subst h
    exact ⟨fun k hk => absurd hk (List.not_mem_nil k), fun j _ => rfl⟩
  | a :: l, hnd, hinj, buf, out, h => by
    simp only [List.foldlM, Option.bind_eq_bind, Option.bind_eq_some] at h
    obtain ⟨buf1, hs, hl⟩ := h
    have hnd' := List.nodup_cons.mp hnd
    have hinj' : ∀ a' ∈ l, ∀ b ∈ l, cell a' = cell b → a' = b := fun a' ha b hb =>
      hinj a' (List.mem_cons_of_mem _ ha) b (List.mem_cons_of_mem _ hb)
    obtain ⟨E1, F1⟩ := foldlM_cells outcome cell step hstep l hnd'.2 hinj' buf1 out hl
    have hne : ∀ k ∈ l, cell k ≠ cell a := by
      intro k hk heq
      have := hinj k (List.mem_cons_of_mem _ hk) a (List.mem_cons_self _ _) heq
      exact hnd'.1 (this ▸ hk)
    rcases hstep buf a buf1 hs with ⟨hout, rfl⟩ | ⟨i0, hout, rfl⟩
    · refine ⟨?_, ?_⟩
      · intro k hk i hi t ht
        rcases List.mem_cons.mp hk with rfl | hk
        · rw [hout] at hi; exact absurd hi (by simp)
        · exact E1 k hk i hi t ht
      · intro j hj
        exact F1 j (fun k hk => hj k (List.mem_cons_of_mem _ hk))
    · refine ⟨?_, ?_⟩
      · intro k hk i hi t ht
        rcases List.mem_cons.mp hk with rfl | hk
        · rw [hout] at hi
          have hi0 : i0 = i := by simpa using hi
          subst hi0
          rw [F1 (3 * cell k + t) (fun k' hk' _ _ => by
            have := hne k' hk'
            have e : (3 * cell k + t) / 3 = cell k := by omega
            rw [e]; exact this)]
          rw [blend_pixel_apply, if_pos (by omega)]
        · rw [E1 k hk i hi t ht, blend_pixel_apply, if_neg]
          have := hne k hk
          omega
      · intro j hj
        rw [F1 j (fun k hk => hj k (List.mem_cons_of_mem _ hk)), blend_pixel_apply, if_neg]
        have := hj a (List.mem_cons_self _ _) i0 hout
        omega

/-- The loop body of `draw_aa_point` skips the pixel or blends the pixel number
`py * width + px`. -/
theorem splatPixel_step (width : ℤ) (x y : ℚ) (color : Fin 256) (radius r_squared : ℚ)
    (buf : Buffer) (p : ℤ × ℤ) (buf' : Buffer)
    (h : splatPixel buf width x y color radius r_squared p.1 p.2 = some buf') :
    (pixelOutcome x y color radius r_squared p.1 p.2 = some none ∧ buf' = buf) ∨
    ∃ i, pixelOutcome x y color radius r_squared p.1 p.2 = some (some i) ∧
      buf' = blend_pixel buf (3 * (p.2 * width + p.1).toNat) i := by
  rw [splatPixel_eq] at h
  cases ho : pixelOutcome x y color radius r_squared p.1 p.2 with
  | none => rw [ho] at h; exact absurd h (by simp)
  | some o =>
    rw [ho, Option.some_bind] at h
    cases o with
    | none => left; exact ⟨rfl, (Option.some.inj h).symm⟩
    | some i =>
      right
      simp only at h
      split_ifs at h with hidx
      refine ⟨i, rfl, ?_⟩
      have e : ((p.2 * width + p.1) * 3).toNat = 3 * (p.2 * width + p.1).toNat := by omega
      rw [← e]; exact (Option.some.inj h).symm

/-- Distinct pixels of a box inside the image have distinct pixel numbers. -/
theorem cell_injective (width x0 y0 x1 y1 : ℤ) (hx0 : 0 ≤ x0) (hy0 : 0 ≤ y0)
    (hx1 : x1 ≤ width - 1) :
    ∀ a ∈ boxPixels x0 y0 x1 y1, ∀ b ∈ boxPixels x0 y0 x1 y1,
      (a.2 * width + a.1).toNat = (b.2 * width + b.1).toNat → a = b := by
  intro a ha b hb h
  rw [mem_boxPixels] at ha hb
  obtain ⟨⟨a1, a2⟩, ⟨a3, a4⟩⟩ := ha
  obtain ⟨⟨b1, b2⟩, ⟨b3, b4⟩⟩ := hb
  have hw : 0 < width := by omega
  have ha0 : 0 ≤ a.2 * width + a.1 := by nlinarith
  have hb0 : 0 ≤ b.2 * width + b.1 := by nlinarith
  have heq : a.2 * width + a.1 = b.2 * width + b.1 := by omega
  have hy : a.2 = b.2 := by
    by_contra hne
    rcases lt_or_gt_of_ne hne with hlt | hgt
    · have : (b.2 - a.2) * width ≥ width := by nlinarith
      nlinarith
    · have : (a.2 - b.2) * width ≥ width := by nlinarith
      nlinarith
  have hx : a.1 = b.1 := by rw [hy] at heq; omega
  exact Prod.ext hx hy

/-- Pixel-wise description of `draw_aa_point`: with the box and `r_squared` it computes, every
pixel of the box blended by the loop body holds in its three channels the blend of its previous
first channel, and every other byte of the buffer is unchanged. -/
theorem draw_aa_point_pixels (buffer out : Buffer) (width height : ℤ) (x y : ℚ)
    (color : Fin 256) (radius : ℚ)
    (h : draw_aa_point buffer width height x y color radius = some out) :
    ∃ x0 y0 x1 y1 r_squared,
      boxBounds width height x y radius = some (x0, y0, x1, y1) ∧
      binary32.fin (radius * radius) = some r_squared ∧
      (∀ px py, x0 ≤ px → px ≤ x1 → y0 ≤ py → py ≤ y1 →
        ∃ o, pixelOutcome x y color radius r_squared px py = some o) ∧
      (∀ px py, x0 ≤ px → px ≤ x1 → y0 ≤ py → py ≤ y1 → ∀ i,
        pixelOutcome x y color radius r_squared px py = some (some i) → ∀ t, t < 3 →
          out (3 * (py * width + px).toNat + t)
            = blendByte (buffer (3 * (py * width + px).toNat)) i) ∧
      (∀ j, (∀ px py, x0 ≤ px → px ≤ x1 → y0 ≤ py → py ≤ y1 → ∀ i,
        pixelOutcome x y color radius r_squared px py = some (some i) →
          (py * width + px).toNat ≠ j / 3) → out j = buffer j) := by
  rw [draw_aa_point_eq] at h
  simp only [Option.bind_eq_some] at h
  obtain ⟨⟨x0, y0, x1, y1⟩, hbox, r2, hr2, hfold⟩ := h
  simp only at hfold
  rw [splatRows_eq] at hfold
  refine ⟨x0, y0, x1, y1, r2, hbox, hr2, ?_⟩
  -- the box lies in the image
  have hb := hbox
  unfold boxBounds at hb
  simp only [Option.bind_eq_bind, Option.bind_eq_some, Option.some.injEq, Prod.mk.injEq] at hb
  obtain ⟨_, _, ix0, _, _, _, iy0, _, _, _, ix1, _, _, _, iy1, _, rfl, rfl, rfl, rfl⟩ := hb
  have hx0 : (0 : ℤ) ≤ max 0 ix0 := le_max_left _ _
  have hy0 : (0 : ℤ) ≤ max 0 iy0 := le_max_left _ _
  have hx1 : min (width - 1) ix1 ≤ width - 1 := min_le_left _ _
  obtain ⟨E, F⟩ := foldlM_cells
    (fun p : ℤ × ℤ => pixelOutcome x y color radius r2 p.1 p.2)
    (fun p : ℤ × ℤ => (p.2 * width + p.1).toNat)
    (fun buf p => splatPixel buf width x y color radius r2 p.1 p.2)
    (fun buf p buf' hs => splatPixel_step width x y color radius r2 buf p buf' hs)
    _ (nodup_boxPixels _ _ _ _) (cell_injective width _ _ _ _ hx0 hy0 hx1) buffer out hfold
  refine ⟨?_, ?_, ?_⟩
  · intro px py a1 a2 a3 a4
    have hmem : (px, py) ∈ boxPixels (max 0 ix0) (max 0 iy0) (min (width - 1) ix1)
        (min (height - 1) iy1) := (mem_boxPixels _ _ _ _ _).mpr ⟨⟨a1, a2⟩, ⟨a3, a4⟩⟩
    -- the loop ran through the pixel, so its body was defined there
    by_contra hno
    have hnone : pixelOutcome x y color radius r2 px py = none := by
      cases ho : pixelOutcome x y color radius r2 px py with
      | none => rfl
      | some o => exact absurd ⟨o, ho⟩ hno
    have : ∀ (l : List (ℤ × ℤ)) (b : Buffer), (px, py) ∈ l →
        l.foldlM (fun buf p => splatPixel buf width x y color radius r2 p.1 p.2) b = none := by
      intro l
      induction l with
      | nil => intro b hm; exact absurd hm (List.not_mem_nil _)
      | cons q l ih =>
        intro b hm
        rw [List.foldlM_cons]
        rcases List.mem_cons.mp hm with rfl | hm
        · rw [splatPixel_eq, hnone]; rfl
        · cases hq : splatPixel b width x y color radius r2 q.1 q.2 with
          | none => rfl
          | some b' => exact ih b' hm
    rw [this _ buffer hmem] at hfold
    exact absurd hfold (by simp)
  · intro px py a1 a2 a3 a4 i hi t ht
    exact E (px, py) ((mem_boxPixels _ _ _ _ _).mpr ⟨⟨a1, a2⟩, ⟨a3, a4⟩⟩) i hi t ht
  · intro j hj
    apply F j
    intro p hp i hi
    rw [mem_boxPixels] at hp
    exact hj p.1 p.2 hp.1.1 hp.1.2 hp.2.1 hp.2.2 i hi

theorem toInt_intCast_eq (k v : ℤ) (h : toInt (k : ℚ) = some v) : v = k := by
  unfold toInt at h
  rw [truncZ_intCast] at h
  split_ifs at h
  exact (Option.some.inj h).symm

/-- The box of `draw_aa_point` in closed form. -/
theorem boxBounds_eq (width height : ℤ) (x y radius : ℚ) (x0 y0 x1 y1 : ℤ)
    (h : boxBounds width height x y radius = some (x0, y0, x1, y1)) :
    x0 = max 0 ⌊binary32.round (x - radius)⌋ ∧ y0 = max 0 ⌊binary32.round (y - radius)⌋ ∧
    x1 = min (width - 1) ⌈binary32.round (x + radius)⌉ ∧
    y1 = min (height - 1) ⌈binary32.round (y + radius)⌉ := by
  unfold boxBounds at h
  simp only [Option.bind_eq_bind, Option.bind_eq_some, Option.some.injEq, Prod.mk.injEq] at h
  obtain ⟨bx0, h1, ix0, h2, by0, h3, iy0, h4, bx1, h5, ix1, h6, by1, h7, iy1, h8,
    rfl, rfl, rfl, rfl⟩ := h
  rw [toInt_intCast_eq _ _ h2, toInt_intCast_eq _ _ h4, toInt_intCast_eq _ _ h6,
    toInt_intCast_eq _ _ h8, (binary32.fin_eq_some h1).1, (binary32.fin_eq_some h3).1,
    (binary32.fin_eq_some h5).1, (binary32.fin_eq_some h7).1]
  exact ⟨rfl, rfl, rfl, rfl⟩

/-- A blended pixel passed the disk test. -/
theorem pixelOutcome_blend (x y : ℚ) (color : Fin 256) (radius r_squared : ℚ) (px py : ℤ)
    (i : Fin 256) (h : pixelOutcome x y color radius r_squared px py = some (some i)) :
    ∃ d2 alpha, distSquared x y px py = some d2 ∧ d2 ≤ r_squared ∧
      alphaAt radius d2 = some alpha ∧ intensityAt color alpha = some i := by
  unfold pixelOutcome at h
  simp only [Option.bind_eq_bind, Option.bind_eq_some] at h
  obtain ⟨d2, hd, h⟩ := h
  split_ifs at h with hlt
  · exact absurd h (by simp)
  · simp only [Option.bind_eq_some, Option.some.injEq] at h
    obtain ⟨alpha, ha, i', hi, rfl⟩ := h
    exact ⟨d2, alpha, hd, not_lt.mp hlt, ha, hi⟩

/-- C18 fails for an image of more than `2 ^ 31` bytes, because line 47 computes the index in
`int`: for `width = 38400`, `height = 21600`, radius 1 and the point `(38399, 21599)` the box
bounds fit in an `int`, the last pixel is in the box, and its index
`(21599 * 38400 + 38399) * 3 = 2488319997` exceeds `INT_MAX`; the call has no defined
result. -/
theorem draw_aa_point_index_overflow :
    boxBounds 38400 21600 38399 21599 1 = some (38398, 21598, 38399, 21599) ∧
    ((38399 : ℤ), (21599 : ℤ)) ∈ boxPixels 38398 21598 38399 21599 ∧
    pixelOutcome 38399 21599 1 1 1 38399 21599 = some (some 254) ∧
    (2 : ℤ) ^ 31 ≤ ((21599 : ℤ) * 38400 + 38399) * 3 ∧
    (draw_aa_point (fun _ => 255) 38400 21600 38399 21599 1 1).isSome = false := by
  refine ⟨?_, ?_, ?_, ?_, ?_⟩
  · decide!
  · rw [mem_boxPixels]; norm_num
  · decide!
  · norm_num
  · decide!

/-- C18, amended: for an image of at most `2 ^ 31` bytes (`width * height * 3 ≤ 2 ^ 31`), the
loops of `draw_aa_point` visit the pixels of the box it computes, and for each of them every
byte index `(py * width + px) * 3 + k` with `k` in `{0, 1, 2}` satisfies
`0 ≤ index < width * height * 3` and fits in an `int`; in particular every byte the call changes
has such an index. -/
theorem draw_aa_point_in_bounds (buffer : Buffer) (width height : ℤ) (x y : ℚ)
    (color : Fin 256) (radius : ℚ) (hsize : width * height * 3 ≤ 2 ^ 31) :
    (draw_aa_point buffer width height x y color radius =
      (boxBounds width height x y radius).bind fun b =>
        (binary32.fin (radius * radius)).bind fun r_squared =>
          (boxPixels b.1 b.2.1 b.2.2.1 b.2.2.2).foldlM
            (fun buf p => splatPixel buf width x y color radius r_squared p.1 p.2) buffer) ∧
    (∀ x0 y0 x1 y1, boxBounds width height x y radius = some (x0, y0, x1, y1) →
      ∀ p ∈ boxPixels x0 y0 x1 y1, ∀ k : ℤ, 0 ≤ k → k < 3 →
        0 ≤ (p.2 * width + p.1) * 3 + k ∧ (p.2 * width + p.1) * 3 + k < width * height * 3 ∧
        (p.2 * width + p.1) * 3 + k < 2 ^ 31 ∧
        0 ≤ p.2 * width ∧ p.2 * width + p.1 < 2 ^ 31) ∧
    (∀ out, draw_aa_point buffer width height x y color radius = some out →
      ∀ j : ℕ, out j ≠ buffer j → (j : ℤ) < width * height * 3) := by
  have hbound : ∀ x0 y0 x1 y1, boxBounds width height x y radius = some (x0, y0, x1, y1) →
      ∀ p ∈ boxPixels x0 y0 x1 y1, ∀ k : ℤ, 0 ≤ k → k < 3 →
        0 ≤ (p.2 * width + p.1) * 3 + k ∧
          (p.2 * width + p.1) * 3 + k < width * height * 3 := by
    intro x0 y0 x1 y1 hbox p hp k k0 k3
    obtain ⟨rfl, rfl, rfl, rfl⟩ := boxBounds_eq _ _ _ _ _ _ _ _ _ hbox
    rw [mem_boxPixels] at hp
    obtain ⟨⟨a1, a2⟩, ⟨a3, a4⟩⟩ := hp
    have hx0 : (0 : ℤ) ≤ p.1 := (le_max_left _ _).trans a1
    have hy0 : (0 : ℤ) ≤ p.2 := (le_max_left _ _).trans a3
    have hxw : p.1 ≤ width - 1 := a2.trans (min_le_left _ _)
    have hyh : p.2 ≤ height - 1 := a4.trans (min_le_left _ _)
    have hw : 0 < width := by omega
    constructor
    · nlinarith
    · have : p.2 * width ≤ (height - 1) * width := mul_le_mul_of_nonneg_right hyh hw.le
      nlinarith
  refine ⟨?_, ?_, ?_⟩
  · rw [draw_aa_point_eq]
    congr 1; funext b
    congr 1; funext r2
    exact splatRows_eq _ _ _ _ _ _ _ _ _ _ _
  · intro x0 y0 x1 y1 hbox p hp k k0 k3
    obtain ⟨b1, b2⟩ := hbound x0 y0 x1 y1 hbox p hp k k0 k3
    obtain ⟨c1, -⟩ := hbound x0 y0 x1 y1 hbox p hp 0 le_rfl (by norm_num)
    obtain ⟨rfl, rfl, rfl, rfl⟩ := boxBounds_eq _ _ _ _ _ _ _ _ _ hbox
    rw [mem_boxPixels] at hp
    obtain ⟨⟨a1, a2⟩, ⟨a3, a4⟩⟩ := hp
    have hx0 : (0 : ℤ) ≤ p.1 := (le_max_left _ _).trans a1
    have hy0 : (0 : ℤ) ≤ p.2 := (le_max_left _ _).trans a3
    have hxw : p.1 ≤ width - 1 := a2.trans (min_le_left _ _)
    have hw : 0 < width := by omega
    refine ⟨b1, b2, by omega, mul_nonneg hy0 hw.le, by omega⟩
  · intro out h j hj
    obtain ⟨x0, y0, x1, y1, r2, hbox, -, -, -, F⟩ :=
      draw_aa_point_pixels buffer out width height x y color radius h
    by_contra hge
    apply hj
    apply F j
    intro px py a1 a2 a3 a4 i _ hcell
    have hmem : (px, py) ∈ boxPixels x0 y0 x1 y1 :=
      (mem_boxPixels _ _ _ _ _).mpr ⟨⟨a1, a2⟩, ⟨a3, a4⟩⟩
    have b0 := hbound x0 y0 x1 y1 hbox (px, py) hmem 0 le_rfl (by norm_num)
    have b2 := hbound x0 y0 x1 y1 hbox (px, py) hmem 2 (by norm_num) (by norm_num)
    simp only at b0 b2
    omega

/-- Witness of the amended C18: the 15360 by 8640 image of `main` (398131200 bytes), radius 1
and the point `(100, 200)`. -/
theorem draw_aa_point_in_bounds_witness :
    (draw_aa_point (fun _ => 255) 15360 8640 100 200 1 1 =
      (boxBounds 15360 8640 100 200 1).bind fun b =>
        (binary32.fin (1 * 1)).bind fun r_squared =>
          (boxPixels b.1 b.2.1 b.2.2.1 b.2.2.2).foldlM
            (fun buf p => splatPixel buf 15360 100 200 1 1 r_squared p.1 p.2)
            (fun _ => 255)) ∧
    (∀ x0 y0 x1 y1, boxBounds 15360 8640 100 200 1 = some (x0, y0, x1, y1) →
      ∀ p ∈ boxPixels x0 y0 x1 y1, ∀ k : ℤ, 0 ≤ k → k < 3 →
        0 ≤ (p.2 * 15360 + p.1) * 3 + k ∧ (p.2 * 15360 + p.1) * 3 + k < 15360 * 8640 * 3 ∧
        (p.2 * 15360 + p.1) * 3 + k < 2 ^ 31 ∧
        0 ≤ p.2 * 15360 ∧ p.2 * 15360 + p.1 < 2 ^ 31) ∧
    (∀ out, draw_aa_point (fun _ => 255) 15360 8640 100 200 1 1 = some out →
      ∀ j : ℕ, out j ≠ (fun _ => 255 : Buffer) j → (j : ℤ) < 15360 * 8640 * 3) :=
  draw_aa_point_in_bounds (fun _ => 255) 15360 8640 100 200 1 1 (by norm_num)

theorem sqrtAux_spec (n : ℕ) : ∀ (k r : ℕ), r * r ≤ n → n < (r + 2 ^ k) * (r + 2 ^ k) →
    sqrtAux n k r * sqrtAux n k r ≤ n ∧ n < (sqrtAux n k r + 1) * (sqrtAux n k r + 1)
  | 0, r, h1, h2 => by
    unfold sqrtAux
    exact ⟨h1, by simpa using h2⟩
  | k + 1, r, h1, h2 => by
    unfold sqrtAux
    split_ifs with hc
    · apply sqrtAux_spec n k _ hc
      have : r + 2 ^ k + 2 ^ k = r + 2 ^ (k + 1) := by rw [pow_succ]; ring
      rw [this]; exact h2
    · exact sqrtAux_spec n k r h1 (not_le.mp hc)

/-- The integer square root: `natSqrt n` is the floor of the square root of `n`. -/
theorem natSqrt_spec (n : ℕ) :
    natSqrt n * natSqrt n ≤ n ∧ n < (natSqrt n + 1) * (natSqrt n + 1) := by
  unfold natSqrt
  apply sqrtAux_spec n _ 0 (Nat.zero_le _)
  rw [zero_add, ← pow_two, ← pow_mul]
  rcases Nat.eq_zero_or_pos n with rfl | hn
  · positivity
  · have h := (natLog2_spec n hn).2
    refine lt_of_lt_of_le h (Nat.pow_le_pow_right (by norm_num) ?_)
    omega

/-- The parts of the correctly rounded square root of a positive value: the exponent `e` of the
grid, the integer part `n` of the scaled root and the rounded significand `m`. -/
theorem Fmt.sqrt_parts (f : Fmt) (q : ℚ) (hq : 0 < q) :
    ∃ (e : ℤ) (n m : ℕ),
      e = max (ilog2 q / 2 - ((f.prec : ℤ) - 1)) f.emin ∧
      f.sqrt q = some ((m : ℚ) * (2 : ℚ) ^ e) ∧
      (n : ℚ) * n ≤ q / (2 : ℚ) ^ (2 * e) ∧ q / (2 : ℚ) ^ (2 * e) < ((n : ℚ) + 1) * (n + 1) ∧
      (m = n ∨ m = n + 1) ∧
      (m = n → q / (2 : ℚ) ^ (2 * e) ≤ ((n : ℚ) + 1 / 2) * (n + 1 / 2)) ∧
      (m = n + 1 → ((n : ℚ) + 1 / 2) * (n + 1 / 2) ≤ q / (2 : ℚ) ^ (2 * e)) := by
  set e : ℤ := max (ilog2 q / 2 - ((f.prec : ℤ) - 1)) f.emin with he
  have hs0 : 0 ≤ q / (2 : ℚ) ^ (2 * e) := div_nonneg hq.le (two_zpow_pos _).le
  obtain ⟨h1, h2⟩ := natSqrt_spec ⌊q / (2 : ℚ) ^ (2 * e)⌋.toNat
  set n := natSqrt ⌊q / (2 : ℚ) ^ (2 * e)⌋.toNat with hn
  have hfl0 : 0 ≤ ⌊q / (2 : ℚ) ^ (2 * e)⌋ := Int.floor_nonneg.mpr hs0
  have hL : (n : ℚ) * n ≤ q / (2 : ℚ) ^ (2 * e) := by
    have a : ((n * n : ℕ) : ℤ) ≤ ⌊q / (2 : ℚ) ^ (2 * e)⌋ := by
      have : ((n * n : ℕ) : ℤ) ≤ ((⌊q / (2 : ℚ) ^ (2 * e)⌋.toNat : ℕ) : ℤ) := by exact_mod_cast h1
      rwa [Int.toNat_of_nonneg hfl0] at this
    have b := Int.le_floor.mp a
    push_cast at b; exact b
  have hU : q / (2 : ℚ) ^ (2 * e) < ((n : ℚ) + 1) * (n + 1) := by
    have a : ⌊q / (2 : ℚ) ^ (2 * e)⌋ < (((n + 1) * (n + 1) : ℕ) : ℤ) := by
      have : ((⌊q / (2 : ℚ) ^ (2 * e)⌋.toNat : ℕ) : ℤ) < (((n + 1) * (n + 1) : ℕ) : ℤ) := by
        exact_mod_cast h2
      rwa [Int.toNat_of_nonneg hfl0] at this
    have b := Int.floor_lt.mp a
    push_cast at b; exact b
  have hsq : f.sqrt q = some
      (((if q / (2 : ℚ) ^ (2 * e) < ((n : ℚ) + 1 / 2) * ((n : ℚ) + 1 / 2) then n
        else if ((n : ℚ) + 1 / 2) * ((n : ℚ) + 1 / 2) < q / (2 : ℚ) ^ (2 * e) then n + 1
        else if n % 2 = 0 then n else n + 1 : ℕ) : ℚ) * (2 : ℚ) ^ e) := by
    unfold Fmt.sqrt
    rw [if_neg (not_lt.mpr hq.le), if_neg hq.ne']
    simp only [pow2_eq]
  refine ⟨e, n, _, rfl, hsq, hL, hU, ?_, ?_, ?_⟩
  · split_ifs <;> simp
  · intro hm
    split_ifs at hm with c1 c2 c3
    · exact c1.le
    · omega
    · exact not_lt.mp c2
    · omega
  · intro hm
    split_ifs at hm with c1 c2 c3
    · omega
    · exact c2.le
    · omega
    · exact not_lt.mp c1

/-- The rounded square root against the grid of its result: a grid point whose square is at most
`q` is at most the root, and a grid point whose square is at least `q` is at least the root. -/
theorem Fmt.sqrt_grid (f : Fmt) (q : ℚ) (hq : 0 < q) :
    ∃ root : ℚ, f.sqrt q = some root ∧ 0 ≤ root ∧
      (∀ z : ℤ, 0 ≤ z →
        let g := (z : ℚ) * (2 : ℚ) ^ max (ilog2 q / 2 - ((f.prec : ℤ) - 1)) f.emin
        (g * g ≤ q → g ≤ root) ∧ (q ≤ g * g → root ≤ g)) := by
  obtain ⟨e, n, m, he, hs, hL, hU, hm, hmn, hmn1⟩ := f.sqrt_parts q hq
  have hpe := two_zpow_pos e
  have h2e : (2 : ℚ) ^ (2 * e) = (2 : ℚ) ^ e * (2 : ℚ) ^ e := by
    rw [two_mul, zpow_add₀ (by norm_num : (2 : ℚ) ≠ 0)]
  have hsq : ∀ z : ℚ, (z * (2 : ℚ) ^ e) * (z * (2 : ℚ) ^ e) = z * z * (2 : ℚ) ^ (2 * e) := by
    intro z; rw [h2e]; ring
  have hp2 := two_zpow_pos (2 * e)
  refine ⟨_, hs, mul_nonneg (Nat.cast_nonneg _) hpe.le, ?_⟩
  intro z hz
  rw [← he]
  have hzq : (0 : ℚ) ≤ z := by exact_mod_cast hz
  have hn0 : (0 : ℚ) ≤ n := Nat.cast_nonneg _
  constructor
  · intro hle
    rw [hsq, ← le_div_iff₀ hp2] at hle
    apply mul_le_mul_of_nonneg_right _ hpe.le
    by_contra hc
    rw [not_le] at hc
    have hmz : (m : ℤ) + 1 ≤ z := by exact_mod_cast hc
    have hnz : (n : ℤ) + 1 ≤ z := by rcases hm with h | h <;> omega
    have hnzq : (n : ℚ) + 1 ≤ z := by exact_mod_cast hnz
    have : ((n : ℚ) + 1) * (n + 1) ≤ z * z := by nlinarith
    linarith
  · intro hle
    rw [hsq, ← div_le_iff₀ hp2] at hle
    apply mul_le_mul_of_nonneg_right _ hpe.le
    by_contra hc
    rw [not_le] at hc
    have hzm : z + 1 ≤ (m : ℤ) := by exact_mod_cast hc
    rcases hm with h | h
    · have hzn : (z : ℚ) + 1 ≤ n := by
        have : z + 1 ≤ (n : ℤ) := by omega
        exact_mod_cast this
      have : (z : ℚ) * z < n * n := by nlinarith
      linarith
    · have hzn : (z : ℚ) ≤ n := by
        have : z ≤ (n : ℤ) := by omega
        exact_mod_cast this
      have h1 := hmn1 h
      have : (z : ℚ) * z < ((n : ℚ) + 1 / 2) * (n + 1 / 2) := by nlinarith
      linarith

theorem Fmt.sqrt_zero (f : Fmt) : f.sqrt 0 = some 0 := by
  unfold Fmt.sqrt
  rw [if_neg (lt_irrefl _), if_pos rfl]

/-- The square root of a nonnegative value is defined and nonnegative. -/
theorem Fmt.sqrt_defined (f : Fmt) (q : ℚ) (hq : 0 ≤ q) :
    ∃ root, f.sqrt q = some root ∧ 0 ≤ root := by
  rcases hq.eq_or_lt with h | h
  · exact ⟨0, by rw [← h]; exact f.sqrt_zero, le_rfl⟩
  · obtain ⟨root, hs, h0, -⟩ := f.sqrt_grid q h
    exact ⟨root, hs, h0⟩

/-- A positive value whose square is at least `q` has its unit in the last place on the grid of
the root of `q`. -/
theorem Fmt.sqrt_exp_le (f : Fmt) {q b : ℚ} (hq : 0 < q) (hb : 0 < b) (h : q ≤ b * b) :
    max (ilog2 q / 2 - ((f.prec : ℤ) - 1)) f.emin ≤ f.ulpExp b := by
  have hk : ilog2 q / 2 ≤ ilog2 b := by
    have h1 := (ilog2_spec q hq.ne').1
    rw [abs_of_pos hq] at h1
    have h2 := (ilog2_spec b hb.ne').2
    rw [abs_of_pos hb] at h2
    have h3 : (2 : ℚ) ^ ilog2 q < (2 : ℚ) ^ (2 * (ilog2 b + 1)) := by
      rw [two_mul, zpow_add₀ (by norm_num : (2 : ℚ) ≠ 0)]
      calc (2 : ℚ) ^ ilog2 q ≤ b * b := h1.trans h
        _ < _ := mul_lt_mul'' h2 h2 hb.le hb.le
    have := two_zpow_lt_iff.mp h3
    omega
  unfold Fmt.ulpExp
  exact max_le_max (by omega) le_rfl

/-- The rounded square root does not exceed a representable value whose square is at least the
argument. -/
theorem Fmt.sqrt_le_of_le_sq (f : Fmt) {q b root : ℚ} (hb : f.Rep b) (hb0 : 0 ≤ b)
    (h : q ≤ b * b) (hs : f.sqrt q = some root) : root ≤ b := by
  rcases lt_trichotomy q 0 with hq | hq | hq
  · unfold Fmt.sqrt at hs; rw [if_pos hq] at hs; exact absurd hs (by simp)
  · rw [hq, f.sqrt_zero] at hs
    rw [← Option.some.inj hs]; exact hb0
  · have hbpos : 0 < b := by
      rcases hb0.eq_or_lt with h0 | h0
      · rw [← h0] at h; linarith
      · exact h0
    obtain ⟨root', hs', -, hg⟩ := f.sqrt_grid q hq
    rw [hs] at hs'
    obtain rfl := Option.some.inj hs'
    obtain ⟨z, hz⟩ := f.rep_multiple_of_le hb _ (f.sqrt_exp_le hq hbpos h)
    have hz0 : 0 ≤ z := by
      have : (0 : ℚ) < (z : ℚ) * (2 : ℚ) ^ max (ilog2 q / 2 - ((f.prec : ℤ) - 1)) f.emin := by
        rw [← hz]; exact hbpos
      have := (mul_pos_iff_of_pos_right (two_zpow_pos _)).mp this
      exact_mod_cast this.le
    have := (hg z hz0).2
    simp only at this
    rw [← hz] at this
    exact this h

/-- The rounded square root is at least a representable value whose square is at most the
argument. -/
theorem Fmt.le_sqrt_of_sq_le (f : Fmt) {q a root : ℚ} (ha : f.Rep a) (ha0 : 0 ≤ a)
    (h : a * a ≤ q) (hs : f.sqrt q = some root) : a ≤ root := by
  have hq0 : 0 ≤ q := le_trans (mul_self_nonneg a) h
  rcases hq0.eq_or_lt with hq | hq
  · rw [← hq, f.sqrt_zero] at hs
    rw [← Option.some.inj hs]
    rw [← hq] at h
    nlinarith
  rcases ha0.eq_or_lt with ha1 | hapos
  · obtain ⟨root', hs', h0, -⟩ := f.sqrt_grid q hq
    rw [hs] at hs'
    rw [Option.some.inj hs', ← ha1]; exact h0
  obtain ⟨root', hs', -, hg⟩ := f.sqrt_grid q hq
  rw [hs] at hs'
  obtain rfl := Option.some.inj hs'
  set e : ℤ := max (ilog2 q / 2 - ((f.prec : ℤ) - 1)) f.emin with he
  by_cases hu : e ≤ f.ulpExp a
  · obtain ⟨z, hz⟩ := f.rep_multiple_of_le ha _ hu
    have hz0 : 0 ≤ z := by
      have : (0 : ℚ) < (z : ℚ) * (2 : ℚ) ^ e := by rw [← hz]; exact hapos
      have := (mul_pos_iff_of_pos_right (two_zpow_pos _)).mp this
      exact_mod_cast this.le
    have := (hg z hz0).1
    simp only at this
    rw [← hz] at this
    exact this h
  · -- the value `a` lies under the power of two `2 ^ (ilog2 q / 2)`, which is on the grid
    rw [not_le] at hu
    have hemin : f.emin ≤ f.ulpExp a := le_max_right _ _
    have hee : e = ilog2 q / 2 - ((f.prec : ℤ) - 1) := by
      rcases max_cases (ilog2 q / 2 - ((f.prec : ℤ) - 1)) f.emin with ⟨h1, _⟩ | ⟨h1, _⟩
      · exact h1
      · rw [he, h1] at hu; omega
    have hla : ilog2 a < ilog2 q / 2 := by
      have : ilog2 a - ((f.prec : ℤ) - 1) ≤ f.ulpExp a := le_max_left _ _
      omega
    have ha2 : a < (2 : ℚ) ^ (ilog2 q / 2) := by
      have := (ilog2_spec a hapos.ne').2
      rw [abs_of_pos hapos] at this
      exact this.trans_le (two_zpow_le (by omega))
    have hp := f.prec_pos
    obtain ⟨p', hp'⟩ : ∃ p' : ℕ, f.prec = p' + 1 := ⟨f.prec - 1, by omega⟩
    have hpow : (2 : ℚ) ^ (ilog2 q / 2) = ((2 ^ p' : ℤ) : ℚ) * (2 : ℚ) ^ e := by
      push_cast
      rw [← zpow_natCast, ← zpow_add₀ (by norm_num : (2 : ℚ) ≠ 0), hee, hp']
      congr 1; push_cast; ring
    have := (hg (2 ^ p') (by positivity)).1
    simp only at this
    rw [← hpow] at this
    refine ha2.le.trans (this ?_)
    rw [← zpow_add₀ (by norm_num : (2 : ℚ) ≠ 0)]
    have h1 := (ilog2_spec q hq.ne').1
    rw [abs_of_pos hq] at h1
    exact (two_zpow_le (by omega)).trans h1

/-- Rounding at most doubles a nonnegative value. -/
theorem Fmt.round_le_two_mul (f : Fmt) {q : ℚ} (hq : 0 ≤ q) : f.round q ≤ 2 * q := by
  rcases hq.eq_or_lt with h | hpos
  · rw [← h, f.round_zero]; norm_num
  have hs := ilog2_spec q hpos.ne'
  rw [abs_of_pos hpos] at hs
  by_cases hk : f.emin ≤ ilog2 q + 1
  · have hu : f.ulpExp q ≤ ilog2 q + 1 := max_le (by have := f.prec_pos; omega) hk
    have := f.round_le_two_zpow (ilog2 q + 1) hpos hu hs.2.le
    rw [zpow_add₀ (by norm_num : (2 : ℚ) ≠ 0), zpow_one] at this
    linarith
  · rw [not_le] at hk
    have hu : f.ulpExp q = f.emin := max_eq_right (by have := f.prec_pos; omega)
    have herr := f.abs_round_sub_le q
    rw [hu] at herr
    obtain ⟨z, hz⟩ := f.rep_multiple_of_le (f.rep_round q) f.emin (f.emin_le_ulpExp _)
    have hq2 : q < (2 : ℚ) ^ f.emin / 2 := by
      have : (2 : ℚ) ^ (ilog2 q + 1) ≤ (2 : ℚ) ^ (f.emin - 1) := two_zpow_le (by omega)
      rw [zpow_sub₀ (by norm_num : (2 : ℚ) ≠ 0), zpow_one] at this
      linarith
    have hz1 : z ≤ 0 := by
      by_contra hc
      rw [not_le] at hc
      have : (1 : ℚ) ≤ z := by exact_mod_cast hc
      have := mul_le_mul_of_nonneg_right this (two_zpow_pos f.emin).le
      rw [← hz, one_mul] at this
      have := (abs_le.mp herr).2
      linarith
    have : f.round q ≤ 0 := by
      rw [hz]
      exact mul_nonpos_of_nonpos_of_nonneg (by exact_mod_cast hz1) (two_zpow_pos _).le
    linarith

theorem binary32_rep_two_pow (k : ℕ) : binary32.Rep ((2 : ℚ) ^ k) := by
  refine ⟨1, k, by rw [zpow_natCast]; simp, ?_, ?_⟩
  · rw [abs_one]; norm_num [binary32]
  · simp only [binary32]; omega

/-- A value of magnitude at most `2 ^ k` rounds to a finite `float` of magnitude at most
`2 ^ k`. -/
theorem binary32_fin_le (q : ℚ) (k : ℕ) (hk : k ≤ 127) (h : |q| ≤ (2 : ℚ) ^ k) :
    binary32.fin q = some (binary32.round q) ∧ |binary32.round q| ≤ (2 : ℚ) ^ k := by
  have hr := binary32_rep_two_pow k
  have hbig := binary32_big k hk
  rw [abs_le] at h
  obtain ⟨f, lo, hi⟩ := binary32.fin_of_bounds (binary32.rep_neg hr) hr h.1 h.2
    (by linarith [pow_pos (two_pos : (0 : ℚ) < 2) k]) hbig
  exact ⟨f, abs_le.mpr ⟨lo, hi⟩⟩

/-- The falloff of a pixel that passes the disk test is defined and lies in `[0, 1]`. -/
theorem alphaAt_range (radius d2 : ℚ) (hrep : binary32.Rep radius) (hr : 0 < radius)
    (hd0 : 0 ≤ d2) (hd : d2 ≤ binary32.round (radius * radius)) :
    ∃ alpha, alphaAt radius d2 = some alpha ∧ 0 ≤ alpha ∧ alpha ≤ 1 ∧ binary32.Rep alpha := by
  obtain ⟨root, hroot, hroot0⟩ := binary32.sqrt_defined d2 hd0
  have h2r : binary32.Rep (radius * (2 : ℚ) ^ 1) := binary32.rep_mul_two_zpow hrep 1
  rw [pow_one] at h2r
  have hrr := binary32.round_le_two_mul (mul_self_nonneg radius)
  have hle : root ≤ radius * 2 :=
    binary32.sqrt_le_of_le_sq h2r (by linarith) (by nlinarith) hroot
  have hq1 : 0 ≤ root / radius := div_nonneg hroot0 hr.le
  have hq2 : root / radius ≤ 2 := by rw [div_le_iff₀ hr]; linarith
  have hrep2 : binary32.Rep 2 := by simpa using binary32_rep_two_pow 1
  have hbig2 : (2 : ℚ) < (2 : ℚ) ^ binary32.emax := by simpa using binary32_big 1 (by norm_num)
  have hbig1 : (1 : ℚ) < (2 : ℚ) ^ binary32.emax := by linarith
  obtain ⟨hquot, q0, q2⟩ := binary32.fin_of_bounds binary32.rep_zero hrep2 hq1 hq2
    (by linarith) hbig2
  obtain ⟨ha0, a1, a2⟩ := binary32.fin_of_bounds (binary32.rep_neg binary32.rep_one)
    binary32.rep_one (show (-1 : ℚ) ≤ 1 - binary32.round (root / radius) by linarith)
    (show 1 - binary32.round (root / radius) ≤ 1 by linarith) (by linarith) hbig1
  obtain ⟨hal, b1, b2⟩ := binary32.fin_of_bounds binary32.rep_zero binary32.rep_one
    (mul_self_nonneg (binary32.round (1 - binary32.round (root / radius))))
    (show binary32.round (1 - binary32.round (root / radius)) *
      binary32.round (1 - binary32.round (root / radius)) ≤ 1 by nlinarith)
    (by linarith) hbig1
  refine ⟨_, ?_, b1, b2, binary32.rep_round _⟩
  unfold alphaAt
  rw [hroot]
  simp only [Option.bind_eq_bind, Option.some_bind]
  unfold Fmt.div
  rw [if_neg hr.ne', hquot]
  simp only [Option.some_bind]
  rw [ha0]
  simp only [Option.some_bind]
  exact hal

/-- The intensity of a falloff in `[0, 1]` is defined: the floor of the `float` value
`255 - color * alpha`. -/
theorem intensityAt_defined (color : Fin 256) (alpha : ℚ) (h0 : 0 ≤ alpha) (h1 : alpha ≤ 1) :
    ∃ i, intensityAt color alpha = some i ∧
      (i.val : ℤ) = ⌊binary32.round (255 - binary32.round ((color.val : ℚ) * alpha))⌋ ∧
      0 ≤ binary32.round ((color.val : ℚ) * alpha) ∧
      binary32.round ((color.val : ℚ) * alpha) ≤ color.val := by
  have hc0 : (0 : ℚ) ≤ color.val := Nat.cast_nonneg _
  have hc1 : (color.val : ℚ) ≤ 255 := by exact_mod_cast Nat.lt_succ_iff.mp color.isLt
  have hrc : binary32.Rep (color.val : ℚ) :=
    binary32.rep_natCast _ (lt_trans color.isLt (by norm_num [binary32]))
  have hr255 : binary32.Rep (255 : ℚ) := by
    have := binary32.rep_natCast 255 (by norm_num [binary32])
    simpa using this
  have hbig : (255 : ℚ) < (2 : ℚ) ^ binary32.emax := by
    have := binary32_big 8 (by norm_num)
    norm_num at this ⊢
    linarith
  obtain ⟨hp, p0, p1⟩ := binary32.fin_of_bounds binary32.rep_zero hrc
    (mul_nonneg hc0 h0) (show (color.val : ℚ) * alpha ≤ color.val by nlinarith)
    (by linarith) (by linarith)
  obtain ⟨hs, s0, s1⟩ := binary32.fin_of_bounds binary32.rep_zero hr255
    (show (0 : ℚ) ≤ 255 - binary32.round ((color.val : ℚ) * alpha) by linarith)
    (show 255 - binary32.round ((color.val : ℚ) * alpha) ≤ 255 by linarith)
    (by linarith) hbig
  obtain ⟨b, hb, hbv⟩ := toU8_of_bounds s0 s1
  refine ⟨b, ?_, hbv, p0, p1⟩
  unfold intensityAt
  rw [hp]
  simp only [Option.bind_eq_bind, Option.some_bind]
  rw [hs]
  simp only [Option.some_bind]
  exact hb

/-- The squared distance of a pixel is defined and nonnegative when the coordinates are below
`2 ^ 31` in magnitude. -/
theorem distSquared_defined (x y : ℚ) (px py : ℤ) (hx : |x| ≤ 2 ^ 31) (hy : |y| ≤ 2 ^ 31)
    (hpx : |(px : ℚ)| ≤ 2 ^ 31) (hpy : |(py : ℚ)| ≤ 2 ^ 31) :
    ∃ d2, distSquared x y px py = some d2 ∧ 0 ≤ d2 := by
  have key : ∀ (a : ℚ) (p : ℤ), |a| ≤ 2 ^ 31 → |(p : ℚ)| ≤ 2 ^ 31 →
      ∃ d dd, binary32.fin (binary32.round (p : ℚ) - a) = some d ∧
        binary32.fin (d * d) = some dd ∧ 0 ≤ dd ∧ dd ≤ 2 ^ 64 := by
    intro a p ha hp
    obtain ⟨-, h1⟩ := binary32_fin_le (p : ℚ) 31 (by norm_num) hp
    have h2 : |binary32.round (p : ℚ) - a| ≤ (2 : ℚ) ^ 32 := by
      rw [abs_le] at ha h1 ⊢
      constructor <;> norm_num at ha h1 ⊢ <;> linarith
    obtain ⟨h3, h4⟩ := binary32_fin_le _ 32 (by norm_num) h2
    have h5 : |binary32.round (binary32.round (p : ℚ) - a) *
        binary32.round (binary32.round (p : ℚ) - a)| ≤ (2 : ℚ) ^ 64 := by
      rw [abs_mul]
      calc _ ≤ (2 : ℚ) ^ 32 * (2 : ℚ) ^ 32 := mul_le_mul h4 h4 (abs_nonneg _) (by positivity)
        _ = _ := by norm_num
    obtain ⟨h6, h7⟩ := binary32_fin_le _ 64 (by norm_num) h5
    exact ⟨_, _, h3, h6, binary32.round_nonneg (mul_self_nonneg _), (abs_le.mp h7).2⟩
  obtain ⟨dx, dxx, e1, e2, a0, a1⟩ := key x px hx hpx
  obtain ⟨dy, dyy, e3, e4, b0, b1⟩ := key y py hy hpy
  have h8 : |dxx + dyy| ≤ (2 : ℚ) ^ 65 := by
    rw [abs_of_nonneg (by linarith)]
    norm_num at a1 b1 ⊢
    linarith
  obtain ⟨h9, -⟩ := binary32_fin_le _ 65 (by norm_num) h8
  refine ⟨_, ?_, binary32.round_nonneg (add_nonneg a0 b0)⟩
  unfold distSquared
  rw [e1]
  simp only [Option.bind_eq_bind, Option.some_bind]
  rw [e3]
  simp only [Option.some_bind]
  rw [e2]
  simp only [Option.some_bind]
  rw [e4]
  simp only [Option.some_bind]
  exact h9

/-- The loop body is defined at every pixel with coordinates below `2 ^ 31` when the radius is
a positive `float`. -/
theorem pixelOutcome_defined (x y : ℚ) (color : Fin 256) (radius : ℚ) (px py : ℤ)
    (hrep : binary32.Rep radius) (hr : 0 < radius)
    (hx : |x| ≤ 2 ^ 31) (hy : |y| ≤ 2 ^ 31)
    (hpx : |(px : ℚ)| ≤ 2 ^ 31) (hpy : |(py : ℚ)| ≤ 2 ^ 31) :
    ∃ o, pixelOutcome x y color radius (binary32.round (radius * radius)) px py = some o := by
  obtain ⟨d2, hd, hd0⟩ := distSquared_defined x y px py hx hy hpx hpy
  unfold pixelOutcome
  rw [hd]
  simp only [Option.bind_eq_bind, Option.some_bind]
  split_ifs with hlt
  · exact ⟨_, rfl⟩
  · obtain ⟨alpha, ha, a0, a1, -⟩ := alphaAt_range radius d2 hrep hr hd0 (not_lt.mp hlt)
    obtain ⟨i, hi, -⟩ := intensityAt_defined color alpha a0 a1
    rw [ha]
    simp only [Option.some_bind]
    rw [hi]
    exact ⟨_, rfl⟩

/-- A loop whose body is defined at every element of the list is defined. -/
theorem foldlM_defined {α β : Type} (f : β → α → Option β) :
    ∀ (l : List α) (b : β), (∀ a ∈ l, ∀ b', ∃ b'', f b' a = some b'') →
      ∃ out, l.foldlM f b = some out
  | [], b, _ => ⟨b, rfl⟩
  | a :: l, b, h => by
    obtain ⟨b1, hb1⟩ := h a (List.mem_cons_self _ _) b
    obtain ⟨out, ho⟩ := foldlM_defined f l b1 (fun a' ha' => h a' (List.mem_cons_of_mem _ ha'))
    exact ⟨out, by rw [List.foldlM_cons, hb1]; exact ho⟩

/-- The rounded box bound of a point: finite, and its floor and ceiling fit in an `int`. -/
theorem binary32_fin_int (q : ℚ) (h : |q| ≤ 2 ^ 30) :
    binary32.fin q = some (binary32.round q) ∧
      toInt (⌊binary32.round q⌋ : ℚ) = some ⌊binary32.round q⌋ ∧
      toInt (⌈binary32.round q⌉ : ℚ) = some ⌈binary32.round q⌉ ∧
      ⌊binary32.round q⌋ ≤ 2 ^ 30 ∧ -(2 ^ 30) ≤ ⌈binary32.round q⌉ := by
  obtain ⟨f, hb⟩ := binary32_fin_le q 30 (by norm_num) h
  rw [abs_le] at hb
  obtain ⟨lo, hi⟩ := hb
  have f1 : (-(2 : ℤ) ^ 30 : ℤ) ≤ ⌊binary32.round q⌋ := Int.le_floor.mpr (by push_cast; exact lo)
  have f2 : ⌊binary32.round q⌋ < (2 : ℤ) ^ 30 + 1 := Int.floor_lt.mpr (by push_cast; linarith)
  have c1 : (-(2 : ℤ) ^ 30 - 1 : ℤ) < ⌈binary32.round q⌉ :=
    Int.lt_ceil.mpr (by push_cast; linarith)
  have c2 : ⌈binary32.round q⌉ ≤ (2 : ℤ) ^ 30 := Int.ceil_le.mpr (by push_cast; exact hi)
  refine ⟨f, ?_, ?_, by omega, by omega⟩
  · exact toInt_intCast _ (by omega) (by omega)
  · exact toInt_intCast _ (by omega) (by omega)

/-- The call `draw_aa_point` is defined for a positive `float` radius, a point with
`|x| + radius` and `|y| + radius` at most `2 ^ 30`, and an image of at most `2 ^ 31` bytes. -/
theorem draw_aa_point_defined (buffer : Buffer) (width height : ℤ) (x y : ℚ) (color : Fin 256)
    (radius : ℚ) (hrep : binary32.Rep radius) (hr : 0 < radius)
    (hx : |x| + radius ≤ 2 ^ 30) (hy : |y| + radius ≤ 2 ^ 30)
    (hsize : width * height * 3 ≤ 2 ^ 31) :
    ∃ out, draw_aa_point buffer width height x y color radius = some out := by
  have hxa := abs_le.mp (show |x| ≤ 2 ^ 30 by linarith)
  have hya := abs_le.mp (show |y| ≤ 2 ^ 30 by linarith)
  have hxm : |x - radius| ≤ 2 ^ 30 := by
    rw [abs_le]; constructor <;> linarith [neg_abs_le x, le_abs_self x]
  have hxp : |x + radius| ≤ 2 ^ 30 := by
    rw [abs_le]; constructor <;> linarith [neg_abs_le x, le_abs_self x]
  have hym : |y - radius| ≤ 2 ^ 30 := by
    rw [abs_le]; constructor <;> linarith [neg_abs_le y, le_abs_self y]
  have hyp : |y + radius| ≤ 2 ^ 30 := by
    rw [abs_le]; constructor <;> linarith [neg_abs_le y, le_abs_self y]
  obtain ⟨a1, a2, -, a3, -⟩ := binary32_fin_int _ hxm
  obtain ⟨b1, b2, -, b3, -⟩ := binary32_fin_int _ hym
  obtain ⟨c1, -, c2, -, c3⟩ := binary32_fin_int _ hxp
  obtain ⟨d1, -, d2, -, d3⟩ := binary32_fin_int _ hyp
  have hrr : |radius * radius| ≤ (2 : ℚ) ^ 60 := by
    rw [abs_of_nonneg (mul_self_nonneg radius)]
    have : radius ≤ 2 ^ 30 := by linarith [abs_nonneg x]
    calc radius * radius ≤ 2 ^ 30 * 2 ^ 30 := mul_le_mul this this hr.le (by positivity)
      _ = _ := by norm_num
  obtain ⟨hr2, -⟩ := binary32_fin_le _ 60 (by norm_num) hrr
  have hbox : boxBounds width height x y radius = some
      (max 0 ⌊binary32.round (x - radius)⌋, max 0 ⌊binary32.round (y - radius)⌋,
        min (width - 1) ⌈binary32.round (x + radius)⌉,
        min (height - 1) ⌈binary32.round (y + radius)⌉) := by
    unfold boxBounds
    rw [a1]
    simp only [Option.bind_eq_bind, Option.some_bind]
    rw [a2]
    simp only [Option.some_bind]
    rw [b1]
    simp only [Option.some_bind]
    rw [b2]
    simp only [Option.some_bind]
    rw [c1]
    simp only [Option.some_bind]
    rw [c2]
    simp only [Option.some_bind]
    rw [d1]
    simp only [Option.some_bind]
    rw [d2]
    simp only [Option.some_bind]
  rw [draw_aa_point_eq, hbox, Option.some_bind, hr2, Option.some_bind]
  simp only
  rw [splatRows_eq]
  apply foldlM_defined
  intro p hp buf
  rw [mem_boxPixels] at hp
  obtain ⟨⟨p1, p2⟩, ⟨p3, p4⟩⟩ := hp
  have hx0 : (0 : ℤ) ≤ p.1 := (le_max_left _ _).trans p1
  have hy0 : (0 : ℤ) ≤ p.2 := (le_max_left _ _).trans p3
  have hxw : p.1 ≤ width - 1 := p2.trans (min_le_left _ _)
  have hyh : p.2 ≤ height - 1 := p4.trans (min_le_left _ _)
  have hxc : p.1 ≤ 2 ^ 30 := (p2.trans (min_le_right _ _)).trans
    (Int.ceil_le.mpr (by
      have := (abs_le.mp (binary32_fin_le _ 30 (by norm_num) hxp).2).2
      push_cast; exact this))
  have hyc : p.2 ≤ 2 ^ 30 := (p4.trans (min_le_right _ _)).trans
    (Int.ceil_le.mpr (by
      have := (abs_le.mp (binary32_fin_le _ 30 (by norm_num) hyp).2).2
      push_cast; exact this))
  have hpx : |(p.1 : ℚ)| ≤ 2 ^ 31 := by
    rw [abs_of_nonneg (by exact_mod_cast hx0)]
    have : (p.1 : ℚ) ≤ 2 ^ 30 := by exact_mod_cast hxc
    linarith
  have hpy : |(p.2 : ℚ)| ≤ 2 ^ 31 := by
    rw [abs_of_nonneg (by exact_mod_cast hy0)]
    have : (p.2 : ℚ) ≤ 2 ^ 30 := by exact_mod_cast hyc
    linarith
  obtain ⟨o, ho⟩ := pixelOutcome_defined x y color radius p.1 p.2 hrep hr
    (by rw [abs_le]; constructor <;> linarith) (by rw [abs_le]; constructor <;> linarith) hpx hpy
  rw [splatPixel_eq, ho, Option.some_bind]
  cases o with
  | none => exact ⟨_, rfl⟩
  | some i =>
    simp only
    have hw : 0 < width := by omega
    have h1 : 0 ≤ (p.2 * width + p.1) * 3 := by nlinarith
    have h2 : (p.2 * width + p.1) * 3 < 2 ^ 31 := by
      have : p.2 * width ≤ (height - 1) * width := mul_le_mul_of_nonneg_right hyh hw.le
      nlinarith
    rw [if_neg (by push_neg; exact ⟨h1, h2⟩)]
    exact ⟨_, rfl⟩

/-- At a point with integer `float` coordinates and a nonzero radius the loop body of its own
pixel computes `dist_squared = 0`, `alpha = 1` and blends with the intensity `255 - color`. -/
theorem pixelOutcome_center (px py : ℤ) (color : Fin 256) (radius r_squared : ℚ)
    (hpx : binary32.Rep (px : ℚ)) (hpy : binary32.Rep (py : ℚ)) (hr : radius ≠ 0)
    (hr2 : 0 ≤ r_squared) :
    distSquared (px : ℚ) (py : ℚ) px py = some 0 ∧ alphaAt radius 0 = some 1 ∧
    intensityAt color 1 = some ⟨255 - color.val, by omega⟩ ∧
    pixelOutcome (px : ℚ) (py : ℚ) color radius r_squared px py
      = some (some ⟨255 - color.val, by omega⟩) := by
  have hd : distSquared (px : ℚ) (py : ℚ) px py = some 0 := by
    unfold distSquared
    rw [binary32.round_rep hpx, binary32.round_rep hpy, sub_self, sub_self, binary32.fin_zero]
    simp only [Option.bind_eq_bind, Option.some_bind, mul_zero, add_zero, binary32.fin_zero]
  have ha : alphaAt radius 0 = some 1 := by
    unfold alphaAt
    rw [binary32.sqrt_zero]
    simp only [Option.bind_eq_bind, Option.some_bind]
    unfold Fmt.div
    rw [if_neg hr, zero_div, binary32.fin_zero]
    simp only [Option.some_bind, sub_zero, binary32.fin_one, mul_one]
  have hc : color.val ≤ 255 := Nat.lt_succ_iff.mp color.isLt
  have hbig : ∀ n : ℕ, n ≤ 255 → |(n : ℚ)| < (2 : ℚ) ^ binary32.emax := by
    intro n hn
    rw [abs_of_nonneg (Nat.cast_nonneg n)]
    have h1 : (n : ℚ) ≤ 255 := by exact_mod_cast hn
    have := binary32_big 8 (by norm_num)
    norm_num at this ⊢
    linarith
  have hrepn : ∀ n : ℕ, n ≤ 255 → binary32.Rep (n : ℚ) := fun n hn =>
    binary32.rep_natCast _ (lt_of_le_of_lt hn (by norm_num [binary32]))
  have hi : intensityAt color 1 = some ⟨255 - color.val, by omega⟩ := by
    unfold intensityAt
    rw [mul_one, binary32.fin_of_rep (hrepn _ hc) (hbig _ hc)]
    simp only [Option.bind_eq_bind, Option.some_bind]
    have e : (255 : ℚ) - (color.val : ℚ) = ((255 - color.val : ℕ) : ℚ) := by
      rw [Nat.cast_sub hc]; norm_num
    rw [e, binary32.fin_of_rep (hrepn _ (Nat.sub_le _ _)) (hbig _ (Nat.sub_le _ _))]
    simp only [Option.some_bind]
    unfold toU8
    have ht : truncZ ((255 - color.val : ℕ) : ℚ) = ((255 - color.val : ℕ) : ℤ) := by
      have := truncZ_intCast ((255 - color.val : ℕ) : ℤ)
      simpa using this
    simp only [ht]
    rw [dif_pos ⟨by omega, by omega⟩]
    simp
  refine ⟨hd, ha, hi, ?_⟩
  unfold pixelOutcome
  rw [hd]
  simp only [Option.bind_eq_bind, Option.some_bind]
  rw [if_neg (not_lt.mpr hr2), ha]
  simp only [Option.some_bind]
  rw [hi]
  rfl

/-- C16: for a radius `> 0` and an integer pixel position `(px, py)` with `0 ≤ px ≤ width - 1`
and `0 ≤ py ≤ height - 1` (the last column and the last row included) whose coordinates are
`float` values, the loop body of `draw_aa_point` at exactly `(px, py)` computes
`dist_squared = 0` and `alpha = 1` for that pixel; every call that returns has stored in its
three channels the blend of its first channel with the intensity `255 - color`; and the call
returns whenever the radius is a `float` of at most `2 ^ 28` and the image has at most `2 ^ 31`
bytes (so that no `int` overflows). -/
theorem draw_aa_point_center (buffer : Buffer) (width height px py : ℤ) (color : Fin 256)
    (radius : ℚ) (hr : 0 < radius)
    (hpx0 : 0 ≤ px) (hpx1 : px ≤ width - 1) (hpy0 : 0 ≤ py) (hpy1 : py ≤ height - 1)
    (hpxr : binary32.Rep (px : ℚ)) (hpyr : binary32.Rep (py : ℚ)) :
    distSquared (px : ℚ) (py : ℚ) px py = some 0 ∧ alphaAt radius 0 = some 1 ∧
    intensityAt color 1 = some ⟨255 - color.val, by omega⟩ ∧
    (∀ out, draw_aa_point buffer width height (px : ℚ) (py : ℚ) color radius = some out →
      ∀ t, t < 3 → out (3 * (py * width + px).toNat + t)
        = blendByte (buffer (3 * (py * width + px).toNat)) ⟨255 - color.val, by omega⟩) ∧
    (binary32.Rep radius → radius ≤ 2 ^ 28 → width * height * 3 ≤ 2 ^ 31 →
      ∃ out, draw_aa_point buffer width height (px : ℚ) (py : ℚ) color radius = some out) := by
  have hpx0q : (0 : ℚ) ≤ px := by exact_mod_cast hpx0
  have hpy0q : (0 : ℚ) ≤ py := by exact_mod_cast hpy0
  obtain ⟨hd, ha, hi, -⟩ := pixelOutcome_center px py color radius 0 hpxr hpyr hr.ne' le_rfl
  refine ⟨hd, ha, hi, ?_, ?_⟩
  · intro out hout
    obtain ⟨x0, y0, x1, y1, r2, hbox, hr2, -, E, -⟩ :=
      draw_aa_point_pixels buffer out width height (px : ℚ) (py : ℚ) color radius hout
    obtain ⟨rfl, rfl, rfl, rfl⟩ := boxBounds_eq _ _ _ _ _ _ _ _ _ hbox
    have hr20 : 0 ≤ r2 := by
      rw [(binary32.fin_eq_some hr2).1]
      exact binary32.round_nonneg (mul_self_nonneg radius)
    obtain ⟨-, -, -, ho⟩ := pixelOutcome_center px py color radius r2 hpxr hpyr hr.ne' hr20
    -- the pixel lies in the box
    have lo : ∀ (k : ℤ), binary32.Rep (k : ℚ) → 0 ≤ k →
        max 0 ⌊binary32.round ((k : ℚ) - radius)⌋ ≤ k := by
      intro k hk hk0
      apply max_le hk0
      have := binary32.round_le_of_le_rep hk (show (k : ℚ) - radius ≤ k by linarith)
      exact (Int.floor_le_floor this).trans (by rw [Int.floor_intCast])
    have hi' : ∀ (k bound : ℤ), binary32.Rep (k : ℚ) → k ≤ bound - 1 →
        k ≤ min (bound - 1) ⌈binary32.round ((k : ℚ) + radius)⌉ := by
      intro k bound hk hkb
      apply le_min hkb
      have := binary32.le_round_of_rep_le hk (show (k : ℚ) ≤ k + radius by linarith)
      exact (by rw [Int.ceil_intCast] : k ≤ ⌈(k : ℚ)⌉).trans (Int.ceil_le_ceil this)
    exact E px py (lo px hpxr hpx0) (hi' px width hpxr hpx1) (lo py hpyr hpy0)
      (hi' py height hpyr hpy1) _ ho
  · intro hrep hrad hsize
    have hw : 1 ≤ width := by omega
    have hh : 1 ≤ height := by omega
    have hwb : width * 3 ≤ 2 ^ 31 := by nlinarith
    have hhb : height * 3 ≤ 2 ^ 31 := by nlinarith
    have hpxq : (px : ℚ) ≤ 2 ^ 30 - 2 ^ 28 := by
      have : px ≤ 2 ^ 30 - 2 ^ 28 := by omega
      exact_mod_cast this
    have hpyq : (py : ℚ) ≤ 2 ^ 30 - 2 ^ 28 := by
      have : py ≤ 2 ^ 30 - 2 ^ 28 := by omega
      exact_mod_cast this
    exact draw_aa_point_defined buffer width height (px : ℚ) (py : ℚ) color
      radius hrep hr (by rw [abs_of_nonneg hpx0q]; linarith)
      (by rw [abs_of_nonneg hpy0q]; linarith) hsize

/-- Witness of C16: the last pixel `(3, 3)` of a white 4 by 4 image, radius 1, strength 1. -/
theorem draw_aa_point_center_witness :
    distSquared ((3 : ℤ) : ℚ) ((3 : ℤ) : ℚ) 3 3 = some 0 ∧ alphaAt 1 0 = some 1 ∧
    intensityAt 1 1 = some ⟨255 - (1 : Fin 256).val, by decide⟩ ∧
    (∀ out, draw_aa_point (fun _ => 255) 4 4 ((3 : ℤ) : ℚ) ((3 : ℤ) : ℚ) 1 1 = some out →
      ∀ t, t < 3 → out (3 * ((3 : ℤ) * 4 + 3).toNat + t)
        = blendByte ((fun _ => 255 : Buffer) (3 * ((3 : ℤ) * 4 + 3).toNat))
            ⟨255 - (1 : Fin 256).val, by decide⟩) ∧
    (binary32.Rep 1 → (1 : ℚ) ≤ 2 ^ 28 → (4 : ℤ) * 4 * 3 ≤ 2 ^ 31 →
      ∃ out, draw_aa_point (fun _ => 255) 4 4 ((3 : ℤ) : ℚ) ((3 : ℤ) : ℚ) 1 1 = some out) :=
  draw_aa_point_center (fun _ => 255) 4 4 3 3 1 1 (by norm_num)
    (by norm_num) (by norm_num) (by norm_num) (by norm_num)
    (binary32_rep_int 3 (by norm_num)) (binary32_rep_int 3 (by norm_num))

/-- An integer below `2 ^ 24` in magnitude over a power of two up to `2 ^ 149` is a `float`. -/
theorem binary32_rep_dyadic (m : ℤ) (k : ℕ) (hm : |m| < 2 ^ 24) (hk : k ≤ 149) :
    binary32.Rep ((m : ℚ) / 2 ^ k) := by
  refine ⟨m, -(k : ℤ), ?_, hm, ?_⟩
  · rw [zpow_neg, zpow_natCast]; ring
  · simp only [binary32]; omega

/-- A `float` above `2 ^ (-17)` is at least the next `float`, `2 ^ (-17) + 2 ^ (-40)`. -/
theorem binary32_next_above (p : ℚ) (hp : binary32.Rep p) (h : 1 / 2 ^ 17 < p) :
    1 / 2 ^ 17 + 1 / 2 ^ 40 ≤ p := by
  have hp0 : 0 < p := lt_trans (by norm_num) h
  have hs := (ilog2_spec p hp0.ne').2
  rw [abs_of_pos hp0] at hs
  have hlog : -17 ≤ ilog2 p := by
    have h1 : (2 : ℚ) ^ (-17 : ℤ) < (2 : ℚ) ^ (ilog2 p + 1) := by
      refine lt_trans ?_ hs
      have e : (2 : ℚ) ^ (-17 : ℤ) = 1 / 2 ^ 17 := by norm_num [zpow_neg]
      rw [e]; exact h
    have := two_zpow_lt_iff.mp h1
    omega
  have hu : (-40 : ℤ) ≤ binary32.ulpExp p := by
    unfold Fmt.ulpExp
    refine le_max_of_le_left ?_
    simp only [binary32]
    push_cast
    omega
  obtain ⟨z, hz⟩ := binary32.rep_multiple_of_le hp _ hu
  have e40 : (2 : ℚ) ^ (-40 : ℤ) = 1 / 2 ^ 40 := by norm_num [zpow_neg]
  rw [e40] at hz
  have hz1 : (2 : ℤ) ^ 23 < z := by
    have : ((2 ^ 23 : ℤ) : ℚ) < z := by
      rw [hz] at h
      push_cast
      have h40 : (0 : ℚ) < 2 ^ 40 := by positivity
      have := mul_lt_mul_of_pos_right h h40
      rw [mul_assoc, one_div_mul_cancel h40.ne', mul_one] at this
      norm_num at this ⊢
      linarith
    exact_mod_cast this
  have hz2 : ((2 ^ 23 + 1 : ℤ) : ℚ) ≤ z := by exact_mod_cast (show (2 : ℤ) ^ 23 + 1 ≤ z by omega)
  rw [hz]
  push_cast at hz2
  have h40 : (0 : ℚ) ≤ 1 / 2 ^ 40 := by positivity
  have := mul_le_mul_of_nonneg_right hz2 h40
  norm_num at this ⊢
  linarith

/-- The shade `255 - prod` rounds to 255 when `prod` is at most `2 ^ (-17)`. -/
theorem shade_white (p : ℚ) (h0 : 0 ≤ p) (h : p ≤ 1 / 2 ^ 17) :
    binary32.round (255 - p) = 255 := by
  have hr255 : binary32.Rep (255 : ℚ) := by
    have := binary32.rep_natCast 255 (by norm_num [binary32])
    simpa using this
  apply le_antisymm
  · exact binary32.round_le_of_le_rep hr255 (by linarith)
  · have e : binary32.round (255 - 1 / 2 ^ 17) = 255 := by decide!
    rw [← e]
    exact binary32.round_mono (by linarith)

/-- The shade `255 - prod` rounds below 255 when the `float` `prod` exceeds `2 ^ (-17)`. -/
theorem shade_dark (p : ℚ) (hp : binary32.Rep p) (h : 1 / 2 ^ 17 < p) :
    binary32.round (255 - p) ≤ 255 - 1 / 2 ^ 16 := by
  have := binary32_next_above p hp h
  have e : binary32.round (255 - (1 / 2 ^ 17 + 1 / 2 ^ 40)) = 255 - 1 / 2 ^ 16 := by decide!
  rw [← e]
  exact binary32.round_mono (by linarith)

/-- The 8-bit intensity of a falloff in `[0, 1]`: it is at least `255 - color`, and it is below
255 exactly when the `float` product `color * alpha` exceeds `2 ^ (-17)`. -/
theorem intensityAt_spec (color : Fin 256) (alpha : ℚ) (h0 : 0 ≤ alpha) (h1 : alpha ≤ 1) :
    ∃ i, intensityAt color alpha = some i ∧ 255 - color.val ≤ i.val ∧
      (i.val < 255 ↔ 1 / 2 ^ 17 < binary32.round ((color.val : ℚ) * alpha)) := by
  obtain ⟨i, hi, hv, p0, p1⟩ := intensityAt_defined color alpha h0 h1
  have hc : color.val ≤ 255 := Nat.lt_succ_iff.mp color.isLt
  refine ⟨i, hi, ?_, ?_⟩
  · have hrep : binary32.Rep ((255 - color.val : ℕ) : ℚ) :=
      binary32.rep_natCast _ (lt_of_le_of_lt (Nat.sub_le _ _) (by norm_num [binary32]))
    have hle : ((255 - color.val : ℕ) : ℚ)
        ≤ binary32.round (255 - binary32.round ((color.val : ℚ) * alpha)) := by
      apply binary32.le_round_of_rep_le hrep
      rw [Nat.cast_sub hc]; push_cast; linarith
    have : ((255 - color.val : ℕ) : ℤ)
        ≤ ⌊binary32.round (255 - binary32.round ((color.val : ℚ) * alpha))⌋ :=
      Int.le_floor.mpr (by exact_mod_cast hle)
    rw [← hv] at this
    exact_mod_cast this
  · constructor
    · intro hlt
      by_contra hc2
      rw [not_lt] at hc2
      rw [shade_white _ p0 hc2] at hv
      have : (i.val : ℤ) = 255 := by rw [hv]; exact Int.floor_natCast 255
      omega
    · intro hlt
      have := shade_dark _ (binary32.rep_round _) hlt
      have hfl : ⌊binary32.round (255 - binary32.round ((color.val : ℚ) * alpha))⌋ < 255 := by
        rw [Int.floor_lt]; push_cast
        have : (0 : ℚ) < 1 / 2 ^ 16 := by positivity
        linarith
      rw [← hv] at hfl
      exact_mod_cast hfl

/-- With the color strength 1 the intensity of a `float` falloff in `[0, 1]` is 255 when the
falloff is at most `2 ^ (-17)` and 254 otherwise. -/
theorem intensityAt_one (alpha : ℚ) (hrep : binary32.Rep alpha) (h0 : 0 ≤ alpha)
    (h1 : alpha ≤ 1) :
    intensityAt 1 alpha = some (if alpha ≤ 1 / 2 ^ 17 then 255 else 254) := by
  obtain ⟨i, hi, hlo, hiff⟩ := intensityAt_spec 1 alpha h0 h1
  have hone : (((1 : Fin 256).val : ℕ) : ℚ) = 1 := by norm_num
  rw [hone, one_mul, binary32.round_rep hrep] at hiff
  have hlo' : 254 ≤ i.val := hlo
  have hup : i.val ≤ 255 := Nat.lt_succ_iff.mp i.isLt
  rw [hi]
  congr 1
  split_ifs with hle
  · apply Fin.ext
    have : ¬ i.val < 255 := fun hlt => absurd (hiff.mp hlt) (not_lt.mpr hle)
    show i.val = 255
    omega
  · apply Fin.ext
    have : i.val < 255 := hiff.mpr (not_le.mp hle)
    show i.val = 254
    omega

/-- The squared distance computed by the loop body is nonnegative. -/
theorem distSquared_nonneg (x y : ℚ) (px py : ℤ) (d2 : ℚ)
    (h : distSquared x y px py = some d2) : 0 ≤ d2 ∧ binary32.Rep d2 := by
  unfold distSquared at h
  simp only [Option.bind_eq_bind, Option.bind_eq_some] at h
  obtain ⟨dx, -, dy, -, dxx, h1, dyy, h2, h3⟩ := h
  have a := (binary32.fin_eq_some h1).1
  have b := (binary32.fin_eq_some h2).1
  have c := (binary32.fin_eq_some h3).1
  have a0 : 0 ≤ dxx := by rw [a]; exact binary32.round_nonneg (mul_self_nonneg _)
  have b0 : 0 ≤ dyy := by rw [b]; exact binary32.round_nonneg (mul_self_nonneg _)
  rw [c]
  exact ⟨binary32.round_nonneg (add_nonneg a0 b0), binary32.rep_round _⟩

/-- A normal `float` and its two neighbours at the distance of one unit in the last place: the
value is between `2 ^ 23` and `2 ^ 24` units, and both neighbours are `float` values. -/
theorem binary32_neighbours (r : ℚ) (hrep : binary32.Rep r) (hr : 1 / 2 ^ 63 ≤ r) :
    ∃ u : ℚ, 0 < u ∧ 2 ^ 23 * u ≤ r ∧ r < 2 ^ 24 * u ∧
      binary32.Rep (r - u) ∧ binary32.Rep (r + u) ∧ binary32.Rep (r - 8 * u) := by
  have h2 : (2 : ℚ) ≠ 0 := by norm_num
  have hr0 : 0 < r := lt_of_lt_of_le (by positivity) hr
  obtain ⟨hs1, hs2⟩ := ilog2_spec r hr0.ne'
  rw [abs_of_pos hr0] at hs1 hs2
  have hk : -63 ≤ ilog2 r := by
    have h1 : (2 : ℚ) ^ (-63 : ℤ) < (2 : ℚ) ^ (ilog2 r + 1) := by
      refine lt_of_le_of_lt ?_ hs2
      have e : (2 : ℚ) ^ (-63 : ℤ) = 1 / 2 ^ 63 := by norm_num [zpow_neg]
      rw [e]; exact hr
    have := two_zpow_lt_iff.mp h1
    omega
  have hu : binary32.ulpExp r = ilog2 r - 23 := by
    unfold Fmt.ulpExp
    simp only [binary32]
    push_cast
    rw [max_eq_left (by omega)]
  obtain ⟨z, hz⟩ := binary32.rep_multiple hrep
  rw [hu] at hz
  generalize ilog2 r = k at *
  have hupos := two_zpow_pos (k - 23)
  have e23 : (2 : ℚ) ^ k = 2 ^ 23 * (2 : ℚ) ^ (k - 23) := by
    rw [zpow_sub₀ h2]
    have : (2 : ℚ) ^ (23 : ℤ) = 2 ^ 23 := by norm_num
    rw [this]; field_simp
  have e24 : (2 : ℚ) ^ (k + 1) = 2 ^ 24 * (2 : ℚ) ^ (k - 23) := by
    rw [zpow_add₀ h2, e23, zpow_one]; ring
  have ep : (2 : ℚ) ^ (k - 23 + ((binary32.prec : ℕ) : ℤ))
      = 2 ^ 24 * (2 : ℚ) ^ (k - 23) := by
    rw [← e24]; congr 1
    simp only [binary32]; push_cast; ring
  have hzlt : z < 2 ^ 24 := by
    have : (z : ℚ) < ((2 ^ 24 : ℤ) : ℚ) := by
      have h3 : (z : ℚ) * (2 : ℚ) ^ (k - 23) < 2 ^ 24 * (2 : ℚ) ^ (k - 23) := by
        rw [← hz, ← e24]; exact hs2
      push_cast
      exact lt_of_mul_lt_mul_right h3 hupos.le
    exact_mod_cast this
  have hzge : 2 ^ 23 ≤ z := by
    have : ((2 ^ 23 : ℤ) : ℚ) ≤ (z : ℚ) := by
      have h3 : 2 ^ 23 * (2 : ℚ) ^ (k - 23) ≤ (z : ℚ) * (2 : ℚ) ^ (k - 23) := by
        rw [← hz, ← e23]; exact hs1
      push_cast
      exact le_of_mul_le_mul_right h3 hupos
    exact_mod_cast this
  have hemin : binary32.emin ≤ k - 23 := by simp only [binary32]; omega
  refine ⟨(2 : ℚ) ^ (k - 23), hupos, by rw [← e23]; exact hs1,
    by rw [← e24]; exact hs2, ?_, ?_, ?_⟩
  · have e : r - (2 : ℚ) ^ (k - 23) = ((z - 1 : ℤ) : ℚ) * (2 : ℚ) ^ (k - 23) := by
      push_cast; rw [sub_mul, one_mul, ← hz]
    rw [e]
    apply binary32.rep_of_multiple _ _ hemin
    rw [ep, abs_mul, abs_of_pos hupos]
    apply mul_le_mul_of_nonneg_right _ hupos.le
    rw [← Int.cast_abs]
    have : |z - 1| ≤ 2 ^ 24 := by rw [abs_le]; constructor <;> omega
    exact_mod_cast this
  · have e : r + (2 : ℚ) ^ (k - 23) = ((z + 1 : ℤ) : ℚ) * (2 : ℚ) ^ (k - 23) := by
      push_cast; rw [add_mul, one_mul, ← hz]
    rw [e]
    apply binary32.rep_of_multiple _ _ hemin
    rw [ep, abs_mul, abs_of_pos hupos]
    apply mul_le_mul_of_nonneg_right _ hupos.le
    rw [← Int.cast_abs]
    have : |z + 1| ≤ 2 ^ 24 := by rw [abs_le]; constructor <;> omega
    exact_mod_cast this
  · have e : r - 8 * (2 : ℚ) ^ (k - 23) = ((z - 8 : ℤ) : ℚ) * (2 : ℚ) ^ (k - 23) := by
      push_cast; rw [sub_mul, ← hz]
    rw [e]
    apply binary32.rep_of_multiple _ _ hemin
    rw [ep, abs_mul, abs_of_pos hupos]
    apply mul_le_mul_of_nonneg_right _ hupos.le
    rw [← Int.cast_abs]
    have : |z - 8| ≤ 2 ^ 24 := by rw [abs_le]; constructor <;> omega
    exact_mod_cast this

/-- The square root of the rounded square of a normal `float` lies within one unit in the last
place of that `float`. -/
theorem binary32_sqrt_sq (r : ℚ) (hrep : binary32.Rep r) (hr : 1 / 2 ^ 63 ≤ r) :
    ∃ root, binary32.sqrt (binary32.round (r * r)) = some root ∧
      (1 - 1 / 2 ^ 23) * r ≤ root ∧ root ≤ (1 + 1 / 2 ^ 23) * r := by
  have hr0 : 0 < r := lt_of_lt_of_le (by positivity) hr
  obtain ⟨u, hu0, hu1, hu2, hra, hrb, -⟩ := binary32_neighbours r hrep hr
  have hq0 : 0 < r * r := mul_pos hr0 hr0
  have hn : (2 : ℚ) ^ (binary32.emin + (binary32.prec : ℤ) - 1) ≤ |r * r| := by
    rw [abs_of_pos hq0]
    have e : (2 : ℚ) ^ (binary32.emin + (binary32.prec : ℤ) - 1) = 1 / 2 ^ 63 * (1 / 2 ^ 63) := by
      simp only [binary32]; norm_num [zpow_neg]
    rw [e]
    exact mul_le_mul hr hr (by positivity) hr0.le
  have herr := binary32.abs_round_sub_le_rel (r * r) hn
  rw [abs_of_pos hq0] at herr
  have e24 : (2 : ℚ) ^ (-(binary32.prec : ℤ)) = 1 / 2 ^ 24 := by
    simp only [binary32]; norm_num [zpow_neg]
  rw [e24, abs_le] at herr
  obtain ⟨root, hroot, -⟩ := binary32.sqrt_defined _
    (binary32.round_nonneg (mul_self_nonneg r))
  have hru1 : r * (1 / 2 ^ 24) < u := by
    have : r * (1 / 2 ^ 24) < 2 ^ 24 * u * (1 / 2 ^ 24) :=
      mul_lt_mul_of_pos_right hu2 (by positivity)
    have e : (2 : ℚ) ^ 24 * u * (1 / 2 ^ 24) = u := by field_simp
    rw [e] at this; exact this
  have hur : u ≤ r * (1 / 2 ^ 23) := by
    have : 2 ^ 23 * u * (1 / 2 ^ 23) ≤ r * (1 / 2 ^ 23) :=
      mul_le_mul_of_nonneg_right hu1 (by positivity)
    have e : (2 : ℚ) ^ 23 * u * (1 / 2 ^ 23) = u := by field_simp
    rw [e] at this; exact this
  have hule : u ≤ r := hur.trans (by nlinarith)
  have hru : r * r * (1 / 2 ^ 24) ≤ r * u := by
    rw [mul_assoc]; exact mul_le_mul_of_nonneg_left hru1.le hr0.le
  have huu : u * u ≤ r * u := mul_le_mul_of_nonneg_right hule hu0.le
  have ha : r - u ≤ root := by
    apply binary32.le_sqrt_of_sq_le hra (by linarith) _ hroot
    have : (r - u) * (r - u) = r * r - 2 * (r * u) + u * u := by ring
    rw [this]; linarith [herr.1]
  have hb : root ≤ r + u := by
    apply binary32.sqrt_le_of_le_sq hrb (by linarith) _ hroot
    have : (r + u) * (r + u) = r * r + 2 * (r * u) + u * u := by ring
    rw [this]; nlinarith [herr.2, mul_self_nonneg u]
  exact ⟨root, hroot, by linarith, by linarith⟩

/-- On the rim of the disk as the code sees it, `dist_squared = r_squared`, the falloff of a
radius of at least `2 ^ (-63)` is at most `2 ^ (-46)`. -/
theorem alphaAt_rim (radius : ℚ) (hrep : binary32.Rep radius) (hr : 1 / 2 ^ 63 ≤ radius) :
    ∃ alpha, alphaAt radius (binary32.round (radius * radius)) = some alpha ∧ 0 ≤ alpha ∧
      alpha ≤ 1 / 2 ^ 46 := by
  have hr0 : 0 < radius := lt_of_lt_of_le (by positivity) hr
  obtain ⟨root, hroot, h1, h2⟩ := binary32_sqrt_sq radius hrep hr
  have hq1 : 1 - 1 / 2 ^ 23 ≤ root / radius := by rw [le_div_iff₀ hr0]; exact h1
  have hq2 : root / radius ≤ 1 + 1 / 2 ^ 23 := by rw [div_le_iff₀ hr0]; exact h2
  have hbig : ∀ q : ℚ, q ≤ 2 → q < (2 : ℚ) ^ binary32.emax := by
    intro q hq
    have : (2 : ℚ) < (2 : ℚ) ^ binary32.emax := by simpa using binary32_big 1 (by norm_num)
    linarith
  have hpos := two_zpow_pos binary32.emax
  have rlo : binary32.Rep (1 - 1 / 2 ^ 23) := by
    have := binary32_rep_dyadic (2 ^ 23 - 1) 23 (by norm_num) (by norm_num)
    convert this using 1; norm_num
  have rhi : binary32.Rep (1 + 1 / 2 ^ 23) := by
    have := binary32_rep_dyadic (2 ^ 23 + 1) 23 (by norm_num) (by norm_num)
    convert this using 1; norm_num
  have ru : binary32.Rep (1 / 2 ^ 23) := by
    have := binary32_rep_dyadic 1 23 (by norm_num) (by norm_num)
    convert this using 1
  have ruu : binary32.Rep (1 / 2 ^ 46) := by
    have := binary32_rep_dyadic 1 46 (by norm_num) (by norm_num)
    convert this using 1
  obtain ⟨hquot, q1, q2⟩ := binary32.fin_of_bounds rlo rhi hq1 hq2
    (by linarith [show (0 : ℚ) ≤ 1 - 1 / 2 ^ 23 by norm_num]) (hbig _ (by norm_num))
  obtain ⟨ha0, a1, a2⟩ := binary32.fin_of_bounds (binary32.rep_neg ru) ru
    (show -(1 / 2 ^ 23) ≤ 1 - binary32.round (root / radius) by linarith)
    (show 1 - binary32.round (root / radius) ≤ 1 / 2 ^ 23 by linarith)
    (by linarith [show (-2 : ℚ) ≤ -(1 / 2 ^ 23) by norm_num, hbig 2 le_rfl])
    (hbig _ (by norm_num))
  have hsq : binary32.round (1 - binary32.round (root / radius)) *
      binary32.round (1 - binary32.round (root / radius)) ≤ 1 / 2 ^ 46 := by
    have : (1 : ℚ) / 2 ^ 46 = 1 / 2 ^ 23 * (1 / 2 ^ 23) := by norm_num
    rw [this]
    nlinarith
  obtain ⟨hal, b1, b2⟩ := binary32.fin_of_bounds binary32.rep_zero ruu
    (mul_self_nonneg (binary32.round (1 - binary32.round (root / radius)))) hsq
    (by linarith) (hbig _ (by norm_num))
  refine ⟨_, ?_, b1, b2⟩
  unfold alphaAt
  rw [hroot]
  simp only [Option.bind_eq_bind, Option.some_bind]
  unfold Fmt.div
  rw [if_neg hr0.ne', hquot]
  simp only [Option.some_bind]
  rw [ha0]
  simp only [Option.some_bind]
  exact hal

/-- The difference of two `float` values is rounded with a relative error of at most
`2 ^ (-24)`: it is exact in the subnormal range. -/
theorem binary32_sub_err (a b : ℚ) (ha : binary32.Rep a) (hb : binary32.Rep b) :
    |binary32.round (a - b) - (a - b)| ≤ |a - b| / 2 ^ 24 := by
  by_cases h : (2 : ℚ) ^ (binary32.emin + (binary32.prec : ℤ) - 1) ≤ |a - b|
  · have := binary32.abs_round_sub_le_rel (a - b) h
    have e : (2 : ℚ) ^ (-(binary32.prec : ℤ)) = 1 / 2 ^ 24 := by
      simp only [binary32]; norm_num [zpow_neg]
    rw [e] at this
    rw [div_eq_mul_one_div]
    exact this
  · rw [not_le] at h
    obtain ⟨z1, h1⟩ := binary32.rep_multiple_of_le ha binary32.emin (binary32.emin_le_ulpExp _)
    obtain ⟨z2, h2⟩ := binary32.rep_multiple_of_le hb binary32.emin (binary32.emin_le_ulpExp _)
    have e : a - b = ((z1 - z2 : ℤ) : ℚ) * (2 : ℚ) ^ binary32.emin := by
      push_cast; rw [sub_mul, ← h1, ← h2]
    have hrep : binary32.Rep (a - b) := by
      rw [e]
      apply binary32.rep_of_multiple _ _ le_rfl
      rw [← e]
      exact h.le.trans (two_zpow_le (by omega))
    rw [binary32.round_rep hrep, sub_self, abs_zero]
    positivity

/-- The rounding error of a `float` operation: a relative error of at most `2 ^ (-24)` plus
an absolute error of at most `2 ^ (-150)` for a result that underflows. -/
theorem binary32_round_err (q : ℚ) :
    |binary32.round q - q| ≤ |q| / 2 ^ 24 + 1 / 2 ^ 150 := by
  by_cases h0 : q = 0
  · subst h0
    rw [binary32.round_zero, sub_zero, abs_zero]
    positivity
  have h := binary32.abs_round_sub_le q
  have hs := (ilog2_spec q h0).1
  have hq : 0 ≤ |q| / 2 ^ 24 := by positivity
  unfold Fmt.ulpExp at h
  rcases max_cases (ilog2 q - ((binary32.prec : ℤ) - 1)) binary32.emin with ⟨e, -⟩ | ⟨e, -⟩
  · rw [e] at h
    have e2 : (2 : ℚ) ^ (ilog2 q - ((binary32.prec : ℤ) - 1)) / 2
        = (2 : ℚ) ^ ilog2 q / 2 ^ 24 := by
      simp only [binary32]
      push_cast
      rw [zpow_sub₀ (by norm_num : (2 : ℚ) ≠ 0)]
      norm_num
      ring
    rw [e2] at h
    have : (2 : ℚ) ^ ilog2 q / 2 ^ 24 ≤ |q| / 2 ^ 24 :=
      div_le_div_of_nonneg_right hs (by positivity)
    have h150 : (0 : ℚ) ≤ 1 / 2 ^ 150 := by positivity
    linarith
  · rw [e] at h
    have e2 : (2 : ℚ) ^ binary32.emin / 2 = 1 / 2 ^ 150 := by
      simp only [binary32]; norm_num [zpow_neg]
    rw [e2] at h
    linarith

/-- A rounded square against the exact square of the unrounded value, from below. -/
theorem sq_err_lower (X dx dxx : ℚ) (h1 : |dx - X| ≤ |X| / 2 ^ 24)
    (h2 : |dxx - dx * dx| ≤ |dx * dx| / 2 ^ 24 + 1 / 2 ^ 150) :
    X * X * (1 - 3 / 2 ^ 24) - 1 / 2 ^ 150 ≤ dxx := by
  have hA : 0 ≤ |X| := abs_nonneg X
  have hXX : X * X = |X| * |X| := (abs_mul_abs_self X).symm
  have hXe : -(|X| * (|X| / 2 ^ 24)) ≤ X * (dx - X) := by
    have a := neg_abs_le (X * (dx - X))
    rw [abs_mul] at a
    have b : |X| * |dx - X| ≤ |X| * (|X| / 2 ^ 24) := mul_le_mul_of_nonneg_left h1 hA
    linarith
  have hdd : X * X * (1 - 2 / 2 ^ 24) ≤ dx * dx := by
    have e : dx * dx = X * X + 2 * (X * (dx - X)) + (dx - X) * (dx - X) := by ring
    have sq0 := mul_self_nonneg (dx - X)
    rw [e]
    have e3 : |X| * (|X| / 2 ^ 24) = X * X / 2 ^ 24 := by rw [hXX]; ring
    rw [e3] at hXe
    linarith
  have hdd0 : 0 ≤ dx * dx := mul_self_nonneg dx
  rw [abs_of_nonneg hdd0] at h2
  have h3 := (abs_le.mp h2).1
  have hXX0 : 0 ≤ X * X := mul_self_nonneg X
  linarith

/-- For a pixel whose center is exactly on the rim of the disk, the computed `dist_squared` is
at least `radius ^ 2 * (1 - 2 ^ (-21))` (radius at least `2 ^ (-60)`). -/
theorem distSquared_rim_lower (x y : ℚ) (px py : ℤ) (radius d2 : ℚ)
    (hx : binary32.Rep x) (hy : binary32.Rep y) (hpx : binary32.Rep (px : ℚ))
    (hpy : binary32.Rep (py : ℚ)) (hr : 1 / 2 ^ 60 ≤ radius)
    (hgeo : ((px : ℚ) - x) ^ 2 + ((py : ℚ) - y) ^ 2 = radius ^ 2)
    (hd : distSquared x y px py = some d2) :
    radius * radius * (1 - 1 / 2 ^ 21) ≤ d2 := by
  unfold distSquared at hd
  simp only [Option.bind_eq_bind, Option.bind_eq_some] at hd
  obtain ⟨dx, h1, dy, h2, dxx, h3, dyy, h4, h5⟩ := hd
  rw [binary32.round_rep hpx] at h1
  rw [binary32.round_rep hpy] at h2
  have e1 := (binary32.fin_eq_some h1).1
  have e2 := (binary32.fin_eq_some h2).1
  have e3 := (binary32.fin_eq_some h3).1
  have e4 := (binary32.fin_eq_some h4).1
  have e5 := (binary32.fin_eq_some h5).1
  have a1 := sq_err_lower ((px : ℚ) - x) dx dxx
    (by rw [e1]; exact binary32_sub_err _ _ hpx hx) (by rw [e3]; exact binary32_round_err _)
  have a2 := sq_err_lower ((py : ℚ) - y) dy dyy
    (by rw [e2]; exact binary32_sub_err _ _ hpy hy) (by rw [e4]; exact binary32_round_err _)
  have hxx0 : 0 ≤ dxx := by rw [e3]; exact binary32.round_nonneg (mul_self_nonneg _)
  have hyy0 : 0 ≤ dyy := by rw [e4]; exact binary32.round_nonneg (mul_self_nonneg _)
  have h6 := binary32_round_err (dxx + dyy)
  rw [abs_of_nonneg (add_nonneg hxx0 hyy0), ← e5] at h6
  have h7 := (abs_le.mp h6).1
  have hg : ((px : ℚ) - x) * ((px : ℚ) - x) + ((py : ℚ) - y) * ((py : ℚ) - y)
      = radius * radius := by
    simp only [sq] at hgeo; exact hgeo
  have hr0 : 0 < radius := lt_of_lt_of_le (by positivity) hr
  have hrr : 1 / 2 ^ 60 * (1 / 2 ^ 60) ≤ radius * radius :=
    mul_le_mul hr hr (by positivity) hr0.le
  generalize ((px : ℚ) - x) * ((px : ℚ) - x) = XX at *
  generalize ((py : ℚ) - y) * ((py : ℚ) - y) = YY at *
  generalize radius * radius = RR at *
  norm_num at a1 a2 h7 hrr ⊢
  linarith

/-- The square root of a value between `r ^ 2 * (1 - 2 ^ (-21))` and the rounded square of a
normal `float` `r` lies between `(1 - 2 ^ (-20)) * r` and `(1 + 2 ^ (-23)) * r`. -/
theorem binary32_sqrt_near (r d2 : ℚ) (hrep : binary32.Rep r) (hr : 1 / 2 ^ 63 ≤ r)
    (hlo : r * r * (1 - 1 / 2 ^ 21) ≤ d2) (hhi : d2 ≤ binary32.round (r * r)) :
    ∃ root, binary32.sqrt d2 = some root ∧
      (1 - 1 / 2 ^ 20) * r ≤ root ∧ root ≤ (1 + 1 / 2 ^ 23) * r := by
  have hr0 : 0 < r := lt_of_lt_of_le (by positivity) hr
  obtain ⟨u, hu0, hu1, hu2, -, hrb, hra⟩ := binary32_neighbours r hrep hr
  have hq0 : 0 < r * r := mul_pos hr0 hr0
  have hn : (2 : ℚ) ^ (binary32.emin + (binary32.prec : ℤ) - 1) ≤ |r * r| := by
    rw [abs_of_pos hq0]
    have e : (2 : ℚ) ^ (binary32.emin + (binary32.prec : ℤ) - 1) = 1 / 2 ^ 63 * (1 / 2 ^ 63) := by
      simp only [binary32]; norm_num [zpow_neg]
    rw [e]
    exact mul_le_mul hr hr (by positivity) hr0.le
  have herr := binary32.abs_round_sub_le_rel (r * r) hn
  rw [abs_of_pos hq0] at herr
  have e24 : (2 : ℚ) ^ (-(binary32.prec : ℤ)) = 1 / 2 ^ 24 := by
    simp only [binary32]; norm_num [zpow_neg]
  rw [e24, abs_le] at herr
  have hd0 : 0 ≤ d2 := le_trans (mul_nonneg hq0.le (by norm_num)) hlo
  obtain ⟨root, hroot, -⟩ := binary32.sqrt_defined d2 hd0
  have hru1 : r * (1 / 2 ^ 24) < u := by
    have : r * (1 / 2 ^ 24) < 2 ^ 24 * u * (1 / 2 ^ 24) :=
      mul_lt_mul_of_pos_right hu2 (by positivity)
    have e : (2 : ℚ) ^ 24 * u * (1 / 2 ^ 24) = u := by field_simp
    rw [e] at this; exact this
  have hur : u ≤ r * (1 / 2 ^ 23) := by
    have : 2 ^ 23 * u * (1 / 2 ^ 23) ≤ r * (1 / 2 ^ 23) :=
      mul_le_mul_of_nonneg_right hu1 (by positivity)
    have e : (2 : ℚ) ^ 23 * u * (1 / 2 ^ 23) = u := by field_simp
    rw [e] at this; exact this
  have hru : r * r * (1 / 2 ^ 24) ≤ r * u := by
    rw [mul_assoc]; exact mul_le_mul_of_nonneg_left hru1.le hr0.le
  have huu : u * u ≤ r * u * (1 / 2 ^ 23) := by
    have := mul_le_mul_of_nonneg_left hur hu0.le
    calc u * u ≤ u * (r * (1 / 2 ^ 23)) := this
      _ = _ := by ring
  have hru0 : 0 ≤ r * u := mul_nonneg hr0.le hu0.le
  have h8 : 8 * u ≤ r * (1 / 2 ^ 20) := by
    have : (8 : ℚ) * (r * (1 / 2 ^ 23)) = r * (1 / 2 ^ 20) := by ring
    linarith
  have ha : r - 8 * u ≤ root := by
    apply binary32.le_sqrt_of_sq_le hra _ _ hroot
    · have : r * (1 / 2 ^ 20) ≤ r := by
        have : (1 : ℚ) / 2 ^ 20 ≤ 1 := by norm_num
        nlinarith
      linarith
    · have e : (r - 8 * u) * (r - 8 * u) = r * r - 16 * (r * u) + 64 * (u * u) := by ring
      rw [e]
      refine le_trans ?_ hlo
      generalize r * r = RR at *
      generalize r * u = RU at *
      generalize u * u = UU at *
      norm_num at hru huu ⊢
      linarith
  have hb : root ≤ r + u := by
    apply binary32.sqrt_le_of_le_sq hrb (by linarith) _ hroot
    have e : (r + u) * (r + u) = r * r + 2 * (r * u) + u * u := by ring
    rw [e]
    have := mul_self_nonneg u
    linarith [herr.2]
  exact ⟨root, hroot, by linarith, by linarith⟩

/-- Near the rim of the disk the falloff of a radius of at least `2 ^ (-63)` is at most
`2 ^ (-40)`. -/
theorem alphaAt_near (radius d2 : ℚ) (hrep : binary32.Rep radius) (hr : 1 / 2 ^ 63 ≤ radius)
    (hlo : radius * radius * (1 - 1 / 2 ^ 21) ≤ d2)
    (hhi : d2 ≤ binary32.round (radius * radius)) :
    ∃ alpha, alphaAt radius d2 = some alpha ∧ 0 ≤ alpha ∧ alpha ≤ 1 / 2 ^ 40 := by
  have hr0 : 0 < radius := lt_of_lt_of_le (by positivity) hr
  obtain ⟨root, hroot, h1, h2⟩ := binary32_sqrt_near radius d2 hrep hr hlo hhi
  have hq1 : 1 - 1 / 2 ^ 20 ≤ root / radius := by rw [le_div_iff₀ hr0]; exact h1
  have hq2 : root / radius ≤ 1 + 1 / 2 ^ 23 := by rw [div_le_iff₀ hr0]; exact h2
  have hbig : ∀ q : ℚ, q ≤ 2 → q < (2 : ℚ) ^ binary32.emax := by
    intro q hq
    have : (2 : ℚ) < (2 : ℚ) ^ binary32.emax := by simpa using binary32_big 1 (by norm_num)
    linarith
  have rlo : binary32.Rep (1 - 1 / 2 ^ 20) := by
    have := binary32_rep_dyadic (2 ^ 20 - 1) 20 (by norm_num) (by norm_num)
    convert this using 1; norm_num
  have rhi : binary32.Rep (1 + 1 / 2 ^ 23) := by
    have := binary32_rep_dyadic (2 ^ 23 + 1) 23 (by norm_num) (by norm_num)
    convert this using 1; norm_num
  have ru : binary32.Rep (1 / 2 ^ 20) := by
    have := binary32_rep_dyadic 1 20 (by norm_num) (by norm_num)
    convert this using 1
  have ruu : binary32.Rep (1 / 2 ^ 40) := by
    have := binary32_rep_dyadic 1 40 (by norm_num) (by norm_num)
    convert this using 1
  obtain ⟨hquot, q1, q2⟩ := binary32.fin_of_bounds rlo rhi hq1 hq2
    (by linarith [show (0 : ℚ) ≤ 1 - 1 / 2 ^ 20 by norm_num, hbig 2 le_rfl])
    (hbig _ (by norm_num))
  obtain ⟨ha0, a1, a2⟩ := binary32.fin_of_bounds (binary32.rep_neg ru) ru
    (show -(1 / 2 ^ 20) ≤ 1 - binary32.round (root / radius) by
      have : (1 : ℚ) / 2 ^ 23 ≤ 1 / 2 ^ 20 := by norm_num
      linarith)
    (show 1 - binary32.round (root / radius) ≤ 1 / 2 ^ 20 by linarith)
    (by linarith [show (-2 : ℚ) ≤ -(1 / 2 ^ 20) by norm_num, hbig 2 le_rfl])
    (hbig _ (by norm_num))
  have hsq : binary32.round (1 - binary32.round (root / radius)) *
      binary32.round (1 - binary32.round (root / radius)) ≤ 1 / 2 ^ 40 := by
    have : (1 : ℚ) / 2 ^ 40 = 1 / 2 ^ 20 * (1 / 2 ^ 20) := by norm_num
    rw [this]
    nlinarith
  obtain ⟨hal, b1, b2⟩ := binary32.fin_of_bounds binary32.rep_zero ruu
    (mul_self_nonneg (binary32.round (1 - binary32.round (root / radius)))) hsq
    (by linarith [hbig 2 le_rfl]) (hbig _ (by norm_num))
  refine ⟨_, ?_, b1, b2⟩
  unfold alphaAt
  rw [hroot]
  simp only [Option.bind_eq_bind, Option.some_bind]
  unfold Fmt.div
  rw [if_neg hr0.ne', hquot]
  simp only [Option.some_bind]
  rw [ha0]
  simp only [Option.some_bind]
  exact hal

/-- Blending onto a white channel stores the intensity itself. -/
theorem blendByte_onto_white (i : Fin 256) : blendByte 255 i = i := by
  revert i
  decide!

/-- The outcome of the loop body at a pixel that passes the disk test. -/
theorem pixelOutcome_of_parts (x y : ℚ) (color : Fin 256) (radius r_squared : ℚ) (px py : ℤ)
    (d2 alpha : ℚ) (i : Fin 256) (hd : distSquared x y px py = some d2) (hle : d2 ≤ r_squared)
    (ha : alphaAt radius d2 = some alpha) (hi : intensityAt color alpha = some i) :
    pixelOutcome x y color radius r_squared px py = some (some i) := by
  unfold pixelOutcome
  rw [hd]
  simp only [Option.bind_eq_bind, Option.some_bind]
  rw [if_neg (not_lt.mpr hle), ha]
  simp only [Option.some_bind]
  rw [hi]
  rfl

/-- C19 fails in both parts.  With radius 1, the point `(1 - 2 ^ (-10), 0)` and the pixel
`(0, 0)`, the pixel center is strictly inside the disk, yet `alpha = 2 ^ (-20)` and the `float`
subtraction `255 - alpha` rounds to 255: the intensity is 255, not 254.  With the radius
`2 ^ (-80)` and the point `(2 ^ (-80), 0)` the pixel `(0, 0)` is exactly on the rim, yet
`dist_squared` and `r_squared` both underflow to 0, `alpha = 1` and the intensity is 254. -/
theorem intensity_counterexample :
    (((0 : ℤ) : ℚ) - (1 - 1 / 2 ^ 10)) ^ 2 + (((0 : ℤ) : ℚ) - 0) ^ 2 < (1 : ℚ) ^ 2 ∧
    binary32.fin (1 * 1) = some 1 ∧
    distSquared (1 - 1 / 2 ^ 10) 0 0 0 = some ((1 - 1 / 2 ^ 10) * (1 - 1 / 2 ^ 10)) ∧
    alphaAt 1 ((1 - 1 / 2 ^ 10) * (1 - 1 / 2 ^ 10)) = some (1 / 2 ^ 20) ∧
    pixelOutcome (1 - 1 / 2 ^ 10) 0 1 1 1 0 0 = some (some 255) ∧
    (((0 : ℤ) : ℚ) - 1 / 2 ^ 80) ^ 2 + (((0 : ℤ) : ℚ) - 0) ^ 2 = ((1 : ℚ) / 2 ^ 80) ^ 2 ∧
    binary32.fin (1 / 2 ^ 80 * (1 / 2 ^ 80)) = some 0 ∧
    distSquared (1 / 2 ^ 80) 0 0 0 = some 0 ∧
    pixelOutcome (1 / 2 ^ 80) 0 1 (1 / 2 ^ 80) 0 0 0 = some (some 254) := by
  refine ⟨by norm_num, ?_, ?_, ?_, ?_, by norm_num, ?_, ?_, ?_⟩ <;> decide!

/-- C19, amended: with the color strength 1 and a positive `float` radius, for every pixel that
passes the disk test (`dist_squared ≤ r_squared`) the falloff `alpha` is defined and lies in
`[0, 1]`, and the 8-bit intensity is 255 when `alpha ≤ 2 ^ (-17)` and 254 otherwise.  The
intensity is 255 for a pixel with `dist_squared = r_squared` when the radius is at least
`2 ^ (-63)`, and for a pixel whose center is exactly on the rim of the disk
(`(px - x) ^ 2 + (py - y) ^ 2 = radius ^ 2`, all coordinates `float` values) when the radius is
at least `2 ^ (-60)`. -/
theorem intensity_two_levels (x y radius r_squared : ℚ) (px py : ℤ) (d2 : ℚ)
    (hrep : binary32.Rep radius) (hr : 0 < radius)
    (hr2 : binary32.fin (radius * radius) = some r_squared)
    (hd : distSquared x y px py = some d2) (hle : d2 ≤ r_squared) :
    ∃ alpha, alphaAt radius d2 = some alpha ∧ 0 ≤ alpha ∧ alpha ≤ 1 ∧
      intensityAt 1 alpha = some (if alpha ≤ 1 / 2 ^ 17 then 255 else 254) ∧
      pixelOutcome x y 1 radius r_squared px py
        = some (some (if alpha ≤ 1 / 2 ^ 17 then 255 else 254)) ∧
      (d2 = r_squared → 1 / 2 ^ 63 ≤ radius →
        alpha ≤ 1 / 2 ^ 46 ∧ pixelOutcome x y 1 radius r_squared px py = some (some 255)) ∧
      (binary32.Rep x → binary32.Rep y → binary32.Rep (px : ℚ) → binary32.Rep (py : ℚ) →
        ((px : ℚ) - x) ^ 2 + ((py : ℚ) - y) ^ 2 = radius ^ 2 → 1 / 2 ^ 60 ≤ radius →
        alpha ≤ 1 / 2 ^ 40 ∧ pixelOutcome x y 1 radius r_squared px py = some (some 255)) := by
  have hr2e := (binary32.fin_eq_some hr2).1
  obtain ⟨hd0, -⟩ := distSquared_nonneg x y px py d2 hd
  obtain ⟨alpha, ha, a0, a1, arep⟩ := alphaAt_range radius d2 hrep hr hd0 (hr2e ▸ hle)
  have hi := intensityAt_one alpha arep a0 a1
  have ho := pixelOutcome_of_parts x y 1 radius r_squared px py d2 alpha _ hd hle ha hi
  refine ⟨alpha, ha, a0, a1, hi, ho, ?_, ?_⟩
  · intro heq hbig
    obtain ⟨alpha', ha', -, hsmall⟩ := alphaAt_rim radius hrep hbig
    rw [← hr2e, ← heq, ha] at ha'
    obtain rfl := Option.some.inj ha'
    have h17 : alpha ≤ 1 / 2 ^ 17 := hsmall.trans (by norm_num)
    refine ⟨hsmall, ?_⟩
    rw [ho, if_pos h17]
  · intro hx hy hpx hpy hgeo hbig
    have hlo := distSquared_rim_lower x y px py radius d2 hx hy hpx hpy hbig hgeo hd
    obtain ⟨alpha', ha', -, hsmall⟩ := alphaAt_near radius d2 hrep
      (le_trans (by norm_num) hbig) hlo (hr2e ▸ hle)
    rw [ha] at ha'
    obtain rfl := Option.some.inj ha'
    have h17 : alpha ≤ 1 / 2 ^ 17 := hsmall.trans (by norm_num)
    refine ⟨hsmall, ?_⟩
    rw [ho, if_pos h17]

/-- Witness of the amended C19: radius 1, the point `(1, 1)` and the pixel `(1, 0)`, which is
on the rim (`dist_squared = r_squared = 1`). -/
theorem intensity_two_levels_witness :
    ∃ alpha, alphaAt 1 1 = some alpha ∧ 0 ≤ alpha ∧ alpha ≤ 1 ∧
      intensityAt 1 alpha = some (if alpha ≤ 1 / 2 ^ 17 then 255 else 254) ∧
      pixelOutcome 1 1 1 1 1 1 0 = some (some (if alpha ≤ 1 / 2 ^ 17 then 255 else 254)) ∧
      ((1 : ℚ) = 1 → 1 / 2 ^ 63 ≤ (1 : ℚ) →
        alpha ≤ 1 / 2 ^ 46 ∧ pixelOutcome 1 1 1 1 1 1 0 = some (some 255)) ∧
      (binary32.Rep 1 → binary32.Rep 1 → binary32.Rep ((1 : ℤ) : ℚ) →
        binary32.Rep ((0 : ℤ) : ℚ) →
        (((1 : ℤ) : ℚ) - 1) ^ 2 + (((0 : ℤ) : ℚ) - 1) ^ 2 = (1 : ℚ) ^ 2 → 1 / 2 ^ 60 ≤ (1 : ℚ) →
        alpha ≤ 1 / 2 ^ 40 ∧ pixelOutcome 1 1 1 1 1 1 0 = some (some 255)) :=
  intensity_two_levels 1 1 1 1 1 0 1 binary32.rep_one (by norm_num) (by decide!) (by decide!)
    le_rfl

/-- C11 fails in both parts.  On a white 4 by 4 image a splat of strength 1 and radius 1 at
`(1 - 2 ^ (-10), 0)` leaves the three channels of the pixel `(0, 0)` at 255 although its center
is strictly inside the disk; a splat of radius `2 ^ (-80)` at `(2 ^ (-80), 0)` darkens the pixel
`(0, 0)` to 254 although its center is exactly on the rim. -/
theorem splat_white_counterexample :
    (((0 : ℤ) : ℚ) - (1 - 1 / 2 ^ 10)) ^ 2 + (((0 : ℤ) : ℚ) - 0) ^ 2 < (1 : ℚ) ^ 2 ∧
    (draw_aa_point (fun _ => 255) 4 4 (1 - 1 / 2 ^ 10) 0 1 1).map
      (fun b => (b 0, b 1, b 2)) = some (255, 255, 255) ∧
    (((0 : ℤ) : ℚ) - 1 / 2 ^ 80) ^ 2 + (((0 : ℤ) : ℚ) - 0) ^ 2 = ((1 : ℚ) / 2 ^ 80) ^ 2 ∧
    (draw_aa_point (fun _ => 255) 4 4 (1 / 2 ^ 80) 0 1 (1 / 2 ^ 80)).map
      (fun b => (b 0, b 1, b 2)) = some (254, 254, 254) := by
  refine ⟨by norm_num, ?_, by norm_num, ?_⟩ <;> decide!

/-- C11, amended: for a positive `float` radius and a white pixel of the box that passes the
disk test (`dist_squared ≤ r_squared`), the falloff `alpha` lies in `[0, 1]`, and after every
call of `draw_aa_point` that returns each channel of the pixel is strictly below 255 exactly
when the `float` product `color * alpha` exceeds `2 ^ (-17)`.  The pixel keeps 255 when
`dist_squared = r_squared` and the radius is at least `2 ^ (-63)`, and when its center is exactly
on the rim of the disk (`(px - x) ^ 2 + (py - y) ^ 2 = radius ^ 2`, all coordinates `float`
values) and the radius is at least `2 ^ (-60)`.  The call returns when `|x| + radius` and
`|y| + radius` are at most `2 ^ 30` and the image has at most `2 ^ 31` bytes. -/
theorem splat_white_pixel (buffer : Buffer) (width height : ℤ) (x y : ℚ) (color : Fin 256)
    (radius : ℚ) (hrep : binary32.Rep radius) (hr : 0 < radius) (px py : ℤ)
    (hx0 : max 0 ⌊binary32.round (x - radius)⌋ ≤ px)
    (hx1 : px ≤ min (width - 1) ⌈binary32.round (x + radius)⌉)
    (hy0 : max 0 ⌊binary32.round (y - radius)⌋ ≤ py)
    (hy1 : py ≤ min (height - 1) ⌈binary32.round (y + radius)⌉)
    (hwhite : buffer (3 * (py * width + px).toNat) = 255) (d2 r_squared : ℚ)
    (hr2 : binary32.fin (radius * radius) = some r_squared)
    (hd : distSquared x y px py = some d2) (hle : d2 ≤ r_squared) :
    ∃ alpha, alphaAt radius d2 = some alpha ∧ 0 ≤ alpha ∧ alpha ≤ 1 ∧
      (∀ out, draw_aa_point buffer width height x y color radius = some out →
        (∀ t, t < 3 → ((out (3 * (py * width + px).toNat + t)).val < 255 ↔
          1 / 2 ^ 17 < binary32.round ((color.val : ℚ) * alpha))) ∧
        (d2 = r_squared → 1 / 2 ^ 63 ≤ radius →
          ∀ t, t < 3 → out (3 * (py * width + px).toNat + t) = 255) ∧
        (binary32.Rep x → binary32.Rep y → binary32.Rep (px : ℚ) → binary32.Rep (py : ℚ) →
          ((px : ℚ) - x) ^ 2 + ((py : ℚ) - y) ^ 2 = radius ^ 2 → 1 / 2 ^ 60 ≤ radius →
          ∀ t, t < 3 → out (3 * (py * width + px).toNat + t) = 255)) ∧
      (|x| + radius ≤ 2 ^ 30 → |y| + radius ≤ 2 ^ 30 → width * height * 3 ≤ 2 ^ 31 →
        ∃ out, draw_aa_point buffer width height x y color radius = some out) := by
  have hr2e := (binary32.fin_eq_some hr2).1
  obtain ⟨hd0, -⟩ := distSquared_nonneg x y px py d2 hd
  obtain ⟨alpha, ha, a0, a1, arep⟩ := alphaAt_range radius d2 hrep hr hd0 (hr2e ▸ hle)
  obtain ⟨i, hi, -, hiff⟩ := intensityAt_spec color alpha a0 a1
  have ho := pixelOutcome_of_parts x y color radius r_squared px py d2 alpha i hd hle ha hi
  refine ⟨alpha, ha, a0, a1, ?_, fun hx hy hsize =>
    draw_aa_point_defined buffer width height x y color radius hrep hr hx hy hsize⟩
  intro out hout
  obtain ⟨x0, y0, x1, y1, r2, hbox, hr2', -, E, -⟩ :=
    draw_aa_point_pixels buffer out width height x y color radius hout
  obtain ⟨rfl, rfl, rfl, rfl⟩ := boxBounds_eq _ _ _ _ _ _ _ _ _ hbox
  rw [hr2] at hr2'
  obtain rfl := Option.some.inj hr2'
  have hout_eq : ∀ t, t < 3 → out (3 * (py * width + px).toNat + t) = i := by
    intro t ht
    rw [E px py hx0 hx1 hy0 hy1 i ho t ht, hwhite, blendByte_onto_white]
  -- a falloff of at most `2 ^ (-40)` leaves the pixel white
  have hkeep : alpha ≤ 1 / 2 ^ 40 → ∀ t, t < 3 →
      out (3 * (py * width + px).toNat + t) = 255 := by
    intro hsmall t ht
    have hc1 : (color.val : ℚ) ≤ 255 := by exact_mod_cast Nat.lt_succ_iff.mp color.isLt
    have hc0 : (0 : ℚ) ≤ color.val := Nat.cast_nonneg _
    have r17 : binary32.Rep (1 / 2 ^ 17) := by
      have := binary32_rep_dyadic 1 17 (by norm_num) (by norm_num)
      convert this using 1
    have hprod : binary32.round ((color.val : ℚ) * alpha) ≤ 1 / 2 ^ 17 := by
      apply binary32.round_le_of_le_rep r17
      calc (color.val : ℚ) * alpha ≤ 255 * (1 / 2 ^ 40) := mul_le_mul hc1 hsmall a0 (by norm_num)
        _ ≤ 1 / 2 ^ 17 := by norm_num
    have hnot : ¬ i.val < 255 := fun hlt => absurd (hiff.mp hlt) (not_lt.mpr hprod)
    rw [hout_eq t ht]
    apply Fin.ext
    have := i.isLt
    show i.val = 255
    omega
  refine ⟨?_, ?_, ?_⟩
  · intro t ht
    rw [hout_eq t ht]; exact hiff
  · intro heq hbig
    obtain ⟨alpha', ha', -, hsmall⟩ := alphaAt_rim radius hrep hbig
    rw [← hr2e, ← heq, ha] at ha'
    obtain rfl := Option.some.inj ha'
    exact hkeep (hsmall.trans (by norm_num))
  · intro hx hy hpx hpy hgeo hbig
    have hlo := distSquared_rim_lower x y px py radius d2 hx hy hpx hpy hbig hgeo hd
    obtain ⟨alpha', ha', -, hsmall⟩ := alphaAt_near radius d2 hrep
      (le_trans (by norm_num) hbig) hlo (hr2e ▸ hle)
    rw [ha] at ha'
    obtain rfl := Option.some.inj ha'
    exact hkeep hsmall

/-- Witness of the amended C11: the white 4 by 4 image, strength 1, radius 1, the point `(1, 1)`
and the pixel `(1, 0)` on the rim. -/
theorem splat_white_pixel_witness :
    ∃ alpha, alphaAt 1 1 = some alpha ∧ 0 ≤ alpha ∧ alpha ≤ 1 ∧
      (∀ out, draw_aa_point (fun _ => 255) 4 4 1 1 1 1 = some out →
        (∀ t, t < 3 → ((out (3 * ((0 : ℤ) * 4 + 1).toNat + t)).val < 255 ↔
          1 / 2 ^ 17 < binary32.round ((((1 : Fin 256).val : ℕ) : ℚ) * alpha))) ∧
        ((1 : ℚ) = 1 → 1 / 2 ^ 63 ≤ (1 : ℚ) →
          ∀ t, t < 3 → out (3 * ((0 : ℤ) * 4 + 1).toNat + t) = 255) ∧
        (binary32.Rep 1 → binary32.Rep 1 → binary32.Rep ((1 : ℤ) : ℚ) →
          binary32.Rep ((0 : ℤ) : ℚ) →
          (((1 : ℤ) : ℚ) - 1) ^ 2 + (((0 : ℤ) : ℚ) - 1) ^ 2 = (1 : ℚ) ^ 2 →
          1 / 2 ^ 60 ≤ (1 : ℚ) →
          ∀ t, t < 3 → out (3 * ((0 : ℤ) * 4 + 1).toNat + t) = 255)) ∧
      (|(1 : ℚ)| + 1 ≤ 2 ^ 30 → |(1 : ℚ)| + 1 ≤ 2 ^ 30 → (4 : ℤ) * 4 * 3 ≤ 2 ^ 31 →
        ∃ out, draw_aa_point (fun _ => 255) 4 4 1 1 1 1 = some out) :=
  splat_white_pixel (fun _ => 255) 4 4 1 1 1 1 binary32.rep_one (by norm_num)
    1 0 (by decide!) (by decide!) (by decide!) (by decide!) rfl 1 1
    (by decide!) (by decide!) le_rfl

/-- The byte of the tone map in terms of the value returned by `pow`: the floor of the `float`
product `pow(value, 0.7f) * 200.0f`, for a `pow` value in `[0, 1]`. -/
theorem toneByte_floor (powf : ℚ → ℚ → Option ℚ) (c : Fin 256) (w : ℚ)
    (hw : powf (binary32.round ((255 - (c.val : ℚ)) / 255)) (binary32.round (7 / 10)) = some w)
    (w0 : 0 ≤ w) (w1 : w ≤ 1) :
    ∃ b : Fin 256, toneByte powf c = some b ∧ (b.val : ℤ) = ⌊binary32.round (w * 200)⌋ := by
  have hc : c.val ≤ 255 := Nat.lt_succ_iff.mp c.isLt
  have hcast : (255 : ℚ) - (c.val : ℚ) = ((255 - c.val : ℕ) : ℚ) := by
    rw [Nat.cast_sub hc]; norm_num
  have hd0 : (0 : ℚ) ≤ ((255 - c.val : ℕ) : ℚ) := Nat.cast_nonneg _
  have hd1 : ((255 - c.val : ℕ) : ℚ) ≤ 255 := by exact_mod_cast Nat.sub_le 255 c.val
  have hbig := binary32_big 8 (by norm_num)
  have f1 : binary32.fin (255 - (c.val : ℚ)) = some (255 - (c.val : ℚ)) := by
    rw [hcast]
    apply binary32.fin_of_rep (binary32.rep_natCast _ (by simp only [binary32]; omega))
    rw [abs_of_nonneg hd0]; linarith
  have r0 : binary32.Rep 0 := binary32.rep_zero
  have r1 : binary32.Rep 1 := binary32.rep_one
  have r200 : binary32.Rep 200 := by
    have := binary32.rep_natCast 200 (by simp only [binary32]; norm_num)
    simpa using this
  obtain ⟨f2, -, -⟩ := binary32.fin_of_bounds (q := (255 - (c.val : ℚ)) / 255) r0 r1
    (div_nonneg (by rw [hcast]; exact hd0) (by norm_num))
    ((div_le_one (by norm_num)).mpr (by rw [hcast]; exact hd1))
    (by linarith [two_zpow_pos binary32.emax]) (by linarith)
  obtain ⟨f3, s0, s1⟩ := binary32.fin_of_bounds (q := w * 200) r0 r200
    (by positivity) (by linarith)
    (by linarith [two_zpow_pos binary32.emax]) (by linarith)
  obtain ⟨b, hb, hbv⟩ := toU8_of_bounds s0 (by linarith)
  refine ⟨b, ?_, hbv⟩
  have hdiv : binary32.div (255 - (c.val : ℚ)) 255
      = some (binary32.round ((255 - (c.val : ℚ)) / 255)) := by
    unfold Fmt.div; rw [if_neg (by norm_num)]; exact f2
  simp only [toneByte, Option.bind_eq_bind, Option.some_bind, f1, hdiv, hw, f3, hb]

/-- A real power with a rational exponent against a bound, by integer powers. -/
theorem rpow_le_of_pow_le {v b e : ℝ} (hv : 0 ≤ v) (hb : 0 ≤ b) (m n : ℕ) (hn : n ≠ 0)
    (he : e * (n : ℝ) = (m : ℝ)) (h : v ^ m ≤ b ^ n) : v ^ e ≤ b := by
  have hx : (v ^ e) ^ n = v ^ m := by
    rw [← Real.rpow_natCast, ← Real.rpow_mul hv, he, Real.rpow_natCast]
  rw [← hx] at h
  exact le_of_pow_le_pow_left₀ hn hb h

theorem le_rpow_of_pow_le {v a e : ℝ} (hv : 0 ≤ v) (m n : ℕ) (hn : n ≠ 0)
    (he : e * (n : ℝ) = (m : ℝ)) (h : a ^ n ≤ v ^ m) : a ≤ v ^ e := by
  have hx : (v ^ e) ^ n = v ^ m := by
    rw [← Real.rpow_natCast, ← Real.rpow_mul hv, he, Real.rpow_natCast]
  rw [← hx] at h
  exact le_of_pow_le_pow_left₀ hn (Real.rpow_nonneg hv e) h

/-- C12 fails for the channel value 253: the claimed value `round((2/255) ^ 0.7 * 200)` is 7
(the product is about 6.717), while the pass writes 6, the truncation, for every value `w` that
`pow` may return within `10 ^ (-4)` of the exact power of its `float` arguments. -/
theorem toneByte_not_rounded :
    round ((((255 : ℝ) - 253) / 255) ^ ((7 : ℝ) / 10) * 200) = 7 ∧
    ∀ w : ℚ,
      |(w : ℝ) - ((binary32.round ((255 - 253) / 255) : ℚ) : ℝ)
          ^ ((binary32.round (7 / 10) : ℚ) : ℝ)| ≤ 1 / 10000 →
      toneByte (fun _ _ => some w) 253 = some 6 := by
  constructor
  · have h1 : (67 : ℝ) / 2000 ≤ (((255 : ℝ) - 253) / 255) ^ ((7 : ℝ) / 10) :=
      le_rpow_of_pow_le (by norm_num) 7 10 (by norm_num) (by norm_num) (by norm_num)
    have h2 : (((255 : ℝ) - 253) / 255) ^ ((7 : ℝ) / 10) ≤ 37 / 1000 :=
      rpow_le_of_pow_le (by norm_num) (by norm_num) 7 10 (by norm_num) (by norm_num)
        (by norm_num)
    rw [round_eq, Int.floor_eq_iff]
    constructor
    · push_cast; linarith
    · push_cast; linarith
  · intro w hw
    have ev : binary32.round ((255 - 253) / 255) = 8421505 / 1073741824 := by decide!
    have eg : binary32.round (7 / 10) = 11744051 / 16777216 := by decide!
    rw [ev, eg] at hw
    have hv0 : (0 : ℝ) < ((8421505 / 1073741824 : ℚ) : ℝ) := by push_cast; norm_num
    have hv1 : ((8421505 / 1073741824 : ℚ) : ℝ) ≤ 1 := by push_cast; norm_num
    have h1 : (67 : ℝ) / 2000 ≤ ((8421505 / 1073741824 : ℚ) : ℝ) ^ ((7 : ℝ) / 10) :=
      le_rpow_of_pow_le hv0.le 7 10 (by norm_num) (by norm_num) (by push_cast; norm_num)
    have h2 : ((8421505 / 1073741824 : ℚ) : ℝ) ^ ((16 : ℝ) / 23) ≤ 43 / 1250 :=
      rpow_le_of_pow_le hv0.le (by norm_num) 16 23 (by norm_num) (by norm_num)
        (by push_cast; norm_num)
    have h3 : ((8421505 / 1073741824 : ℚ) : ℝ) ^ ((7 : ℝ) / 10)
        ≤ ((8421505 / 1073741824 : ℚ) : ℝ) ^ ((11744051 / 16777216 : ℚ) : ℝ) :=
      Real.rpow_le_rpow_of_exponent_ge hv0 hv1 (by push_cast; norm_num)
    have h4 : ((8421505 / 1073741824 : ℚ) : ℝ) ^ ((11744051 / 16777216 : ℚ) : ℝ)
        ≤ ((8421505 / 1073741824 : ℚ) : ℝ) ^ ((16 : ℝ) / 23) :=
      Real.rpow_le_rpow_of_exponent_ge hv0 hv1 (by push_cast; norm_num)
    rw [abs_le] at hw
    have wlo : ((167 / 5000 : ℚ) : ℝ) ≤ (w : ℝ) := by push_cast; linarith
    have whi : (w : ℝ) ≤ ((69 / 2000 : ℚ) : ℝ) := by push_cast; linarith
    have wlo' : (167 / 5000 : ℚ) ≤ w := by exact_mod_cast wlo
    have whi' : w ≤ (69 / 2000 : ℚ) := by exact_mod_cast whi
    obtain ⟨b, hb, hbv⟩ := toneByte_floor (fun _ _ => some w) 253 w rfl (by linarith)
      (by linarith)
    have rlo : binary32.Rep (13 / 2) := by
      have := binary32_rep_dyadic 13 1 (by norm_num) (by norm_num)
      convert this using 1
    have rhi : binary32.Rep (111 / 16) := by
      have := binary32_rep_dyadic 111 4 (by norm_num) (by norm_num)
      convert this using 1
    have s1 := binary32.le_round_of_rep_le rlo (show (13 : ℚ) / 2 ≤ w * 200 by linarith)
    have s2 := binary32.round_le_of_le_rep rhi (show w * 200 ≤ (111 : ℚ) / 16 by linarith)
    have hfl : ⌊binary32.round (w * 200)⌋ = 6 := by
      rw [Int.floor_eq_iff]; push_cast; constructor <;> linarith
    rw [hb]
    congr 1
    apply Fin.ext
    rw [hfl] at hbv
    show b.val = 6
    omega

/-- The tone-mapping loop over a list of distinct pixel numbers: every listed pixel receives in
its three channels the tone byte of its initial first channel, and every other byte is
unchanged. -/
theorem tonePixels_fold (powf : ℚ → ℚ → Option ℚ) :
    ∀ (ps : List ℕ), ps.Nodup → ∀ (buf out : Buffer),
      ps.foldlM (fun b p => tonePixel powf b (p * 3)) buf = some out →
      (∀ p ∈ ps, ∃ c, toneByte powf (buf (p * 3)) = some c ∧
        ∀ t, t < 3 → out (p * 3 + t) = c) ∧
      (∀ j, j / 3 ∉ ps → out j = buf j)
  | [], _, buf, out, h => by
    simp only [List.foldlM, Option.pure_def, Option.some.injEq] at h
    subst h
    exact ⟨fun p hp => absurd hp (List.not_mem_nil p), fun j _ => rfl⟩
  | a :: l, hnd, buf, out, h => by
    simp only [List.foldlM, Option.bind_eq_bind, Option.bind_eq_some] at h
    obtain ⟨buf1, hs, hl⟩ := h
    have hnd' := List.nodup_cons.mp hnd
    obtain ⟨E, F⟩ := tonePixels_fold powf l hnd'.2 buf1 out hl
    unfold tonePixel at hs
    simp only [Option.bind_eq_bind, Option.bind_eq_some, Option.some.injEq] at hs
    obtain ⟨c, hc, rfl⟩ := hs
    refine ⟨?_, ?_⟩
    · intro p hp
      rcases List.mem_cons.mp hp with rfl | hp
      · refine ⟨c, hc, fun t ht => ?_⟩
        rw [F (p * 3 + t) (by
          have e : (p * 3 + t) / 3 = p := by omega
          rw [e]; exact hnd'.1), update3_apply, if_pos (by omega)]
      · obtain ⟨c', hc', ho⟩ := E p hp
        have hne : p ≠ a := fun e => hnd'.1 (e ▸ hp)
        rw [update3_apply, if_neg (by omega)] at hc'
        exact ⟨c', hc', ho⟩
    · intro j hj
      rw [List.mem_cons, not_or] at hj
      rw [F j hj.2, update3_apply, if_neg (by omega)]

/-- The two nested loops of the tone-mapping pass are one loop over the pixel numbers
`y * width + x`. -/
theorem toneMap_eq (powf : ℚ → ℚ → Option ℚ) (width height : ℕ) (buffer : Buffer) :
    toneMap powf width height buffer =
      ((List.range height).flatMap fun y => (List.range width).map fun x => y * width + x).foldlM
        (fun b p => tonePixel powf b (p * 3)) buffer := by
  unfold toneMap
  rw [foldlM_bind_list]
  congr 1
  funext buf y
  rw [List.foldlM_map]

theorem nodup_pixelNumbers (width height : ℕ) :
    ((List.range height).flatMap fun y =>
      (List.range width).map fun x => y * width + x).Nodup := by
  rw [List.nodup_flatMap]
  constructor
  · intro y _
    apply List.Nodup.map _ (List.nodup_range _)
    intro m n h
    simpa using h
  · apply List.Pairwise.imp_of_mem _ (List.nodup_range height)
    intro a b _ _ hab
    simp only [Function.onFun, List.disjoint_left, List.mem_map, List.mem_range]
    rintro p ⟨x, hx, rfl⟩ ⟨x', hx', h⟩
    apply hab
    rcases Nat.lt_trichotomy a b with hlt | heq | hgt
    · exfalso
      have : (a + 1) * width ≤ b * width := Nat.mul_le_mul_right _ hlt
      rw [Nat.add_mul, one_mul] at this
      omega
    · exact heq
    · exfalso
      have : (b + 1) * width ≤ a * width := Nat.mul_le_mul_right _ hgt
      rw [Nat.add_mul, one_mul] at this
      omega

/-- The tone byte is defined for every channel value when `pow(·, 0.7f)` maps `[0, 1]` into
`[0, 1]`: the floor of the `float` product of the `pow` value and 200. -/
theorem toneByte_of_pow (powf : ℚ → ℚ → Option ℚ)
    (hpow : ∀ v : ℚ, 0 ≤ v → v ≤ 1 →
      ∃ w, powf v (binary32.round (7 / 10)) = some w ∧ 0 ≤ w ∧ w ≤ 1)
    (c : Fin 256) :
    ∃ (w : ℚ) (b : Fin 256),
      powf (binary32.round ((255 - (c.val : ℚ)) / 255)) (binary32.round (7 / 10)) = some w ∧
      toneByte powf c = some b ∧ (b.val : ℤ) = ⌊binary32.round (w * 200)⌋ := by
  have hc : (c.val : ℚ) ≤ 255 := by exact_mod_cast Nat.lt_succ_iff.mp c.isLt
  have hc0 : (0 : ℚ) ≤ c.val := Nat.cast_nonneg _
  have v0 : 0 ≤ binary32.round ((255 - (c.val : ℚ)) / 255) :=
    binary32.round_nonneg (div_nonneg (by linarith) (by norm_num))
  have v1 : binary32.round ((255 - (c.val : ℚ)) / 255) ≤ 1 :=
    binary32.round_le_of_le_rep binary32.rep_one
      ((div_le_one (by norm_num)).mpr (by linarith))
  obtain ⟨w, hw, w0, w1⟩ := hpow _ v0 v1
  obtain ⟨b, hb, hbv⟩ := toneByte_floor powf c w hw w0 w1
  exact ⟨w, b, hw, hb, hbv⟩

/-- C12, amended: for a library `pow(·, 0.7f)` that maps `[0, 1]` into `[0, 1]`, the
tone-mapping pass is defined, and for every pixel `(x, y)` of the image it writes into all three
channels the truncation (not the rounding) of the `float` product `pow(value, 0.7f) * 200.0f`,
where `value` is the `float` quotient `(255 - c) / 255` and `c` is the first channel of the pixel
before the pass. -/
theorem toneMap_truncates (powf : ℚ → ℚ → Option ℚ)
    (hpow : ∀ v : ℚ, 0 ≤ v → v ≤ 1 →
      ∃ w, powf v (binary32.round (7 / 10)) = some w ∧ 0 ≤ w ∧ w ≤ 1)
    (width height : ℕ) (buffer : Buffer) :
    ∃ out, toneMap powf width height buffer = some out ∧
      ∀ x y, x < width → y < height → ∃ (w : ℚ) (b : Fin 256),
        powf (binary32.round ((255 - ((buffer ((y * width + x) * 3)).val : ℚ)) / 255))
          (binary32.round (7 / 10)) = some w ∧
        (b.val : ℤ) = ⌊binary32.round (w * 200)⌋ ∧
        out ((y * width + x) * 3) = b ∧ out ((y * width + x) * 3 + 1) = b ∧
        out ((y * width + x) * 3 + 2) = b := by
  have hdef : ∃ out, toneMap powf width height buffer = some out := by
    rw [toneMap_eq]
    apply foldlM_defined
    intro p _ buf
    obtain ⟨w, b, -, hb, -⟩ := toneByte_of_pow powf hpow (buf (p * 3))
    refine ⟨Function.update (Function.update (Function.update buf (p * 3) b) (p * 3 + 1) b)
      (p * 3 + 2) b, ?_⟩
    simp only [tonePixel, Option.bind_eq_bind, Option.some_bind, hb]
  obtain ⟨out, hout⟩ := hdef
  refine ⟨out, hout, ?_⟩
  rw [toneMap_eq] at hout
  obtain ⟨E, -⟩ := tonePixels_fold powf _ (nodup_pixelNumbers width height) buffer out hout
  intro x y hx hy
  have hmem : y * width + x ∈
      ((List.range height).flatMap fun y => (List.range width).map fun x => y * width + x) := by
    simp only [List.mem_flatMap, List.mem_map, List.mem_range]
    exact ⟨y, hy, x, hx, rfl⟩
  obtain ⟨c, hc, ho⟩ := E _ hmem
  obtain ⟨w, b, hw, hb, hbv⟩ := toneByte_of_pow powf hpow (buffer ((y * width + x) * 3))
  rw [hb] at hc
  obtain rfl := Option.some.inj hc
  exact ⟨w, b, hw, hbv, ho 0 (by norm_num), ho 1 (by norm_num), ho 2 (by norm_num)⟩

/-- Witness of the amended C12: the identity in place of `pow(·, 0.7f)`, on the white 4 by 4
image. -/
theorem toneMap_truncates_witness :
    ∃ out, toneMap (fun v _ => some v) 4 4 (fun _ => 255) = some out ∧
      ∀ x y, x < 4 → y < 4 → ∃ (w : ℚ) (b : Fin 256),
        (fun (v : ℚ) (_ : ℚ) => some v)
          (binary32.round ((255 - (((fun _ => 255 : Buffer) ((y * 4 + x) * 3)).val : ℚ)) / 255))
          (binary32.round (7 / 10)) = some w ∧
        (b.val : ℤ) = ⌊binary32.round (w * 200)⌋ ∧
        out ((y * 4 + x) * 3) = b ∧ out ((y * 4 + x) * 3 + 1) = b ∧
        out ((y * 4 + x) * 3 + 2) = b :=
  toneMap_truncates (fun v _ => some v) (fun v h0 h1 => ⟨v, rfl, h0, h1⟩) 4 4 (fun _ => 255)

/-- The computed `dist_squared` of a pixel with `float` coordinates against the exact squared
distance, from below: four relative rounding errors and three underflows at most. -/
theorem distSquared_lower (x y : ℚ) (px py : ℤ) (d2 : ℚ)
    (hx : binary32.Rep x) (hy : binary32.Rep y) (hpx : binary32.Rep (px : ℚ))
    (hpy : binary32.Rep (py : ℚ)) (hd : distSquared x y px py = some d2) :
    (((px : ℚ) - x) ^ 2 + ((py : ℚ) - y) ^ 2) * (1 - 1 / 2 ^ 22) - 3 / 2 ^ 150 ≤ d2 := by
  unfold distSquared at hd
  simp only [Option.bind_eq_bind, Option.bind_eq_some] at hd
  obtain ⟨dx, h1, dy, h2, dxx, h3, dyy, h4, h5⟩ := hd
  rw [binary32.round_rep hpx] at h1
  rw [binary32.round_rep hpy] at h2
  have e1 := (binary32.fin_eq_some h1).1
  have e2 := (binary32.fin_eq_some h2).1
  have e3 := (binary32.fin_eq_some h3).1
  have e4 := (binary32.fin_eq_some h4).1
  have e5 := (binary32.fin_eq_some h5).1
  have a1 := sq_err_lower ((px : ℚ) - x) dx dxx
    (by rw [e1]; exact binary32_sub_err _ _ hpx hx) (by rw [e3]; exact binary32_round_err _)
  have a2 := sq_err_lower ((py : ℚ) - y) dy dyy
    (by rw [e2]; exact binary32_sub_err _ _ hpy hy) (by rw [e4]; exact binary32_round_err _)
  have hxx0 : 0 ≤ dxx := by rw [e3]; exact binary32.round_nonneg (mul_self_nonneg _)
  have hyy0 : 0 ≤ dyy := by rw [e4]; exact binary32.round_nonneg (mul_self_nonneg _)
  have h6 := binary32_round_err (dxx + dyy)
  rw [abs_of_nonneg (add_nonneg hxx0 hyy0), ← e5] at h6
  have h7 := (abs_le.mp h6).1
  have hX0 := mul_self_nonneg ((px : ℚ) - x)
  have hY0 := mul_self_nonneg ((py : ℚ) - y)
  simp only [sq]
  generalize ((px : ℚ) - x) * ((px : ℚ) - x) = XX at *
  generalize ((py : ℚ) - y) * ((py : ℚ) - y) = YY at *
  norm_num at a1 a2 h7 ⊢
  linarith

/-- C15 fails as worded, with the exact squared distance: the code tests the `float` values.
With the radius `2 ^ (-80)` and the point `(2 ^ (-79), 0)` on a white image the pixel `(0, 0)`
lies at twice the radius, both squares underflow to 0, and its first byte becomes 254.  With
the radius 1 and the point `(1, 2 ^ (-13))` the pixel `(0, 0)` has the squared distance
`1 + 2 ^ (-26)`, which rounds to 1: it passes the test and, on a pixel `(200, 10, 10)`, its
second channel changes from 10 to 200. -/
theorem draw_aa_point_frame_inexact :
    (draw_aa_point (fun _ => 255) 4 4 (1 / 2 ^ 79) 0 1 (1 / 2 ^ 80)).map (fun b => b 0)
      = some 254 ∧
    (fun _ => 255 : Buffer) 0 = 255 ∧
    ((1 : ℚ) / 2 ^ 80) ^ 2 < (((0 : ℤ) : ℚ) - 1 / 2 ^ 79) ^ 2 + (((0 : ℤ) : ℚ) - 0) ^ 2 ∧
    (draw_aa_point (fun k => if k = 0 then 200 else 10) 4 4 1 (1 / 2 ^ 13) 1 1).map
      (fun b => b 1) = some 200 ∧
    (fun k : ℕ => if k = 0 then (200 : Fin 256) else 10) 1 = 10 ∧
    (1 : ℚ) ^ 2 < (((0 : ℤ) : ℚ) - 1) ^ 2 + (((0 : ℤ) : ℚ) - 1 / 2 ^ 13) ^ 2 := by
  refine ⟨?_, rfl, ?_, ?_, ?_, ?_⟩
  · decide!
  · norm_num
  · decide!
  · decide
  · norm_num

/-- C15, amended: `draw_aa_point` changes only bytes of pixels `(px, py)` that lie in the box
`[floor(x - radius), ceil(x + radius)] x [floor(y - radius), ceil(y + radius)]` clamped to
`[0, width - 1] x [0, height - 1]` and that pass the disk test of the code,
`dist_squared ≤ r_squared` with both values computed in `float`; every other byte of the buffer
is unchanged.  For a point with `float` coordinates in an image of at most `2 ^ 24` columns and
rows, the exact squared distance `d` of such a pixel satisfies
`d * (1 - 2 ^ (-22)) ≤ radius ^ 2 * (1 + 2 ^ (-24)) + 2 ^ (-148)`. -/
theorem draw_aa_point_frame (buffer out : Buffer) (width height : ℤ) (x y : ℚ)
    (color : Fin 256) (radius : ℚ)
    (h : draw_aa_point buffer width height x y color radius = some out) (j : ℕ)
    (hj : out j ≠ buffer j) :
    ∃ (px py : ℤ) (d2 r2 : ℚ),
      max 0 ⌊binary32.round (x - radius)⌋ ≤ px ∧
      px ≤ min (width - 1) ⌈binary32.round (x + radius)⌉ ∧
      max 0 ⌊binary32.round (y - radius)⌋ ≤ py ∧
      py ≤ min (height - 1) ⌈binary32.round (y + radius)⌉ ∧
      distSquared x y px py = some d2 ∧ binary32.fin (radius * radius) = some r2 ∧ d2 ≤ r2 ∧
      ((j : ℤ) = (py * width + px) * 3 ∨ (j : ℤ) = (py * width + px) * 3 + 1 ∨
        (j : ℤ) = (py * width + px) * 3 + 2) ∧
      (binary32.Rep x → binary32.Rep y → width ≤ 2 ^ 24 → height ≤ 2 ^ 24 →
        (((px : ℚ) - x) ^ 2 + ((py : ℚ) - y) ^ 2) * (1 - 1 / 2 ^ 22)
          ≤ radius ^ 2 * (1 + 1 / 2 ^ 24) + 1 / 2 ^ 148) := by
  obtain ⟨x0, y0, x1, y1, r2, hbox, hr2, -, -, F⟩ :=
    draw_aa_point_pixels buffer out width height x y color radius h
  obtain ⟨rfl, rfl, rfl, rfl⟩ := boxBounds_eq _ _ _ _ _ _ _ _ _ hbox
  by_contra hno
  apply hj
  apply F j
  intro px py a1 a2 a3 a4 i hi hcell
  obtain ⟨d2, alpha, hd, hle, -, -⟩ := pixelOutcome_blend _ _ _ _ _ _ _ _ hi
  apply hno
  have hx0 : (0 : ℤ) ≤ px := (le_max_left _ _).trans a1
  have hy0 : (0 : ℤ) ≤ py := (le_max_left _ _).trans a3
  have hxw : px ≤ width - 1 := a2.trans (min_le_left _ _)
  have hyh : py ≤ height - 1 := a4.trans (min_le_left _ _)
  have hnn : 0 ≤ py * width + px := by nlinarith
  refine ⟨px, py, d2, r2, a1, a2, a3, a4, hd, hr2, hle, by omega, ?_⟩
  intro hx hy hw hh
  have hpx : binary32.Rep (px : ℚ) :=
    binary32.rep_intCast px (by rw [abs_of_nonneg hx0]; simp only [binary32]; omega)
  have hpy : binary32.Rep (py : ℚ) :=
    binary32.rep_intCast py (by rw [abs_of_nonneg hy0]; simp only [binary32]; omega)
  have hlo := distSquared_lower x y px py d2 hx hy hpx hpy hd
  have hr2e := (binary32.fin_eq_some hr2).1
  have herr := binary32_round_err (radius * radius)
  rw [abs_of_nonneg (mul_self_nonneg radius), ← hr2e] at herr
  have hup := (abs_le.mp herr).2
  have e : radius ^ 2 = radius * radius := sq radius
  rw [e]
  generalize ((px : ℚ) - x) ^ 2 + ((py : ℚ) - y) ^ 2 = D at *
  generalize radius * radius = RR at *
  norm_num at hlo hup ⊢
  linarith

/-- Witness of the amended C15: a splat at `(1, 1)` of a white 4 by 4 image changes the byte 15,
which belongs to the pixel `(1, 1)`. -/
theorem draw_aa_point_frame_witness :
    ∃ out, draw_aa_point (fun _ => 255) 4 4 1 1 1 1 = some out ∧ out 15 ≠ 255 ∧
      ∃ (px py : ℤ) (d2 r2 : ℚ),
        max 0 ⌊binary32.round ((1 : ℚ) - 1)⌋ ≤ px ∧
        px ≤ min (4 - 1) ⌈binary32.round ((1 : ℚ) + 1)⌉ ∧
        max 0 ⌊binary32.round ((1 : ℚ) - 1)⌋ ≤ py ∧
        py ≤ min (4 - 1) ⌈binary32.round ((1 : ℚ) + 1)⌉ ∧
        distSquared 1 1 px py = some d2 ∧ binary32.fin (1 * 1) = some r2 ∧ d2 ≤ r2 ∧
        (((15 : ℕ) : ℤ) = (py * 4 + px) * 3 ∨ ((15 : ℕ) : ℤ) = (py * 4 + px) * 3 + 1 ∨
          ((15 : ℕ) : ℤ) = (py * 4 + px) * 3 + 2) ∧
        (binary32.Rep 1 → binary32.Rep 1 → (4 : ℤ) ≤ 2 ^ 24 → (4 : ℤ) ≤ 2 ^ 24 →
          (((px : ℚ) - 1) ^ 2 + ((py : ℚ) - 1) ^ 2) * (1 - 1 / 2 ^ 22)
            ≤ (1 : ℚ) ^ 2 * (1 + 1 / 2 ^ 24) + 1 / 2 ^ 148) := by
  have hv : (draw_aa_point (fun _ => 255) 4 4 1 1 1 1).map (fun b => b 15) = some 254 := by
    decide!
  obtain ⟨out, ho, hb⟩ := Option.map_eq_some'.mp hv
  have hne : out 15 ≠ (fun _ => 255 : Buffer) 15 := by rw [hb]; decide
  exact ⟨out, ho, hne, draw_aa_point_frame _ out 4 4 1 1 1 1 ho 15 hne⟩

/-- With a `float` radius in `(-1, 0)` the splat at the point `(0, 0)` of a non-empty image has
the box `[0, 0] x [0, 0]`, and it blends the pixel `(0, 0)` with the intensity `255 - color`. -/
theorem draw_aa_point_small_negative (buffer : Buffer) (width height : ℤ) (color : Fin 256)
    (radius : ℚ) (h1 : -1 < radius) (h0 : radius < 0) (hrep : binary32.Rep radius)
    (hw : 1 ≤ width) (hh : 1 ≤ height) :
    draw_aa_point buffer width height 0 0 color radius
      = some (blend_pixel buffer 0 ⟨255 - color.val, by omega⟩) := by
  have hbig : (1 : ℚ) < (2 : ℚ) ^ binary32.emax := by
    have := binary32_big 1 (by norm_num)
    norm_num at this ⊢
    linarith
  have f1 : binary32.fin (0 - radius) = some (-radius) := by
    rw [zero_sub]
    exact binary32.fin_of_rep (binary32.rep_neg hrep)
      (by rw [abs_neg, abs_of_neg h0]; linarith)
  have f2 : binary32.fin (0 + radius) = some radius := by
    rw [zero_add]
    exact binary32.fin_of_rep hrep (by rw [abs_of_neg h0]; linarith)
  have fl0 : ⌊-radius⌋ = 0 := by
    rw [Int.floor_eq_iff]; constructor <;> push_cast <;> linarith
  have ce0 : ⌈radius⌉ = 0 := by
    rw [Int.ceil_eq_iff]; constructor <;> push_cast <;> linarith
  have t0 : toInt ((0 : ℤ) : ℚ) = some 0 := toInt_intCast 0 (by norm_num) (by norm_num)
  have hbox : boxBounds width height 0 0 radius = some (0, 0, 0, 0) := by
    unfold boxBounds
    rw [f1, f2]
    simp only [Option.bind_eq_bind, Option.some_bind, fl0, ce0, t0]
    rw [max_self, min_eq_right (by omega), min_eq_right (by omega)]
  have hrr : |radius * radius| ≤ (2 : ℚ) ^ 0 := by
    rw [abs_of_nonneg (mul_self_nonneg radius), pow_zero]
    nlinarith
  obtain ⟨hr2, -⟩ := binary32_fin_le _ 0 (by norm_num) hrr
  have hr20 : 0 ≤ binary32.round (radius * radius) :=
    binary32.round_nonneg (mul_self_nonneg radius)
  have hpix : boxPixels 0 0 0 0 = [((0 : ℤ), (0 : ℤ))] := by decide
  have r0 : binary32.Rep (((0 : ℤ) : ℚ)) := by rw [Int.cast_zero]; exact binary32.rep_zero
  obtain ⟨-, -, -, ho⟩ := pixelOutcome_center 0 0 color radius
    (binary32.round (radius * radius)) r0 r0 h0.ne hr20
  rw [Int.cast_zero] at ho
  rw [draw_aa_point_eq, hbox, Option.some_bind, hr2, Option.some_bind]
  simp only
  rw [splatRows_eq, hpix]
  simp only [List.foldlM, Option.bind_eq_bind, Option.pure_def]
  rw [splatPixel_eq, ho]
  simp

/-- C6, amended: for every buffer, width, height, color strength, every radius in
`[-2 ^ 22, -1]` and every point with `|x|, |y| ≤ 2 ^ 22` (so that the box bounds fit in an
`int`), `draw_aa_point` returns with every byte of the buffer unchanged.  The bound `-1` cannot
be raised: for every `float` radius in `(-1, 0)` the splat at the point `(0, 0)` of a non-empty
image blends the pixel `(0, 0)` with the intensity `255 - color`. -/
theorem draw_aa_point_noop (buffer : Buffer) (width height : ℤ) (x y : ℚ) (color : Fin 256)
    (radius : ℚ) (hr : radius ≤ -1) (hr2 : -(2 : ℚ) ^ 22 ≤ radius) (hx : |x| ≤ 2 ^ 22)
    (hy : |y| ≤ 2 ^ 22) :
    draw_aa_point buffer width height x y color radius = some buffer ∧
    ∀ r : ℚ, -1 < r → r < 0 → binary32.Rep r → 1 ≤ width → 1 ≤ height →
      draw_aa_point buffer width height 0 0 color r
        = some (blend_pixel buffer 0 ⟨255 - color.val, by omega⟩) := by
  refine ⟨?_, fun r h1 h0 hrep hw hh =>
    draw_aa_point_small_negative buffer width height color r h1 h0 hrep hw hh⟩
  have hx' := abs_le.mp hx
  have hy' := abs_le.mp hy
  have b1 : |x - radius| ≤ 2 ^ 23 := abs_le.mpr ⟨by linarith, by linarith⟩
  have b2 : |y - radius| ≤ 2 ^ 23 := abs_le.mpr ⟨by linarith, by linarith⟩
  have b3 : |x + radius| ≤ 2 ^ 23 := abs_le.mpr ⟨by linarith, by linarith⟩
  have b4 : |y + radius| ≤ 2 ^ 23 := abs_le.mpr ⟨by linarith, by linarith⟩
  obtain ⟨f1, i1, -⟩ := binary32_fin_small _ b1
  obtain ⟨f2, i2, -⟩ := binary32_fin_small _ b2
  obtain ⟨f3, -, i3⟩ := binary32_fin_small _ b3
  obtain ⟨f4, -, i4⟩ := binary32_fin_small _ b4
  have hrs : binary32.fin (radius * radius) = some (binary32.round (radius * radius)) := by
    have hr44 : binary32.Rep ((2 : ℚ) ^ 44) :=
      ⟨1, 44, by norm_num, by simp only [binary32]; norm_num, by decide⟩
    have hbig := binary32_big 44 (by norm_num)
    exact (binary32.fin_of_bounds binary32.rep_zero hr44 (mul_self_nonneg radius)
      (by nlinarith) (by linarith [two_zpow_pos binary32.emax]) hbig).1
  have hempty := box_empty y radius hr hy
  have hrange : intRange (max 0 ⌊binary32.round (y - radius)⌋)
      (min (height - 1) ⌈binary32.round (y + radius)⌉) = [] :=
    intRange_empty _ _ (lt_of_le_of_lt (min_le_right _ _)
      (lt_of_lt_of_le hempty (le_max_right _ _)))
  simp only [draw_aa_point, Option.bind_eq_bind, Option.some_bind, f1, f2, f3, f4, i1, i2, i3,
    i4, hrs, hrange, List.foldlM, Option.pure_def]

/-- Witness of the amended C6: a splat of radius `-1` at `(3, 2.5)` of a white 4 by 4 image. -/
theorem draw_aa_point_noop_witness :
    draw_aa_point (fun _ => 255) 4 4 3 (5 / 2) 1 (-1) = some (fun _ => 255) ∧
    ∀ r : ℚ, -1 < r → r < 0 → binary32.Rep r → (1 : ℤ) ≤ 4 → (1 : ℤ) ≤ 4 →
      draw_aa_point (fun _ => 255) 4 4 0 0 1 r
        = some (blend_pixel (fun _ => 255) 0 ⟨255 - (1 : Fin 256).val, by decide⟩) :=
  draw_aa_point_noop (fun _ => 255) 4 4 3 (5 / 2) 1 (-1) (by norm_num) (by norm_num)
    (by rw [abs_of_pos] <;> norm_num) (by rw [abs_of_pos] <;> norm_num)

end LogisticMap
